import Mathlib

/-!
# SBRO text compressor: a shallow embedding of `src/sbro.cpp`

Conventions of the embedding.

* A byte is a natural number below 256; a byte buffer is a `List Nat`.
* Unsigned machine integers (`uint8_t`, `uint16_t`, `uint32_t`, `uint64_t`,
  `size_t`) are naturals, reduced `% 2^w` wherever the source can wrap.
* The conversion `(int)in.size()` is modelled by `toInt32`; other `int`
  variables that the source never makes negative (loop counters, positions)
  are naturals, the ones that can be negative (`dist`, trie links) are `Int`.
* `throw std::runtime_error(msg)` is `Except.error` with the constructor of
  `Err` that stands for `msg`.
* Loops with a known trip count are folds or structural recursions; open
  `while` loops take a fuel argument that bounds the number of rounds.
* Copy loops over a contiguous range are list slices.
* A shift whose count reaches the width of its operand is undefined in C++; the
  embedding shifts the natural number and then truncates to the width.
* Signed `int` arithmetic is exact (no wrap): apart from `(int)in.size()` it
  only handles positions and lengths of the input.
* `std::priority_queue` is `push_back` + `std::push_heap` and `std::pop_heap` +
  `pop_back` on a vector, with the heap algorithms of libstdc++
  (`bits/stl_heap.h`); `std::unordered_map` is an association list.
-/

namespace edu

/-! ## Outcomes -/

/-- The failures of the codec, one constructor per message of the source. -/
inductive Err where
  /-- Message "BitReader: out of bytes". -/
  | outOfBytes
  /-- Message "Huffman decode: invalid path". -/
  | invalidPath
  /-- Message "Invalid distance while simulating". -/
  | invalidDistSim
  /-- Message "Command stream does not reconstruct input.". -/
  | noReconstruct
  /-- Message "Encoder: bad distance". -/
  | encBadDistance
  /-- Message "Encoder self-check failed.". -/
  | encSelfCheck
  /-- Message "Input too small". -/
  | inputTooSmall
  /-- Message "Bad magic". -/
  | badMagic
  /-- Message "Unsupported version". -/
  | unsupportedVersion
  /-- Message "Decoded beyond raw size (literals).". -/
  | beyondRawLiterals
  /-- Message "Bad distance while decoding". -/
  | badDistance
  /-- Message "Decoded beyond raw size (match).". -/
  | beyondRawMatch
  /-- Message "Decoded size mismatch". -/
  | sizeMismatch
  /-- Not an exception of the source: the source indexes `in[off++]` past
  the end of the input vector (undefined behaviour in C++). -/
  | readPastEnd
  /-- Not an exception of the source: a `while` loop of the embedding used up
  its fuel. -/
  | outOfFuel
  deriving DecidableEq, Repr

/-- The text carried by the exception of the source. -/
def Err.what : Err → String
  | .outOfBytes => "BitReader: out of bytes"
  | .invalidPath => "Huffman decode: invalid path"
  | .invalidDistSim => "Invalid distance while simulating"
  | .noReconstruct => "Command stream does not reconstruct input."
  | .encBadDistance => "Encoder: bad distance"
  | .encSelfCheck => "Encoder self-check failed."
  | .inputTooSmall => "Input too small"
  | .badMagic => "Bad magic"
  | .unsupportedVersion => "Unsupported version"
  | .beyondRawLiterals => "Decoded beyond raw size (literals)."
  | .badDistance => "Bad distance while decoding"
  | .beyondRawMatch => "Decoded beyond raw size (match)."
  | .sizeMismatch => "Decoded size mismatch"
  | .readPastEnd => "(undefined behaviour: read past the end of the input)"
  | .outOfFuel => "(loop bound of the embedding exhausted)"

/-- The error kinds of the specification (section 7). -/
inductive ErrKind where
  | BadMagic | UnsupportedVersion | TruncatedHeader | EndOfStream
  | CorruptStream | SizeMismatch | InternalError | Undefined
  deriving DecidableEq, Repr

/-- Which kind of the specification a failure of the source belongs to. -/
def Err.kind : Err → ErrKind
  | .outOfBytes => .EndOfStream
  | .invalidPath => .CorruptStream
  | .invalidDistSim => .InternalError
  | .noReconstruct => .InternalError
  | .encBadDistance => .InternalError
  | .encSelfCheck => .InternalError
  | .inputTooSmall => .TruncatedHeader
  | .badMagic => .BadMagic
  | .unsupportedVersion => .UnsupportedVersion
  | .beyondRawLiterals => .CorruptStream
  | .badDistance => .CorruptStream
  | .beyondRawMatch => .CorruptStream
  | .sizeMismatch => .SizeMismatch
  | .readPastEnd => .Undefined
  | .outOfFuel => .Undefined

deriving instance DecidableEq for Except

/-- The value of `(int)x` for a 64-bit `size_t` value `x`: the low 32 bits read
as a two's complement number. -/
def toInt32 (x : Nat) : Int :=
  if x % 2 ^ 32 < 2 ^ 31 then ((x % 2 ^ 32 : Nat) : Int) else ((x % 2 ^ 32 : Nat) : Int) - 2 ^ 32

/-! ## Bit I/O (LSB-first) -/

/-- The `struct BitWriter`: emitted bytes, the 64-bit accumulator and the number
of pending bits. -/
structure BitWriter where
  out : List Nat := []
  buf : Nat := 0
  bitcnt : Nat := 0
  deriving DecidableEq, Repr

/-- The loop `while (bitcnt >= 8) { out.push_back(buf & 0xFF); buf >>= 8; bitcnt -= 8; }`. -/
def BitWriter.drain : Nat → BitWriter → BitWriter
  | 0, bw => bw
  | fuel + 1, bw =>
    if bw.bitcnt ≥ 8 then
      BitWriter.drain fuel
        { out := bw.out ++ [bw.buf &&& 0xFF], buf := bw.buf >>> 8, bitcnt := bw.bitcnt - 8 }
    else bw

/-- The method `BitWriter::writeBits(v, n)`. -/
def BitWriter.writeBits (bw : BitWriter) (v n : Nat) : BitWriter :=
  if n = 0 then bw
  else
    let mask := if n = 32 then 0xFFFFFFFF else ((1 <<< n) % 2 ^ 64 + (2 ^ 64 - 1)) % 2 ^ 64
    let buf := (bw.buf ||| (((v % 2 ^ 32) &&& mask) <<< bw.bitcnt)) % 2 ^ 64
    let bitcnt := bw.bitcnt + n
    BitWriter.drain (bitcnt / 8) { bw with buf := buf, bitcnt := bitcnt }

/-- The method `BitWriter::writeBit(b)`. -/
def BitWriter.writeBit (bw : BitWriter) (b : Nat) : BitWriter :=
  bw.writeBits (b &&& 1) 1

/-- The method `BitWriter::flushTo(dst)`: the new `dst`. -/
def BitWriter.flushTo (bw : BitWriter) (dst : List Nat) : List Nat :=
  let out := if bw.bitcnt > 0 then bw.out ++ [bw.buf &&& 0xFF] else bw.out
  dst ++ out

/-- The `struct BitReader`: backing bytes `p` (of length `n`), read index,
accumulator and number of buffered bits. -/
structure BitReader where
  p : List Nat
  idx : Nat := 0
  buf : Nat := 0
  bitcnt : Nat := 0
  deriving DecidableEq, Repr

/-- The refill loop of `readBits`:
`while (bitcnt < nbits) { if (idx >= n) throw ...; buf |= p[idx++] << bitcnt; bitcnt += 8; }`. -/
def BitReader.refill (nbits : Nat) : Nat → BitReader → Except Err BitReader
  | 0, br => if br.bitcnt < nbits then .error .outOfFuel else .ok br
  | fuel + 1, br =>
    if br.bitcnt < nbits then
      if br.idx ≥ br.p.length then .error .outOfBytes
      else
        BitReader.refill nbits fuel
          { br with
            buf := (br.buf ||| ((br.p.getD br.idx 0) <<< br.bitcnt)) % 2 ^ 64
            idx := br.idx + 1
            bitcnt := br.bitcnt + 8 }
    else .ok br

/-- The method `BitReader::readBits(nbits)`: the value read and the reader after
the read. Every round of the refill loop adds eight bits, so `nbits` rounds are
enough. -/
def BitReader.readBits (br : BitReader) (nbits : Nat) : Except Err (Nat × BitReader) :=
  match BitReader.refill nbits nbits br with
  | .error e => .error e
  | .ok br =>
    let v := if nbits = 32 then br.buf % 2 ^ 32
      else (br.buf &&& (((1 <<< nbits) % 2 ^ 64 + (2 ^ 64 - 1)) % 2 ^ 64)) % 2 ^ 32
    .ok (v, { br with buf := br.buf >>> nbits, bitcnt := br.bitcnt - nbits })

/-- The method `BitReader::readBit()`. -/
def BitReader.readBit (br : BitReader) : Except Err (Nat × BitReader) :=
  br.readBits 1

/-! ## Bucket coding -/

/-- Number of consecutive zero bits of `v` from bit `k - 1` downwards. -/
def clzFrom : Nat → Nat → Nat
  | 0, _ => 0
  | k + 1, v => if v.testBit k then 0 else 1 + clzFrom k v

/-- The compiler builtin `__builtin_clz` on a 32-bit operand: the number of
leading zero bits, counted from the most significant bit. -/
def builtin_clz (v : Nat) : Nat := clzFrom 32 v

/-- The function `BucketCoder::ilog2_u32`: `31 - __builtin_clz(v)`. -/
def BucketCoder.ilog2_u32 (v : Nat) : Nat := 31 - builtin_clz v

/-- The `struct BucketCoder::Enc`. -/
structure BucketCoder.Enc where
  sym : Nat
  exBits : Nat
  exVal : Nat
  deriving DecidableEq, Repr

/-- The function `BucketCoder::encode`. -/
def BucketCoder.encode (value : Nat) : BucketCoder.Enc :=
  if value = 0 then { sym := 0, exBits := 0, exVal := 0 }
  else
    let k := BucketCoder.ilog2_u32 value
    let base := (1 <<< k) % 2 ^ 32
    { sym := (k + 1) % 2 ^ 32, exBits := k, exVal := (value + (2 ^ 32 - base)) % 2 ^ 32 }

/-- The function `BucketCoder::decode`. For `sym >= 33` the source shifts a
`uint32_t` by 32 or more (`1u << (sym - 1)`), which is undefined in C++; the
embedding takes such a shift to give 0, and compiled code may give another
value. The encoder only produces `sym <= 32`; larger symbols come from a
malformed header in `decompress_sbro`. -/
def BucketCoder.decode (sym exVal : Nat) : Nat :=
  if sym = 0 then 0
  else
    let base := (1 <<< (sym - 1)) % 2 ^ 32
    (base + exVal) % 2 ^ 32

/-! ## Context classifier -/

/-- The function `charContext`. -/
def charContext (prev : Nat) : Nat :=
  if ('A'.toNat ≤ prev ∧ prev ≤ 'Z'.toNat) ∨ ('a'.toNat ≤ prev ∧ prev ≤ 'z'.toNat) then 0
  else if '0'.toNat ≤ prev ∧ prev ≤ '9'.toNat then 1
  else if prev = ' '.toNat ∨ prev = '\t'.toNat ∨ prev = '\n'.toNat ∨ prev = '\r'.toNat
      ∨ prev = '\x0c'.toNat ∨ prev = '\x0b'.toNat then 2
  else 3

/-! ## Huffman (canonical) -/

/-- The `struct Huffman::Node` of the decode trie; `-1` stands for "none". -/
structure Node where
  l : Int := -1
  r : Int := -1
  sym : Int := -1
  deriving DecidableEq, Repr

/-- The `struct Huffman`. -/
structure Huffman where
  codeLen : List Nat := []
  code : List Nat := []
  codeRev : List Nat := []
  alphabet : Nat := 0
  nodes : List Node := []
  deriving DecidableEq, Repr

/-- The function `Huffman::reverseBits`, on `uint32_t`. For `len > 32` the source
shifts a `uint32_t` by 32 or more (`x >> i`), which is undefined in C++; the
embedding takes such a shift to give 0, and compiled code may give another
value (a shift count taken modulo 32). For `len <= 32` every shift is defined. -/
def Huffman.reverseBits (x len : Nat) : Nat :=
  (List.range len).foldl (fun r i => ((r <<< 1) % 2 ^ 32) ||| ((x >>> i) &&& 1)) 0

/-- One round of the inner loop of `buildDecTree`: follow (or create) the edge
for bit `i` of `rev` out of node `cur`. For `i >= 32` the shift `rev >> i` of a
`uint32_t` is undefined in C++; the embedding takes it to give 0. -/
def Huffman.walkBit (rev : Nat) (st : List Node × Nat) (i : Nat) : List Node × Nat :=
  let nodes := st.1
  let cur := st.2
  let b := (rev >>> i) &&& 1
  let nd := nodes.getD cur {}
  let nxt := if b = 0 then nd.l else nd.r
  if nxt = -1 then
    let fresh := nodes.length
    let nodes := nodes ++ [({} : Node)]
    let nodes := nodes.set cur
      (if b = 0 then { nd with l := (fresh : Int) } else { nd with r := (fresh : Int) })
    (nodes, fresh)
  else (nodes, nxt.toNat)

/-- The body of the outer loop of `buildDecTree` for symbol `s`. -/
def Huffman.insertSym (codeLen codeRev : List Nat) (nodes : List Node) (s : Nat) : List Node :=
  let len := codeLen.getD s 0
  if len = 0 then nodes
  else
    let rev := codeRev.getD s 0
    let st := (List.range len).foldl (Huffman.walkBit rev) (nodes, 0)
    st.1.set st.2 { (st.1.getD st.2 {}) with sym := (s : Int) }

/-- The method `Huffman::buildDecTree`. -/
def Huffman.buildDecTree (h : Huffman) : Huffman :=
  { h with
    nodes := (List.range h.alphabet).foldl (Huffman.insertSym h.codeLen h.codeRev) [({} : Node)] }

/-- The local `struct T` of `buildFromFreq`: a node of the Huffman tree. -/
structure T where
  f : Nat
  id : Nat
  l : Int := -1
  r : Int := -1
  sym : Int := -1
  deriving DecidableEq, Repr, Inhabited

/-- The local `struct Item` of `buildFromFreq`; `operator>` compares `f` only. -/
structure Item where
  f : Nat
  id : Nat
  deriving DecidableEq, Repr, Inhabited

/-- The sift-up loop of `std::__push_heap` (libstdc++) under `std::greater<Item>`:
`while (hole > top && comp(first[parent], value))`, with `comp(a, b) = a.f > b.f`. -/
def heapSiftUp (value : Item) (topIndex : Nat) : Nat → List Item → Nat → List Item × Nat
  | 0, c, hole => (c, hole)
  | fuel + 1, c, hole =>
    let parent := (hole - 1) / 2
    if hole > topIndex ∧ (c.getD parent default).f > value.f then
      heapSiftUp value topIndex fuel (c.set hole (c.getD parent default)) parent
    else (c, hole)

/-- The helper `std::__push_heap(first, holeIndex, topIndex, value, comp)`. -/
def std_push_heap (c : List Item) (holeIndex topIndex : Nat) (value : Item) : List Item :=
  let st := heapSiftUp value topIndex (holeIndex + 1) c holeIndex
  st.1.set st.2 value

/-- The sift-down loop of `std::__adjust_heap`: `while (secondChild < (len - 1) / 2)`. -/
def heapSiftDown (len : Nat) : Nat → List Item → Nat → Nat → List Item × Nat × Nat
  | 0, c, hole, second => (c, hole, second)
  | fuel + 1, c, hole, second =>
    if second < (len - 1) / 2 then
      let second := 2 * (second + 1)
      let second :=
        if (c.getD second default).f > (c.getD (second - 1) default).f then second - 1 else second
      heapSiftDown len fuel (c.set hole (c.getD second default)) second second
    else (c, hole, second)

/-- The helper `std::__adjust_heap(first, holeIndex, len, value, comp)`. -/
def std_adjust_heap (c : List Item) (holeIndex len : Nat) (value : Item) : List Item :=
  let st := heapSiftDown len len c holeIndex holeIndex
  let c := st.1
  let hole := st.2.1
  let second := st.2.2
  let st2 : List Item × Nat :=
    if len % 2 = 0 ∧ second = (len - 2) / 2 then
      let second := 2 * (second + 1)
      (c.set hole (c.getD (second - 1) default), second - 1)
    else (c, hole)
  std_push_heap st2.1 st2.2 holeIndex value

/-- The method `priority_queue::push`: `c.push_back(x); push_heap(c.begin(), c.end(), comp)`. -/
def pq_push (c : List Item) (x : Item) : List Item :=
  std_push_heap (c ++ [x]) c.length 0 x

/-- The method `priority_queue::pop`: `pop_heap(c.begin(), c.end(), comp); c.pop_back()`. -/
def pq_pop (c : List Item) : List Item :=
  if c.length > 1 then
    let last := c.length - 1
    let value := c.getD last default
    let c := c.set last (c.getD 0 default)
    (std_adjust_heap c 0 last value).dropLast
  else c.dropLast

/-- The method `priority_queue::top`. -/
def pq_top (c : List Item) : Item := c.getD 0 default

/-- The loop `while (pq.size() >= 2)` of `buildFromFreq`; state `(tn, pq, root)`. -/
def Huffman.mergeLoop : Nat → List T → List Item → Int → List T × List Item × Int
  | 0, tn, pq, root => (tn, pq, root)
  | fuel + 1, tn, pq, root =>
    if pq.length ≥ 2 then
      let a := pq_top pq
      let pq := pq_pop pq
      let b := pq_top pq
      let pq := pq_pop pq
      let id := tn.length
      let tn := tn ++ [({ f := (a.f + b.f) % 2 ^ 64, id := id, l := (a.id : Int),
                          r := (b.id : Int), sym := -1 } : T)]
      let pq := pq_push pq { f := (tn.getD id default).f, id := id }
      Huffman.mergeLoop fuel tn pq (id : Int)
    else (tn, pq, root)

/-- The recursive lambda `dfs(u, d)` of `buildFromFreq`, threading `codeLen`
(a `uint8_t` vector). -/
def Huffman.dfs (tn : List T) : Nat → Int → Nat → List Nat → List Nat
  | 0, _, _, codeLen => codeLen
  | fuel + 1, u, d, codeLen =>
    let t := tn.getD u.toNat default
    if t.sym ≠ -1 then codeLen.set t.sym.toNat ((if d = 0 then 1 else d) % 256)
    else Huffman.dfs tn fuel t.r (d + 1) (Huffman.dfs tn fuel t.l (d + 1) codeLen)

/-- The canonical code assignment at the end of `buildFromFreq` (lines 134-149):
the new `code` and `codeRev`. -/
def Huffman.assignCodes (alphabet : Nat) (codeLen code codeRev : List Nat) :
    List Nat × List Nat :=
  let maxL := codeLen.foldl (fun m L => max m L) 0
  let bl_count := (List.range alphabet).foldl
    (fun bl i =>
      if codeLen.getD i 0 ≠ 0 then bl.set (codeLen.getD i 0) (bl.getD (codeLen.getD i 0) 0 + 1)
      else bl)
    (List.replicate (maxL + 1) 0)
  let nc := (List.range maxL).foldl
    (fun (st : List Nat × Nat) j =>
      let bits := j + 1
      let c := ((st.2 + bl_count.getD (bits - 1) 0) <<< 1) % 2 ^ 32
      (st.1.set bits c, c))
    (List.replicate (maxL + 1) 0, 0)
  let res := (List.range alphabet).foldl
    (fun (st : List Nat × List Nat × List Nat) i =>
      let len := codeLen.getD i 0
      if len = 0 then st
      else
        let cv := st.1.getD len 0
        (st.1.set len ((cv + 1) % 2 ^ 32), st.2.1.set i cv,
          st.2.2.set i (Huffman.reverseBits cv len)))
    (nc.1, code, codeRev)
  (res.2.1, res.2.2)

/-- The method `Huffman::buildFromFreq`. -/
def Huffman.buildFromFreq (freq : List Nat) : Huffman :=
  let alphabet := freq.length
  let h0 : Huffman :=
    { codeLen := List.replicate alphabet 0, code := List.replicate alphabet 0,
      codeRev := List.replicate alphabet 0, alphabet := alphabet }
  let syms := (List.range alphabet).filter (fun i => freq.getD i 0 > 0)
  if syms = [] then
    if alphabet = 0 then h0.buildDecTree
    else
      Huffman.buildDecTree
        { h0 with codeLen := h0.codeLen.set 0 1, code := h0.code.set 0 0,
                  codeRev := h0.codeRev.set 0 0 }
  else if syms.length = 1 then
    let s := syms.getD 0 0
    Huffman.buildDecTree
      { h0 with codeLen := h0.codeLen.set s 1, code := h0.code.set s 0,
                codeRev := h0.codeRev.set s 0 }
  else
    let init := syms.foldl
      (fun (st : List T × List Item) s =>
        let id := st.1.length
        (st.1 ++ [({ f := freq.getD s 0, id := id, l := -1, r := -1, sym := (s : Int) } : T)],
          pq_push st.2 { f := freq.getD s 0, id := id }))
      (([] : List T), ([] : List Item))
    let merged := Huffman.mergeLoop init.2.length init.1 init.2 (-1)
    let tn := merged.1
    let root := if merged.2.2 = -1 then ((pq_top merged.2.1).id : Int) else merged.2.2
    let codeLen := Huffman.dfs tn (tn.length + 1) root 0 h0.codeLen
    let cc := Huffman.assignCodes alphabet codeLen h0.code h0.codeRev
    Huffman.buildDecTree { h0 with codeLen := codeLen, code := cc.1, codeRev := cc.2 }

/-- The method `Huffman::encSymbol`. -/
def Huffman.encSymbol (h : Huffman) (bw : BitWriter) (s : Nat) : BitWriter :=
  let len := h.codeLen.getD s 0
  bw.writeBits (h.codeRev.getD s 0) len

/-- The loop of `Huffman::decSymbol`, started at trie node `cur`. -/
def Huffman.decWalk (h : Huffman) : Nat → BitReader → Int → Except Err (Int × BitReader)
  | 0, _, _ => .error .outOfFuel
  | fuel + 1, br, cur =>
    let nd := h.nodes.getD cur.toNat {}
    if nd.sym ≠ -1 then .ok (nd.sym, br)
    else
      match br.readBit with
      | .error e => .error e
      | .ok (bit, br) =>
        let cur := if bit = 0 then nd.l else nd.r
        if cur = -1 then .error .invalidPath
        else Huffman.decWalk h fuel br cur

/-- Number of bits a reader can still deliver: the buffered ones and those of the
bytes not yet loaded. -/
def BitReader.remaining (br : BitReader) : Nat :=
  br.bitcnt + 8 * (br.p.length - br.idx)

/-- The method `Huffman::decSymbol`. Every round of its loop reads one bit, so
the bits left in the reader (plus one) bound the number of rounds. -/
def Huffman.decSymbol (h : Huffman) (br : BitReader) : Except Err (Int × BitReader) :=
  Huffman.decWalk h (br.remaining + 1) br 0

/-- The function `BucketCoder::decodeFromStream`. -/
def BucketCoder.decodeFromStream (h : Huffman) (br : BitReader) : Except Err (Nat × BitReader) :=
  match h.decSymbol br with
  | .error e => .error e
  | .ok (sym, br) =>
    if sym = 0 then .ok (0, br)
    else
      let eb := (sym - 1).toNat
      if eb ≠ 0 then
        match br.readBits eb with
        | .error e => .error e
        | .ok (ev, br) => .ok (BucketCoder.decode (sym.toNat % 2 ^ 32) ev, br)
      else .ok (BucketCoder.decode (sym.toNat % 2 ^ 32) 0, br)

/-! ## LZ77 (32 KiB window) -/

/-- The `struct Command`. -/
structure Command where
  literals : List Nat := []
  hasMatch : Bool := false
  matchLen : Nat := 0
  distance : Nat := 0
  deriving DecidableEq, Repr

/-- The constant `LZ77::WND`. -/
def LZ77.WND : Nat := 32768

/-- The constant `LZ77::MIN_MATCH`. -/
def LZ77.MIN_MATCH : Nat := 3

/-- The constant `LZ77::MAX_CANDS`. -/
def LZ77.MAX_CANDS : Nat := 64

/-- The map `std::unordered_map<uint32_t, std::vector<int>> ht`, as an
association list from key to candidate positions. -/
abbrev HashTable := List (Nat × List Nat)

/-- The lookup `ht.find(key)`. -/
def HashTable.find (ht : HashTable) (key : Nat) : Option (List Nat) :=
  match ht with
  | [] => none
  | (k, v) :: rest => if k = key then some v else HashTable.find rest key

/-- Store `v` under `key`, replacing the entry if there is one. -/
def HashTable.store (ht : HashTable) (key : Nat) (v : List Nat) : HashTable :=
  match ht with
  | [] => [(key, v)]
  | (k, w) :: rest => if k = key then (k, v) :: rest else (k, w) :: HashTable.store rest key v

/-- The trigram key `(in[pos] << 16) | (in[pos+1] << 8) | in[pos+2]`. -/
def LZ77.key3 (inp : List Nat) (pos : Nat) : Nat :=
  (((inp.getD pos 0) <<< 16) % 2 ^ 32) ||| (((inp.getD (pos + 1) 0) <<< 8) % 2 ^ 32)
    ||| (inp.getD (pos + 2) 0)

/-- The lambda `push_key` of `LZ77::parse`. -/
def LZ77.push_key (inp : List Nat) (ht : HashTable) (pos : Nat) : HashTable :=
  if ((pos : Int) + 2 ≥ toInt32 inp.length) then ht
  else
    let key := LZ77.key3 inp pos
    let v := ((HashTable.find ht key).getD []) ++ [pos]
    let v :=
      if v.length > LZ77.MAX_CANDS * 4 then v.drop (v.length - LZ77.MAX_CANDS * 2) else v
    HashTable.store ht key v

/-- The loop `while (L < maxL && in[p+L] == in[i+L]) ++L`; the first argument
counts the rounds still allowed by `L < maxL`. -/
def LZ77.extend (inp : List Nat) (p i : Nat) : Nat → Nat → Nat
  | 0, L => L
  | rest + 1, L =>
    if inp.getD (p + L) 0 = inp.getD (i + L) 0 then LZ77.extend inp p i rest (L + 1) else L

/-- The candidate loop
`for (idx = cand.size()-1; idx >= 0 && checked < MAX_CANDS; --idx, ++checked)`,
run over the candidates from the most recent one; state `(bestLen, bestDist)`. -/
def LZ77.candLoop (inp : List Nat) (n : Int) (i : Nat) :
    List Nat → Nat → Nat × Int → Nat × Int
  | [], _, best => best
  | p :: older, checked, best =>
    if checked < LZ77.MAX_CANDS then
      let dist : Int := (i : Int) - (p : Int)
      if dist ≤ 0 ∨ dist > (LZ77.WND : Int) then LZ77.candLoop inp n i older (checked + 1) best
      else
        let maxL := (min (n - (i : Int)) (LZ77.WND : Int)).toNat
        let L := LZ77.extend inp p i maxL 0
        if L ≥ LZ77.MIN_MATCH ∧ L > best.1 then
          if L ≥ 258 then (L, dist)
          else LZ77.candLoop inp n i older (checked + 1) (L, dist)
        else LZ77.candLoop inp n i older (checked + 1) best
    else best

/-- The match search at position `i` (lines 265-285): `(bestLen, bestDist)`. -/
def LZ77.findBest (inp : List Nat) (n : Int) (ht : HashTable) (i : Nat) : Nat × Int :=
  if (i : Int) + (LZ77.MIN_MATCH : Int) - 1 < n then
    let key := if (i : Int) + 2 < n then LZ77.key3 inp i else 0xFFFFFF
    match HashTable.find ht key with
    | some cand => LZ77.candLoop inp n i cand.reverse 0 (0, 0)
    | none => (0, 0)
  else (0, 0)

/-- The state of the main loop of `LZ77::parse`. -/
structure LZ77.State where
  i : Nat := 0
  litbuf : List Nat := []
  ht : HashTable := []
  cmds : List Command := []
  deriving DecidableEq, Repr

/-- The main loop `while (i < n)` of `LZ77::parse`. -/
def LZ77.parseLoop (inp : List Nat) (n : Int) : Nat → LZ77.State → LZ77.State
  | 0, st => st
  | fuel + 1, st =>
    if (st.i : Int) < n then
      let best := LZ77.findBest inp n st.ht st.i
      let bestLen := best.1
      let bestDist := best.2
      if bestLen ≥ LZ77.MIN_MATCH then
        let cmd : Command :=
          { literals := st.litbuf, hasMatch := true, matchLen := bestLen % 2 ^ 32,
            distance := bestDist.toNat % 2 ^ 32 }
        let ht := (List.range bestLen).foldl (fun ht j => LZ77.push_key inp ht (st.i + j)) st.ht
        LZ77.parseLoop inp n fuel
          { i := st.i + bestLen, litbuf := [], ht := ht, cmds := st.cmds ++ [cmd] }
      else
        LZ77.parseLoop inp n fuel
          { st with i := st.i + 1, litbuf := st.litbuf ++ [inp.getD st.i 0],
                    ht := LZ77.push_key inp st.ht st.i }
    else st

/-- The function `LZ77::parse`. Every round of the main loop advances `i`, so
`n` rounds are enough. -/
def LZ77.parse (inp : List Nat) : List Command :=
  let n := toInt32 inp.length
  let ht := LZ77.push_key inp (LZ77.push_key inp [] 0) 1
  let st := LZ77.parseLoop inp n n.toNat { ht := ht }
  if st.litbuf ≠ [] then st.cmds ++ [{ literals := st.litbuf, hasMatch := false }]
  else st.cmds

/-! ## Codebooks -/

/-- The copy loop `for (k = 0; k < matchLen; k++) out.push_back(out[start + k])`;
the arguments are the rounds left, `k` and `out`. -/
def copyRun (start : Nat) : Nat → Nat → List Nat → List Nat
  | 0, _, out => out
  | m + 1, k, out => copyRun start m (k + 1) (out ++ [out.getD (start + k) 0])

/-- The lambda `bumpLenBucket` of `Codebooks::build`. -/
def bumpLenBucket (F : List Nat) (val : Nat) : List Nat :=
  let e := BucketCoder.encode val
  let need := e.sym + 1
  let F := if F.length < need then F ++ List.replicate (need - F.length) 0 else F
  F.set e.sym ((F.getD e.sym 0 + 1) % 2 ^ 64)

/-- The local state of the tally loop of `Codebooks::build`. -/
structure Tally where
  litFreq : List (List Nat) := List.replicate 4 (List.replicate 256 0)
  insFreq : List Nat := [0]
  copFreq : List Nat := [0]
  distFreq : List Nat := [0]
  out : List Nat := []
  deriving DecidableEq, Repr

/-- The literal loop of `Codebooks::build` (lines 345-349). -/
def tallyLiterals (t : Tally) (lits : List Nat) : Tally :=
  lits.foldl
    (fun t b =>
      let ctx := if t.out = [] then 3 else charContext (t.out.getLastD 0)
      let row := t.litFreq.getD ctx []
      { t with litFreq := t.litFreq.set ctx (row.set b ((row.getD b 0 + 1) % 2 ^ 64)),
               out := t.out ++ [b] })
    t

/-- The body of the command loop of `Codebooks::build` (lines 344-360). -/
def tallyCommand (t : Tally) (cmd : Command) : Except Err Tally :=
  let t := tallyLiterals t cmd.literals
  let t := { t with insFreq := bumpLenBucket t.insFreq (cmd.literals.length % 2 ^ 32) }
  if cmd.hasMatch then
    let t :=
      { t with copFreq := bumpLenBucket t.copFreq ((cmd.matchLen + (2 ^ 32 - 3)) % 2 ^ 32),
               distFreq := bumpLenBucket t.distFreq ((cmd.distance + (2 ^ 32 - 1)) % 2 ^ 32) }
    if cmd.distance = 0 ∨ cmd.distance > t.out.length then .error .invalidDistSim
    else
      let start := t.out.length - cmd.distance
      .ok { t with out := copyRun start cmd.matchLen 0 t.out }
  else .ok t

/-- The command loop of `Codebooks::build`. -/
def tallyLoop : List Command → Tally → Except Err Tally
  | [], t => .ok t
  | cmd :: rest, t =>
    match tallyCommand t cmd with
    | .error e => .error e
    | .ok t => tallyLoop rest t

/-- The `struct Codebooks`. -/
structure Codebooks where
  lit : List Huffman
  insLen : Huffman
  copLen : Huffman
  dist : Huffman
  litCodeLen : List (List Nat)
  insCodeLen : List Nat
  copCodeLen : List Nat
  distCodeLen : List Nat
  deriving DecidableEq, Repr

/-- The copy `litCodeLen[c].assign(256, 0); for s < 256: litCodeLen[c][s] = lit[c].codeLen[s]`
(the literal tables have 256 code lengths). -/
def litRow (h : Huffman) : List Nat :=
  h.codeLen.take 256

/-- The statement `X.assign(h.codeLen...); if (X.empty()) X.resize(1, 1);`. -/
def lenRow (h : Huffman) : List Nat :=
  if h.codeLen = [] then [1] else h.codeLen

/-- The method `Codebooks::build`. -/
def Codebooks.build (cmds : List Command) (original : List Nat) : Except Err Codebooks :=
  match tallyLoop cmds {} with
  | .error e => .error e
  | .ok t =>
    if t.out ≠ original then .error .noReconstruct
    else
      let lit := (List.range 4).map (fun c => Huffman.buildFromFreq (t.litFreq.getD c []))
      let insLen := Huffman.buildFromFreq t.insFreq
      let copLen := Huffman.buildFromFreq t.copFreq
      let dist := Huffman.buildFromFreq t.distFreq
      .ok { lit := lit, insLen := insLen, copLen := copLen, dist := dist,
            litCodeLen := lit.map litRow,
            insCodeLen := lenRow insLen, copCodeLen := lenRow copLen,
            distCodeLen := lenRow dist }

/-! ## Little-endian helpers -/

/-- The function `write_u32_le`: the four bytes appended. -/
def write_u32_le (buf : List Nat) (v : Nat) : List Nat :=
  buf ++ [v &&& 0xFF, (v >>> 8) &&& 0xFF, (v >>> 16) &&& 0xFF, (v >>> 24) &&& 0xFF]

/-- The function `write_u16_le`. -/
def write_u16_le (buf : List Nat) (v : Nat) : List Nat :=
  buf ++ [v &&& 0xFF, (v >>> 8) &&& 0xFF]

/-- The function `read_u32_le`, reading at offset `off` of `p`. -/
def read_u32_le (p : List Nat) (off : Nat) : Nat :=
  (p.getD off 0 ||| ((p.getD (off + 1) 0) <<< 8) ||| ((p.getD (off + 2) 0) <<< 16)
    ||| ((p.getD (off + 3) 0) <<< 24)) % 2 ^ 32

/-- The function `read_u16_le`, reading at offset `off` of `p`. -/
def read_u16_le (p : List Nat) (off : Nat) : Nat :=
  (p.getD off 0 ||| ((p.getD (off + 1) 0) <<< 8)) % 2 ^ 16

/-! ## Encoder -/

/-- The pattern `e = BucketCoder::encode(val); h.encSymbol(bw, e.sym);
if (e.exBits > 0) bw.writeBits(e.exVal, e.exBits);` of `compress_sbro`. -/
def encodeBucket (h : Huffman) (bw : BitWriter) (val : Nat) : BitWriter :=
  let e := BucketCoder.encode val
  let bw := h.encSymbol bw e.sym
  if e.exBits > 0 then bw.writeBits e.exVal e.exBits else bw

/-- The literal loop of `compress_sbro` (lines 427-431); state `(bw, recon)`. -/
def encodeLiterals (cb : Codebooks) (st : BitWriter × List Nat) (lits : List Nat) :
    BitWriter × List Nat :=
  lits.foldl
    (fun st b =>
      let ctx := if st.2 = [] then 3 else charContext (st.2.getLastD 0)
      ((cb.lit.getD ctx {}).encSymbol st.1 b, st.2 ++ [b]))
    st

/-- The body of the command loop of `compress_sbro` (lines 422-449). -/
def encodeCommand (cb : Codebooks) (st : BitWriter × List Nat) (cmd : Command) :
    Except Err (BitWriter × List Nat) :=
  let bw := encodeBucket cb.insLen st.1 (cmd.literals.length % 2 ^ 32)
  let st := encodeLiterals cb (bw, st.2) cmd.literals
  let bw := st.1.writeBit (if cmd.hasMatch then 1 else 0)
  let recon := st.2
  if cmd.hasMatch then
    let bw := encodeBucket cb.copLen bw ((cmd.matchLen + (2 ^ 32 - 3)) % 2 ^ 32)
    let bw := encodeBucket cb.dist bw ((cmd.distance + (2 ^ 32 - 1)) % 2 ^ 32)
    if cmd.distance = 0 ∨ cmd.distance > recon.length then .error .encBadDistance
    else
      let start := recon.length - cmd.distance
      .ok (bw, copyRun start cmd.matchLen 0 recon)
  else .ok (bw, recon)

/-- The command loop of `compress_sbro`. -/
def encodeLoop (cb : Codebooks) : List Command → BitWriter × List Nat →
    Except Err (BitWriter × List Nat)
  | [], st => .ok st
  | cmd :: rest, st =>
    match encodeCommand cb st cmd with
    | .error e => .error e
    | .ok st => encodeLoop cb rest st

/-- The loop `for (i = 0; i < A; i++) out.push_back(i < cl.size() ? cl[i] : 0)`. -/
def padRow (A : Nat) (cl : List Nat) : List Nat :=
  (List.range A).map (fun i => if i < cl.length then cl.getD i 0 else 0)

/-- The header and code-length tables written by `compress_sbro` (lines 402-417). -/
def headerBytes (cb : Codebooks) (size : Nat) : List Nat :=
  let out := [('S'.toNat), ('B'.toNat), ('R'.toNat), ('O'.toNat)]
  let out := out ++ [1]
  let out := write_u32_le out (size % 2 ^ 32)
  let insA := (max cb.insCodeLen.length 1) % 2 ^ 16
  let copA := (max cb.copCodeLen.length 1) % 2 ^ 16
  let dstA := (max cb.distCodeLen.length 1) % 2 ^ 16
  let out := write_u16_le out insA
  let out := write_u16_le out copA
  let out := write_u16_le out dstA
  let out := out ++ (List.range 4).flatMap (fun c => (cb.litCodeLen.getD c []).take 256)
  let out := out ++ padRow insA cb.insCodeLen
  let out := out ++ padRow copA cb.copCodeLen
  out ++ padRow dstA cb.distCodeLen

/-- The function `compress_sbro`. -/
def compress_sbro (input : List Nat) : Except Err (List Nat) :=
  let cmds := LZ77.parse input
  match Codebooks.build cmds input with
  | .error e => .error e
  | .ok cb =>
    let out := headerBytes cb input.length
    match encodeLoop cb cmds ({}, []) with
    | .error e => .error e
    | .ok st =>
      if st.2 ≠ input then .error .encSelfCheck
      else .ok (st.1.flushTo out)

/-! ## Decoder -/

/-- The lambda `buildFromCL` of `decompress_sbro`. -/
def buildFromCL (cl : List Nat) : Huffman :=
  let alphabet := cl.length
  let h : Huffman :=
    { alphabet := alphabet, codeLen := cl, code := List.replicate alphabet 0,
      codeRev := List.replicate alphabet 0 }
  if alphabet = 0 then h.buildDecTree
  else
    let maxL0 := cl.foldl (fun m L => max m L) 0
    let codeLen := if maxL0 = 0 then (List.replicate (max 1 alphabet) 0).set 0 1 else cl
    let maxL := if maxL0 = 0 then 1 else maxL0
    let bl_count := codeLen.foldl
      (fun bl L => if L ≠ 0 then bl.set L (bl.getD L 0 + 1) else bl)
      (List.replicate (maxL + 1) 0)
    let nc := (List.range maxL).foldl
      (fun (st : List Nat × Nat) j =>
        let bits := j + 1
        let codev := ((st.2 + bl_count.getD (bits - 1) 0) <<< 1) % 2 ^ 32
        (st.1.set bits codev, codev))
      (List.replicate (maxL + 1) 0, 0)
    let res := (List.range alphabet).foldl
      (fun (st : List Nat × List Nat × List Nat) s =>
        let len := codeLen.getD s 0
        if len = 0 then st
        else
          let cv := st.1.getD len 0
          (st.1.set len ((cv + 1) % 2 ^ 32), st.2.1.set s cv,
            st.2.2.set s (Huffman.reverseBits cv len)))
      (nc.1, h.code, h.codeRev)
    Huffman.buildDecTree { h with codeLen := codeLen, code := res.2.1, codeRev := res.2.2 }

/-- The loops `for (i = 0; i < A; i++) X[i] = in[off++]` of the header parse. The
source does not compare `off` with `in.size()`; a read at or past the end is
undefined behaviour. The embedding records it as the outcome `Err.readPastEnd`
(kind `Undefined`) and does not follow the program beyond it: this outcome is
not an error that the program raises, and where it appears nothing is known of
what the program does next. -/
def readTable (inp : List Nat) (off cnt : Nat) : Except Err (List Nat) :=
  if off + cnt > inp.length then .error .readPastEnd
  else .ok ((inp.drop off).take cnt)

/-- The literal loop of `decompress_sbro` (lines 527-532), `cnt` rounds. -/
def decodeLiterals (lit : List Huffman) (rawSize : Nat) :
    Nat → BitReader → List Nat → Except Err (List Nat × BitReader)
  | 0, br, out => .ok (out, br)
  | cnt + 1, br, out =>
    let ctx := if out = [] then 3 else charContext (out.getLastD 0)
    match (lit.getD ctx {}).decSymbol br with
    | .error e => .error e
    | .ok (litSym, br) =>
      let out := out ++ [litSym.toNat % 256]
      if out.length > rawSize then .error .beyondRawLiterals
      else decodeLiterals lit rawSize cnt br out

/-- The copy loop of `decompress_sbro` (lines 544-547); the arguments are the
rounds left, `k` and `out`. -/
def copyMatch (rawSize start : Nat) : Nat → Nat → List Nat → Except Err (List Nat)
  | 0, _, out => .ok out
  | m + 1, k, out =>
    let out := out ++ [out.getD (start + k) 0]
    if out.length > rawSize then .error .beyondRawMatch
    else copyMatch rawSize start m (k + 1) out

/-- The seven tables of the decoder. -/
structure DecTables where
  lit : List Huffman
  insH : Huffman
  copH : Huffman
  dstH : Huffman
  deriving DecidableEq, Repr

/-- The main loop `while (out.size() < rawSize)` of `decompress_sbro`. -/
def decodeLoop (tb : DecTables) (rawSize : Nat) :
    Nat → BitReader → List Nat → Except Err (List Nat)
  | 0, _, _ => .error .outOfFuel
  | fuel + 1, br, out =>
    if out.length < rawSize then
      match BucketCoder.decodeFromStream tb.insH br with
      | .error e => .error e
      | .ok (insVal, br) =>
        match decodeLiterals tb.lit rawSize insVal br out with
        | .error e => .error e
        | .ok (out, br) =>
          if out.length ≥ rawSize then .ok out
          else
            match br.readBit with
            | .error e => .error e
            | .ok (hasM, br) =>
              if hasM = 0 then decodeLoop tb rawSize fuel br out
              else
                match BucketCoder.decodeFromStream tb.copH br with
                | .error e => .error e
                | .ok (lenVal, br) =>
                  let matchLen := (lenVal + 3) % 2 ^ 32
                  match BucketCoder.decodeFromStream tb.dstH br with
                  | .error e => .error e
                  | .ok (dstVal, br) =>
                    let dist := (dstVal + 1) % 2 ^ 32
                    if dist = 0 ∨ dist > out.length then .error .badDistance
                    else
                      let start := out.length - dist
                      match copyMatch rawSize start matchLen 0 out with
                      | .error e => .error e
                      | .ok out => decodeLoop tb rawSize fuel br out
    else .ok out

/-- The function `decompress_sbro`. Every round of the main loop that goes on to
another round reads the `hasMatch` bit, so the bits of the stream (plus one)
bound the number of rounds. -/
def decompress_sbro (inp : List Nat) : Except Err (List Nat) :=
  if inp.length < 4 + 1 + 4 + 6 + 4 * 256 then .error .inputTooSmall
  else if ¬ (inp.getD 0 0 = 'S'.toNat ∧ inp.getD 1 0 = 'B'.toNat ∧ inp.getD 2 0 = 'R'.toNat
      ∧ inp.getD 3 0 = 'O'.toNat) then .error .badMagic
  else if inp.getD 4 0 ≠ 1 then .error .unsupportedVersion
  else
    let rawSize := read_u32_le inp 5
    let insA := read_u16_le inp 9
    let copA := read_u16_le inp 11
    let dstA := read_u16_le inp 13
    let litCL := (List.range 4).map (fun c => (inp.drop (15 + 256 * c)).take 256)
    let off := 15 + 4 * 256
    match readTable inp off insA with
    | .error e => .error e
    | .ok insCL =>
      match readTable inp (off + insA) copA with
      | .error e => .error e
      | .ok copCL =>
        match readTable inp (off + insA + copA) dstA with
        | .error e => .error e
        | .ok dstCL =>
          let tb : DecTables :=
            { lit := litCL.map buildFromCL, insH := buildFromCL insCL,
              copH := buildFromCL copCL, dstH := buildFromCL dstCL }
          let br : BitReader := { p := inp.drop (off + insA + copA + dstA) }
          match decodeLoop tb rawSize (br.remaining + 1) br [] with
          | .error e => .error e
          | .ok out =>
            if out.length ≠ rawSize then .error .sizeMismatch
            else .ok out


/-! ## Derived notions used by the statements -/

/-- The length `in.size() - off` that `decompress_sbro` hands to the constructor
of `BitReader` (`BitReader br(in.data()+off, in.size()-off)`), a subtraction of
`size_t` values: it wraps around when `off` has run past the end of the input. -/
def bitReaderSize (inp : List Nat) (off : Nat) : Nat :=
  (inp.length % 2 ^ 64 + (2 ^ 64 - off % 2 ^ 64)) % 2 ^ 64

/-- The composition `decompress_sbro(compress_sbro(B))`. -/
def roundTrip (B : List Nat) : Except Err (List Nat) :=
  match compress_sbro B with
  | .error e => .error e
  | .ok c => decompress_sbro c

/-- An input of `2^31` zero bytes (2 GiB). -/
def twoGiB : List Nat := List.replicate (2 ^ 31) 0

/-- A container cut right after the literal code lengths: magic, version 1,
`raw_size = 0`, the three alphabet sizes set to 1, then 1024 zero bytes. It is
1039 bytes long and declares 3 more bytes of code lengths. -/
def truncatedTables : List Nat :=
  [83, 66, 82, 79, 1, 0, 0, 0, 0, 1, 0, 1, 0, 1, 0] ++ List.replicate 1024 0


/-- The ten bytes `aaaaaaaaaa`. -/
def tenA : List Nat := List.replicate 10 97

/-- The container that `compress_sbro` produces for `tenA`: header with
`raw_size = 10` and alphabets 2, 4, 1; the literal code lengths (symbol 0 of
contexts 0-2 and the byte `a` of context 3 have length 1); the insert, copy and
distance code lengths; and the one-byte bitstream `0x24`, which holds the single
command "one literal `a`, then a match of length 9 at distance 1". -/
def tenAStream : List Nat :=
  [83, 66, 82, 79, 1, 10, 0, 0, 0, 2, 0, 4, 0, 1, 0]
    ++ ((1 :: List.replicate 255 0) ++ ((1 :: List.replicate 255 0) ++ ((1 :: List.replicate 255 0)
    ++ (List.replicate 97 0 ++ (1 :: (List.replicate 158 0 ++ [0, 1, 0, 0, 0, 1, 1, 36]))))))


/-- The shape kept by the tally loop of `Codebooks::build`. -/
def Tally.Shaped (t : Tally) : Prop :=
  t.litFreq.length = 4 ∧ (∀ row ∈ t.litFreq, row.length = 256)
    ∧ (1 ≤ t.insFreq.length ∧ t.insFreq.length ≤ 33)
    ∧ (1 ≤ t.copFreq.length ∧ t.copFreq.length ≤ 33)
    ∧ (1 ≤ t.distFreq.length ∧ t.distFreq.length ≤ 33)

/-- The two bytes of a 16-bit value, least significant first. -/
def le16 (v : Nat) : List Nat := [v % 256, v / 2 ^ 8 % 256]

/-- The four bytes of a 32-bit value, least significant first. -/
def le32 (v : Nat) : List Nat := [v % 256, v / 2 ^ 8 % 256, v / 2 ^ 16 % 256, v / 2 ^ 24 % 256]


/-- The container that `compress_sbro` produces for the empty input: header with
`raw_size = 0` and the three alphabet sizes 1, the literal code lengths (symbol 0
of every context has length 1), one code length 1 per dynamic alphabet, and an
empty bitstream. -/
def emptyStream : List Nat :=
  [83, 66, 82, 79, 1, 0, 0, 0, 0, 1, 0, 1, 0, 1, 0]
    ++ ((1 :: List.replicate 255 0) ++ ((1 :: List.replicate 255 0)
    ++ ((1 :: List.replicate 255 0) ++ ((1 :: List.replicate 255 0) ++ [1, 1, 1]))))


/-- The failures that a corrupt or short bitstream can cause: the kinds
`EndOfStream` and `CorruptStream` of the specification. -/
def Err.Stream (e : Err) : Prop :=
  e.kind = .EndOfStream ∨ e.kind = .CorruptStream


/-- The two bytes `!#`: both are coded in literal context 3. -/
def twoSym : List Nat := [33, 35]

/-- The container that `compress_sbro` produces for `twoSym`: `raw_size = 2`,
alphabets 3, 1, 1; in context 3 the bytes `!` and `#` have code length 1 (codes
0 and 1); the bitstream is the single byte `0x08`, at offset 1044. -/
def twoSymStream : List Nat :=
  [83, 66, 82, 79, 1, 2, 0, 0, 0, 3, 0, 1, 0, 1, 0]
    ++ ((1 :: List.replicate 255 0) ++ ((1 :: List.replicate 255 0) ++ ((1 :: List.replicate 255 0)
    ++ (List.replicate 33 0 ++ (1 :: 0 :: 1 :: (List.replicate 220 0 ++ [0, 0, 1, 1, 1, 8]))))))


/-- Replay of one command on an output buffer: append the literals, then, if the
command has a match, copy `matchLen` bytes one by one from `distance` bytes
back; `none` when the distance is 0 or reaches before the start of the buffer. -/
def replayCommand (out : List Nat) (cmd : Command) : Option (List Nat) :=
  if cmd.hasMatch then
    if cmd.distance = 0 ∨ cmd.distance > (out ++ cmd.literals).length then none
    else
      some (copyRun ((out ++ cmd.literals).length - cmd.distance) cmd.matchLen 0
        (out ++ cmd.literals))
  else some (out ++ cmd.literals)

/-- Replay of a command stream on an output buffer. -/
def replay : List Command → List Nat → Option (List Nat)
  | [], out => some out
  | cmd :: rest, out =>
    match replayCommand out cmd with
    | none => none
    | some out => replay rest out

/-- A candidate `(bestLen, bestDist)` of the match search at position `i` is
sound: either no match, or a match inside the window whose bytes repeat the
input `bestDist` bytes back. -/
def LZ77.Sound (inp : List Nat) (n : Int) (i : Nat) (best : Nat × Int) : Prop :=
  best.1 = 0 ∨
    (1 ≤ best.2 ∧ best.2 ≤ (i : Int) ∧ best.2 ≤ (LZ77.WND : Int) ∧ best.1 ≤ LZ77.WND
      ∧ (best.1 : Int) ≤ n - (i : Int)
      ∧ ∀ k, k < best.1 → inp.getD (i - best.2.toNat + k) 0 = inp.getD (i + k) 0)

/-- The invariant of the main loop of `LZ77::parse`: the commands emitted so far
replay to the input consumed before the pending literals, and the pending
literals are the next bytes of the input up to position `i`. -/
def LZ77.Inv (inp : List Nat) (st : LZ77.State) : Prop :=
  st.i ≤ inp.length ∧ st.litbuf.length ≤ st.i
    ∧ replay st.cmds [] = some (inp.take (st.i - st.litbuf.length))
    ∧ inp.take (st.i - st.litbuf.length) ++ st.litbuf = inp.take st.i


/-- The one byte `a`. -/
def oneA : List Nat := [97]

/-- The container that `compress_sbro` produces for `oneA`: `raw_size = 1`,
alphabets 2, 1, 1, and the one-byte bitstream `0x00` of which three bits are
used. -/
def oneAStream : List Nat :=
  [83, 66, 82, 79, 1, 1, 0, 0, 0, 2, 0, 1, 0, 1, 0]
    ++ ((1 :: List.replicate 255 0) ++ ((1 :: List.replicate 255 0) ++ ((1 :: List.replicate 255 0)
    ++ (List.replicate 97 0 ++ (1 :: (List.replicate 158 0 ++ [0, 1, 1, 1, 0]))))))

/-- A container with its `raw_size` field (bytes 5..8) overwritten by `r`. -/
def withRawSize (c : List Nat) (r : Nat) : List Nat :=
  c.take 5 ++ (le32 r ++ c.drop 9)

/-- The shape of a decode trie that keeps the root from being a leaf: there is a
root, it carries no symbol, and every link is "none" or points past the root. -/
def TrieOK (nodes : List Node) : Prop :=
  (nodes.getD 0 {}).sym = -1
    ∧ ∀ nd ∈ nodes, (nd.l = -1 ∨ 1 ≤ nd.l) ∧ (nd.r = -1 ∨ 1 ≤ nd.r)

/-- The fixed part of a hand-made container: magic, version 1, `raw_size = 1`,
the three alphabet sizes set to 1, and 1024 zero literal code lengths. -/
def zeroCmdFixed : List Nat :=
  [83, 66, 82, 79, 1, 1, 0, 0, 0, 1, 0, 1, 0, 1, 0] ++ List.replicate 1024 0

/-- A container whose bitstream is `k` zero bytes: with the one-symbol insert
table (code length 1 for symbol 0) every two zero bits are a command with no
literal and no match, so the stream never produces the byte that `raw_size = 1`
asks for. -/
def zeroCommands (k : Nat) : List Nat :=
  zeroCmdFixed ++ ([1, 1, 1] ++ List.replicate k 0)


/-- What the specification asks of the match of the command at index `j` of a
command stream: length at least 3, distance between 1 and 32768, and distance at
most the bytes that the replay of the commands before it has produced plus the
literals of the command itself. -/
def MatchOK (cmds : List Command) (j : Nat) : Prop :=
  3 ≤ (cmds.getD j {}).matchLen ∧ 1 ≤ (cmds.getD j {}).distance
    ∧ (cmds.getD j {}).distance ≤ 32768
    ∧ ∃ out, replay (cmds.take j) [] = some out
        ∧ (cmds.getD j {}).distance ≤ out.length + (cmds.getD j {}).literals.length

/-- The invariant of the main loop of `LZ77::parse` that concerns the shape of
the commands: every command emitted so far has a match that is `MatchOK`, and
the replay of the commands has as many bytes as the position `i` less the
pending literals. -/
def LZ77.Shape (st : LZ77.State) : Prop :=
  (∃ out, replay st.cmds [] = some out ∧ out.length + st.litbuf.length = st.i)
    ∧ ∀ j, j < st.cmds.length → (st.cmds.getD j {}).hasMatch = true ∧ MatchOK st.cmds j

/-- The first 35 Fibonacci numbers as a frequency vector (24 157 816 occurrences
in all): its Huffman tree is a chain of depth 34. -/
def fibFreq : List Nat :=
  [1, 1, 2, 3, 5, 8, 13, 21, 34, 55, 89, 144, 233, 377, 610, 987, 1597, 2584, 4181, 6765,
   10946, 17711, 28657, 46368, 75025, 121393, 196418, 317811, 514229, 832040, 1346269,
   2178309, 3524578, 5702887, 9227465]

/-- The bytes that `encSymbol(bw, s)` on an empty `BitWriter` followed by
`flushTo` produces for symbol `s` of the table built from `freq`. -/
def encodeOne (freq : List Nat) (s : Nat) : List Nat :=
  (((Huffman.buildFromFreq freq).encSymbol {} s).flushTo [])

/-- The result of `decSymbol` on a `BitReader` over `bytes`, with the number of
bits consumed. -/
def decodeOne (freq : List Nat) (bytes : List Nat) : Except Err (Int × Nat) :=
  match (Huffman.buildFromFreq freq).decSymbol { p := bytes } with
  | .error e => .error e
  | .ok (s, br) => .ok (s, 8 * bytes.length - br.remaining)


/-- The little-endian value of a byte sequence: byte `k` has weight `256^k`. -/
def leVal : List Nat → Nat
  | [] => 0
  | b :: bs => b + 256 * leVal bs

/-- Bit `k` of a byte sequence read LSB-first within each byte. -/
def streamBit (bytes : List Nat) (k : Nat) : Bool :=
  (bytes.getD (k / 8) 0).testBit (k % 8)

/-- The writer after the calls `writeBits(v, n)` for the pairs `(v, n)` of `ws`,
in order, on an empty `BitWriter`. -/
def writeAll (ws : List (Nat × Nat)) : BitWriter :=
  ws.foldl (fun bw w => bw.writeBits w.1 w.2) {}

/-- The sum of the widths of a sequence of writes. -/
def totalBits (ws : List (Nat × Nat)) : Nat :=
  (ws.map Prod.snd).sum

/-- The number whose binary digits, from the least significant one, are the low
`n` bits of each `v` of the writes `(v, n)`, in order. -/
def bitsVal : List (Nat × Nat) → Nat
  | [] => 0
  | w :: rest => w.1 % 2 ^ w.2 + 2 ^ w.2 * bitsVal rest

/-- The calls `readBits(n)` for the widths of `ns`, in order: the values read and
the reader afterwards. -/
def readAll : List Nat → BitReader → Except Err (List Nat × BitReader)
  | [], br => .ok ([], br)
  | n :: rest, br =>
    match br.readBits n with
    | .error e => .error e
    | .ok (v, br) =>
      match readAll rest br with
      | .error e => .error e
      | .ok (vs, br) => .ok (v :: vs, br)

/-- The number held by a writer: the emitted bytes, then the pending bits. -/
def BitWriter.value (bw : BitWriter) : Nat :=
  leVal bw.out + 2 ^ (8 * bw.out.length) * bw.buf

/-- The number of bits a writer has taken. -/
def BitWriter.bits (bw : BitWriter) : Nat :=
  8 * bw.out.length + bw.bitcnt

/-- The pending bits of a writer fit their count, and the emitted bytes are bytes. -/
def BitWriter.Ok (bw : BitWriter) : Prop :=
  bw.buf < 2 ^ bw.bitcnt ∧ ∀ b ∈ bw.out, b < 256

/-- The number still to be read: the buffered bits, then the bytes not yet loaded. -/
def BitReader.pending (br : BitReader) : Nat :=
  br.buf + 2 ^ br.bitcnt * leVal (br.p.drop br.idx)

/-- The buffered bits of a reader fit their count, and the backing bytes are bytes. -/
def BitReader.Ok (br : BitReader) : Prop :=
  br.buf < 2 ^ br.bitcnt ∧ ∀ b ∈ br.p, b < 256


/-- The symbols with a non-zero frequency, in symbol order: the vector `syms` of
`buildFromFreq`. -/
def nonzeroSyms (freq : List Nat) : List Nat :=
  (List.range freq.length).filter (fun i => freq.getD i 0 > 0)

/-- Number of symbols below `s` whose code length is `L`. -/
def rankBelow (cl : List Nat) (L s : Nat) : Nat :=
  ((List.range s).filter (fun j => cl.getD j 0 = L)).length

/-- Number of symbols whose code length is `L`. -/
def lenCount (cl : List Nat) (L : Nat) : Nat :=
  rankBelow cl L cl.length

/-- The first code of each length in the DEFLATE construction, over the natural
numbers: `nextCode 1 = 0` and `nextCode L = (nextCode (L-1) + count (L-1)) * 2`,
where only non-zero lengths are counted. -/
def nextCode (cl : List Nat) : Nat → Nat
  | 0 => 0
  | L + 1 => (nextCode cl L + (if L = 0 then 0 else lenCount cl L)) * 2

/-- A binary tree with symbols at its leaves: the shape of the Huffman tree that
`buildFromFreq` keeps in the vector `tn`. -/
inductive HTree where
  | leaf (s : Nat)
  | node (a b : HTree)
  deriving Repr

/-- The symbols at the leaves, from left to right. -/
def HTree.leaves : HTree → List Nat
  | .leaf s => [s]
  | .node a b => a.leaves ++ b.leaves

/-- The leaves with their depths, the root being at depth `d`. -/
def HTree.leavesD : HTree → Nat → List (Nat × Nat)
  | .leaf s, d => [(s, d)]
  | .node a b, d => a.leavesD (d + 1) ++ b.leavesD (d + 1)

/-- What the traversal `dfs(u, d)` does to `codeLen` on a tree: every leaf stores
its depth (1 for a root leaf) as a `uint8_t`, left subtree first. -/
def HTree.apply : HTree → Nat → List Nat → List Nat
  | .leaf s, d, cl => cl.set s ((if d = 0 then 1 else d) % 256)
  | .node a b, d, cl => b.apply (d + 1) (a.apply (d + 1) cl)

/-- The vector `tn` holds the trees `trees`: entry `k` is a leaf, or a parent
whose children are earlier entries. -/
def Forest (tn : List T) (trees : List HTree) : Prop :=
  trees.length = tn.length ∧ ∀ k, k < tn.length →
    (∃ s : Nat, (tn.getD k default).sym = (s : Int) ∧ trees.getD k (.leaf 0) = .leaf s)
    ∨ ((tn.getD k default).sym = -1 ∧ ∃ l r : Nat, l < k ∧ r < k
        ∧ (tn.getD k default).l = (l : Int) ∧ (tn.getD k default).r = (r : Int)
        ∧ trees.getD k (.leaf 0)
            = .node (trees.getD l (.leaf 0)) (trees.getD r (.leaf 0)))

/-- The invariant of the tree construction of `buildFromFreq`: the items of the
priority queue are roots of trees held in `tn`, and the leaves of these trees
are the symbols `L`, each once, in some order. -/
def QueueInv (tn : List T) (pq : List Item) (L : List Nat) : Prop :=
  ∃ trees, Forest tn trees ∧ (∀ it ∈ pq, it.id < tn.length)
    ∧ (pq.flatMap (fun it => (trees.getD it.id (.leaf 0)).leaves)).Perm L

/-- The vector `tn` and the priority queue of `buildFromFreq` after the loop
`for (int s : syms) pq.push({freq[s], mkLeaf(s, freq[s])})`. -/
def huffInit (freq : List Nat) : List T × List Item :=
  (nonzeroSyms freq).foldl
    (fun (st : List T × List Item) s =>
      (st.1 ++ [({ f := freq.getD s 0, id := st.1.length, l := -1, r := -1, sym := (s : Int) } : T)],
        pq_push st.2 { f := freq.getD s 0, id := st.1.length }))
    (([] : List T), ([] : List Item))

/-- The state `(tn, pq, root)` of `buildFromFreq` after the loop
`while (pq.size() >= 2)`. -/
def huffMerged (freq : List Nat) : List T × List Item × Int :=
  Huffman.mergeLoop (huffInit freq).2.length (huffInit freq).1 (huffInit freq).2 (-1)

/-- A frequency vector of 257 symbols whose sums wrap around in `uint64_t`: one
symbol of frequency 300 and 256 symbols of frequency `2^64 - 1`. -/
def wrapFreq : List Nat := 300 :: List.replicate 256 (2 ^ 64 - 1)

/-- The invariant of the tree construction on `wrapFreq` after `k` merges: the
top of the queue has frequency `300 - k` and its tree holds symbol 0 at depth
`k`; every other item of the queue has frequency `2^64 - 1`. -/
def ChainInv (tn : List T) (pq : List Item) (trees : List HTree) (k : Nat) : Prop :=
  Forest tn trees ∧ pq ≠ [] ∧ (pq_top pq).f + k = 300
    ∧ (∀ it ∈ pq.tail, it.f = 2 ^ 64 - 1) ∧ (∀ it ∈ pq, it.id < tn.length)
    ∧ (0, k) ∈ (trees.getD (pq_top pq).id (.leaf 0)).leavesD 0


/-- The trigram key of three equal bytes `c`. -/
def key3c (c : Nat) : Nat :=
  ((c <<< 16) % 2 ^ 32) ||| ((c <<< 8) % 2 ^ 32) ||| c

/-- The bounds on the match of the command at index `j` of a command stream for
an input of `total` bytes: length between 3 and 32768, distance between 1 and
32768, and the match ends within the input, the match position being the bytes
that the replay of the commands before it has produced plus the literals of the
command itself. -/
def MatchCap (total : Nat) (cmds : List Command) (j : Nat) : Prop :=
  3 ≤ (cmds.getD j {}).matchLen ∧ (cmds.getD j {}).matchLen ≤ 32768
    ∧ 1 ≤ (cmds.getD j {}).distance ∧ (cmds.getD j {}).distance ≤ 32768
    ∧ ∃ out, replay (cmds.take j) [] = some out
        ∧ out.length + (cmds.getD j {}).literals.length + (cmds.getD j {}).matchLen ≤ total

/-- The invariant of the main loop of `LZ77::parse` that concerns the length of
the matches: every command emitted so far has a match that is `MatchCap`, and
the replay of the commands has as many bytes as the position `i` less the
pending literals. -/
def LZ77.Capped (total : Nat) (st : LZ77.State) : Prop :=
  (∃ out, replay st.cmds [] = some out ∧ out.length + st.litbuf.length = st.i)
    ∧ ∀ j, j < st.cmds.length →
        (st.cmds.getD j {}).hasMatch = true ∧ MatchCap total st.cmds j


/-- The heap order of `std::greater<Item>` on the first `len` entries of `c`:
no parent has a larger frequency than its child. -/
def HeapUpTo (len : Nat) (c : List Item) : Prop :=
  ∀ k, 1 ≤ k → k < len → (c.getD ((k - 1) / 2) default).f ≤ (c.getD k default).f

/-- The container of the priority queue is a heap. -/
def IsHeap (c : List Item) : Prop := HeapUpTo c.length c

/-- The heap order on the first `len` entries of `c` around a hole: every entry
other than the hole and its children is at least its parent, and the children of
the hole are at least the parent of the hole. -/
def HoleHeap (len : Nat) (c : List Item) (hole : Nat) : Prop :=
  (∀ k, 1 ≤ k → k < len → k ≠ hole → (k - 1) / 2 ≠ hole →
      (c.getD ((k - 1) / 2) default).f ≤ (c.getD k default).f)
    ∧ (∀ k, 1 ≤ k → k < len → (k - 1) / 2 = hole → 1 ≤ hole →
      (c.getD ((hole - 1) / 2) default).f ≤ (c.getD k default).f)

/-- Position of the first entry of lowest frequency in a list of weighted trees
kept in insertion order. -/
def specMinIdx : List (Nat × HTree) → Nat
  | [] => 0
  | [_] => 0
  | x :: y :: rest =>
    if ((y :: rest).getD (specMinIdx (y :: rest)) (0, .leaf 0)).1 < x.1
    then specMinIdx (y :: rest) + 1 else 0

/-- One combination in the words of the specification: take out the node of
lowest frequency, then the node of lowest frequency of the rest, ties going to
the node inserted first, and insert their parent last. -/
def specStep (q : List (Nat × HTree)) : List (Nat × HTree) :=
  let i := specMinIdx q
  let a := q.getD i (0, .leaf 0)
  let q1 := q.eraseIdx i
  let j := specMinIdx q1
  let b := q1.getD j (0, .leaf 0)
  let q2 := q1.eraseIdx j
  q2 ++ [(a.1 + b.1, .node a.2 b.2)]

/-- Repeat `specStep` while at least two nodes are left. -/
def specLoop : Nat → List (Nat × HTree) → List (Nat × HTree)
  | 0, q => q
  | k + 1, q => if q.length ≥ 2 then specLoop k (specStep q) else q

/-- The code lengths in the words of the specification: the depths of the leaves
of the tree that `specLoop` builds from the leaves in symbol order. -/
def specCodeLen (freq : List Nat) : List Nat :=
  match specLoop (nonzeroSyms freq).length
      ((nonzeroSyms freq).map (fun s => (freq.getD s 0, HTree.leaf s))) with
  | [(_, t)] => (t.leavesD 0).foldl (fun cl p => cl.set p.1 p.2) (List.replicate freq.length 0)
  | _ => List.replicate freq.length 0

/-- A tree `t` is obtained from the weighted trees `q` by repeatedly combining a
node of lowest frequency with a node of lowest frequency among the others (in
any order among equal frequencies), the frequency of the parent being the sum
in `uint64_t`. -/
inductive HuffBuild : List (Nat × HTree) → HTree → Prop
  | single (f : Nat) (t : HTree) : HuffBuild [(f, t)] t
  | merge (q rest : List (Nat × HTree)) (a b : Nat × HTree) (t : HTree) :
      q.Perm (a :: b :: rest) → (∀ x ∈ q, a.1 ≤ x.1) → (∀ x ∈ b :: rest, b.1 ≤ x.1) →
      HuffBuild (((a.1 + b.1) % 2 ^ 64, .node a.2 b.2) :: rest) t → HuffBuild q t

/-- The weighted trees that the items of the priority queue stand for. -/
def pqView (trees : List HTree) (pq : List Item) : List (Nat × HTree) :=
  pq.map (fun it => (it.f, trees.getD it.id (.leaf 0)))

/-- The invariant of the tree construction of `buildFromFreq` with the heap
order: the queue is a heap whose items are roots of trees held in `tn`, and
these weighted trees are `L` in some order. -/
def HeapInv (tn : List T) (pq : List Item) (L : List (Nat × HTree)) : Prop :=
  ∃ trees, Forest tn trees ∧ (∀ it ∈ pq, it.id < tn.length) ∧ IsHeap pq
    ∧ (pqView trees pq).Perm L


/-! # Properties of the embedding -/

theorem clzFrom_spec (k v : Nat) (h0 : 0 < v) (hk : v < 2 ^ k) :
    clzFrom k v < k ∧ 2 ^ (k - 1 - clzFrom k v) ≤ v ∧ v < 2 ^ (k - clzFrom k v) := by
  induction k with
  | zero => simp at hk; omega
  | succ k ih =>
    unfold clzFrom
    by_cases hb : v.testBit k
    · simp only [hb, if_true]
      refine ⟨by omega, ?_, by simpa using hk⟩
      simp only [Nat.add_sub_cancel, Nat.sub_zero]
      by_contra hlt
      push_neg at hlt
      have := Nat.testBit_lt_two_pow hlt
      simp [this] at hb
    · simp only [hb, Bool.false_eq_true, if_false]
      have hlt : v < 2 ^ k := by
        by_contra hge
        push_neg at hge
        have hq : v / 2 ^ k = 1 := by
          apply Nat.div_eq_of_lt_le <;> rw [pow_succ] at * <;> omega
        exact hb (by rw [Nat.testBit_to_div_mod, hq]; rfl)
      obtain ⟨h1, h2, h3⟩ := ih hlt
      refine ⟨by omega, ?_, ?_⟩
      · have : k + 1 - 1 - (1 + clzFrom k v) = k - 1 - clzFrom k v := by omega
        rw [this]; exact h2
      · have : k + 1 - (1 + clzFrom k v) = k - clzFrom k v := by omega
        rw [this]; exact h3

theorem ilog2_u32_spec (v : Nat) (h0 : 1 ≤ v) (h32 : v < 2 ^ 32) :
    BucketCoder.ilog2_u32 v ≤ 31 ∧ 2 ^ BucketCoder.ilog2_u32 v ≤ v
      ∧ v < 2 ^ (BucketCoder.ilog2_u32 v + 1) := by
  obtain ⟨h1, h2, h3⟩ := clzFrom_spec 32 v h0 h32
  unfold BucketCoder.ilog2_u32 builtin_clz
  refine ⟨by omega, ?_, ?_⟩
  · simpa using h2
  · have : 31 - clzFrom 32 v + 1 = 32 - clzFrom 32 v := by omega
    rw [this]; exact h3


theorem encode_of_pos (v : Nat) (h0 : 1 ≤ v) (h32 : v < 2 ^ 32) :
    BucketCoder.encode v =
      { sym := BucketCoder.ilog2_u32 v + 1, exBits := BucketCoder.ilog2_u32 v,
        exVal := v - 2 ^ BucketCoder.ilog2_u32 v } := by
  obtain ⟨h1, h2, h3⟩ := ilog2_u32_spec v h0 h32
  have hp : 2 ^ BucketCoder.ilog2_u32 v < 2 ^ 32 := by omega
  unfold BucketCoder.encode
  have hv : v ≠ 0 := by omega
  simp only [hv, if_false, Nat.one_shiftLeft, Nat.mod_eq_of_lt hp]
  congr 1
  · apply Nat.mod_eq_of_lt; omega
  · have : v + (2 ^ 32 - 2 ^ BucketCoder.ilog2_u32 v)
        = (v - 2 ^ BucketCoder.ilog2_u32 v) + 2 ^ 32 := by omega
    rw [this, Nat.add_mod_right]
    apply Nat.mod_eq_of_lt; omega

/-- C3 (bucket law): for every 32-bit unsigned `v`, `BucketCoder::decode` applied
to the symbol and the extra value of `BucketCoder::encode(v)` gives back `v`. -/
theorem bucket_decode_encode (v : Nat) (h32 : v < 2 ^ 32) :
    BucketCoder.decode (BucketCoder.encode v).sym (BucketCoder.encode v).exVal = v := by
  by_cases h0 : v = 0
  · subst h0; rfl
  · have h1 : 1 ≤ v := by omega
    obtain ⟨hk, hlo, hhi⟩ := ilog2_u32_spec v h1 h32
    have hp : 2 ^ BucketCoder.ilog2_u32 v < 2 ^ 32 := by omega
    rw [encode_of_pos v h1 h32]
    unfold BucketCoder.decode
    simp only [Nat.add_one_ne_zero, if_false, Nat.add_sub_cancel, Nat.one_shiftLeft,
      Nat.mod_eq_of_lt hp]
    rw [Nat.add_sub_cancel' hlo]
    exact Nat.mod_eq_of_lt h32

/-- Witness for C3 at the largest 32-bit value. -/
theorem bucket_decode_encode_witness :
    BucketCoder.decode (BucketCoder.encode 4294967295).sym
      (BucketCoder.encode 4294967295).exVal = 4294967295 :=
  bucket_decode_encode 4294967295 (by decide)

/-- C4 (bucket encoding): `encode(0) = (0, 0, 0)`, and for a 32-bit `v ≥ 1` the
symbol `s` of `encode(v)` is the bit length of `v` (`2^(s-1) ≤ v < 2^s`, that is
`s = floor(log2 v) + 1`), the extra width is `s - 1` and the extra value is
`v - 2^(s-1)`, which is below `2^(s-1)`. -/
theorem bucket_encode_spec (v : Nat) (h1 : 1 ≤ v) (h32 : v < 2 ^ 32) :
    BucketCoder.encode 0 = { sym := 0, exBits := 0, exVal := 0 }
      ∧ 2 ^ ((BucketCoder.encode v).sym - 1) ≤ v
      ∧ v < 2 ^ (BucketCoder.encode v).sym
      ∧ (BucketCoder.encode v).sym = Nat.log2 v + 1
      ∧ (BucketCoder.encode v).exBits = (BucketCoder.encode v).sym - 1
      ∧ (BucketCoder.encode v).exVal = v - 2 ^ ((BucketCoder.encode v).sym - 1)
      ∧ (BucketCoder.encode v).exVal < 2 ^ ((BucketCoder.encode v).sym - 1) := by
  obtain ⟨hk, hlo, hhi⟩ := ilog2_u32_spec v h1 h32
  rw [encode_of_pos v h1 h32]
  simp only [Nat.add_sub_cancel]
  refine ⟨rfl, hlo, hhi, ?_, trivial, trivial, ?_⟩
  · have hv : v ≠ 0 := by omega
    have : Nat.log2 v = BucketCoder.ilog2_u32 v := by
      rw [Nat.log2_eq_log_two]; exact Nat.log_eq_of_pow_le_of_lt_pow hlo hhi
    omega
  · rw [pow_succ] at hhi; omega

/-- Witness for C4 at `v = 1000` (symbol 10, nine extra bits, extra value 488). -/
theorem bucket_encode_spec_witness :
    BucketCoder.encode 0 = { sym := 0, exBits := 0, exVal := 0 }
      ∧ 2 ^ ((BucketCoder.encode 1000).sym - 1) ≤ 1000
      ∧ 1000 < 2 ^ (BucketCoder.encode 1000).sym
      ∧ (BucketCoder.encode 1000).sym = Nat.log2 1000 + 1
      ∧ (BucketCoder.encode 1000).exBits = (BucketCoder.encode 1000).sym - 1
      ∧ (BucketCoder.encode 1000).exVal = 1000 - 2 ^ ((BucketCoder.encode 1000).sym - 1)
      ∧ (BucketCoder.encode 1000).exVal < 2 ^ ((BucketCoder.encode 1000).sym - 1) :=
  bucket_encode_spec 1000 (by decide) (by decide)

/-- C5 (context classifier): for every byte `p`, `charContext(p)` is 0 on the
ASCII letters, 1 on the ASCII digits, 2 on space, tab, line feed, carriage
return, form feed and vertical tab, and 3 on every other byte. -/
theorem charContext_spec (p : Nat) (hp : p < 256) :
    charContext p =
      if (Char.ofNat p).isAlpha then 0
      else if (Char.ofNat p).isDigit then 1
      else if p = 32 ∨ p = 9 ∨ p = 10 ∨ p = 13 ∨ p = 12 ∨ p = 11 then 2
      else 3 := by
  have key : ∀ q : Fin 256, charContext q.val =
      if (Char.ofNat q.val).isAlpha then 0
      else if (Char.ofNat q.val).isDigit then 1
      else if q.val = 32 ∨ q.val = 9 ∨ q.val = 10 ∨ q.val = 13 ∨ q.val = 12 ∨ q.val = 11 then 2
      else 3 := by decide!
  exact key ⟨p, hp⟩

/-- Witness for C5 at the byte `'q'` (113), a letter. -/
theorem charContext_spec_witness :
    charContext 113 =
      if (Char.ofNat 113).isAlpha then 0
      else if (Char.ofNat 113).isDigit then 1
      else if 113 = 32 ∨ 113 = 9 ∨ 113 = 10 ∨ 113 = 13 ∨ 113 = 12 ∨ 113 = 11 then 2
      else 3 :=
  charContext_spec 113 (by decide)

/-! ## Inputs of 2 GiB and more -/

theorem toInt32_neg_of_large (x : Nat) (h1 : 2 ^ 31 ≤ x) (h2 : x < 2 ^ 32) : toInt32 x < 0 := by
  unfold toInt32
  rw [Nat.mod_eq_of_lt h2]
  have : ¬ x < 2 ^ 31 := by omega
  simp only [this, if_false]
  omega

theorem push_key_of_large (inp : List Nat) (ht : HashTable) (pos : Nat)
    (h : toInt32 inp.length < 0) : LZ77.push_key inp ht pos = ht := by
  unfold LZ77.push_key
  have : (pos : Int) + 2 ≥ toInt32 inp.length := by omega
  simp only [this, if_true]

theorem parse_of_large (inp : List Nat) (h1 : 2 ^ 31 ≤ inp.length) (h2 : inp.length < 2 ^ 32) :
    LZ77.parse inp = [] := by
  have hn := toInt32_neg_of_large inp.length h1 h2
  have hz : (toInt32 inp.length).toNat = 0 := by omega
  unfold LZ77.parse
  simp only [push_key_of_large _ _ _ hn, hz, LZ77.parseLoop]
  simp

theorem compress_of_large (inp : List Nat) (h1 : 2 ^ 31 ≤ inp.length)
    (h2 : inp.length < 2 ^ 32) : compress_sbro inp = .error .noReconstruct := by
  have hne : ([] : List Nat) ≠ inp := by
    intro h; rw [← h] at h1; simp at h1
  unfold compress_sbro Codebooks.build
  simp only [parse_of_large inp h1 h2, tallyLoop]
  simp [hne]

theorem twoGiB_length : twoGiB.length = 2 ^ 31 := List.length_replicate _ _

theorem twoGiB_length_lt : twoGiB.length < 2 ^ 32 := by rw [twoGiB_length]; norm_num

theorem compress_twoGiB : compress_sbro twoGiB = .error .noReconstruct :=
  compress_of_large twoGiB (le_of_eq twoGiB_length.symm) twoGiB_length_lt

theorem roundTrip_of_compress_error (B : List Nat) (e : Err)
    (h : compress_sbro B = .error e) : roundTrip B = .error e := by
  unfold roundTrip; rw [h]

theorem ne_ok_of_eq_error {x : Except Err (List Nat)} {e : Err} (h : x = .error e)
    (B : List Nat) : x ≠ .ok B := by
  subst h; exact fun hh => Except.noConfusion hh

/-- C2, at the failing input: on 2 GiB of zero bytes `(int)in.size()` is negative,
`LZ77::parse` returns no command and `Codebooks::build` raises "Command stream
does not reconstruct input.", an `InternalError`. -/
theorem compress_twoGiB_internal_error :
    compress_sbro twoGiB = .error .noReconstruct
      ∧ Err.what .noReconstruct = "Command stream does not reconstruct input."
      ∧ Err.kind .noReconstruct = .InternalError :=
  ⟨compress_of_large twoGiB (le_of_eq twoGiB_length.symm) twoGiB_length_lt, rfl, rfl⟩

/-- C1, at the failing input: the round trip of 2 GiB of zero bytes, whose length
fits the 32-bit `raw_size` field, does not return the input but fails. -/
theorem roundTrip_twoGiB_fails :
    twoGiB.length < 2 ^ 32 ∧ roundTrip twoGiB = .error .noReconstruct
      ∧ roundTrip twoGiB ≠ .ok twoGiB :=
  ⟨twoGiB_length_lt, roundTrip_of_compress_error _ _ compress_twoGiB,
    ne_ok_of_eq_error (roundTrip_of_compress_error _ _ compress_twoGiB) _⟩

/-- C8, counterexample: a five-byte input whose first four bytes are not `SBRO`
is rejected with "Input too small", not with "Bad magic". -/
theorem short_bad_magic_is_too_small :
    4 ≤ [88, 66, 82, 79, 1].length ∧ [88, 66, 82, 79, 1].take 4 ≠ [83, 66, 82, 79]
      ∧ decompress_sbro [88, 66, 82, 79, 1] = .error .inputTooSmall
      ∧ decompress_sbro [88, 66, 82, 79, 1] ≠ .error .badMagic := by
  decide

/-- C8, amended: every input of at least 1039 bytes (the fixed header and the
literal code lengths) whose first four bytes are not ASCII `SBRO` is rejected
with "Bad magic". -/
theorem bad_magic (inp : List Nat) (hlen : 1039 ≤ inp.length)
    (hmagic : inp.take 4 ≠ [83, 66, 82, 79]) :
    decompress_sbro inp = .error .badMagic ∧ Err.what .badMagic = "Bad magic" := by
  refine ⟨?_, rfl⟩
  match inp, hlen, hmagic with
  | a :: b :: c :: d :: rest, hlen, hmagic =>
    have h1 : ¬ (a :: b :: c :: d :: rest).length < 4 + 1 + 4 + 6 + 4 * 256 := by omega
    have h2 : ¬ (a = 83 ∧ b = 66 ∧ c = 82 ∧ d = 79) := by
      rintro ⟨rfl, rfl, rfl, rfl⟩; exact hmagic rfl
    unfold decompress_sbro
    rw [if_neg h1, if_pos]
    simpa using h2
  | [], hlen, _ => simp at hlen
  | [_], hlen, _ => simp at hlen
  | [_, _], hlen, _ => simp at hlen
  | [_, _, _], hlen, _ => simp at hlen

/-- Witness for the amended C8: 1039 zero bytes. -/
theorem bad_magic_witness :
    decompress_sbro (List.replicate 1039 0) = .error .badMagic
      ∧ Err.what .badMagic = "Bad magic" :=
  bad_magic (List.replicate 1039 0) (by rw [List.length_replicate]) (by decide)

/-- An input that passes the fixed-size check but is shorter than the
code-length tables it declares makes `decompress_sbro` index past its end. -/
theorem decompress_reads_past_end (inp : List Nat) (hlen : 1039 ≤ inp.length)
    (hmagic : inp.getD 0 0 = 'S'.toNat ∧ inp.getD 1 0 = 'B'.toNat ∧ inp.getD 2 0 = 'R'.toNat
      ∧ inp.getD 3 0 = 'O'.toNat)
    (hver : inp.getD 4 0 = 1)
    (hshort : inp.length < 1039 + read_u16_le inp 9 + read_u16_le inp 11 + read_u16_le inp 13) :
    decompress_sbro inp = .error .readPastEnd := by
  unfold decompress_sbro
  rw [if_neg (by omega), if_neg (not_not.mpr hmagic), if_neg (not_not.mpr hver)]
  dsimp only
  unfold readTable
  by_cases h1 : 15 + 4 * 256 + read_u16_le inp 9 > inp.length
  · rw [if_pos h1]
  · rw [if_neg h1]
    dsimp only
    by_cases h2 : 15 + 4 * 256 + read_u16_le inp 9 + read_u16_le inp 11 > inp.length
    · rw [if_pos h2]
    · rw [if_neg h2]
      dsimp only
      rw [if_pos (by omega)]

/-- C9, at the failing input: the container `truncatedTables` starts with `SBRO`
and version 1 and is shorter (1039 bytes) than the fixed header plus the three
declared code-length tables (1042 bytes); `decompress_sbro` does not raise
"Input too small" but indexes the input past its end. -/
theorem truncated_tables_read_past_end :
    truncatedTables.take 5 = [83, 66, 82, 79, 1]
      ∧ truncatedTables.length = 1039
      ∧ truncatedTables.length < 1039 + read_u16_le truncatedTables 9
          + read_u16_le truncatedTables 11 + read_u16_le truncatedTables 13
      ∧ decompress_sbro truncatedTables = .error .readPastEnd
      ∧ decompress_sbro truncatedTables ≠ .error .inputTooSmall := by
  decide!

/-! ## The copy loop of the decoder -/

theorem parse_tenA :
    LZ77.parse tenA = [{ literals := [97], hasMatch := true, matchLen := 9, distance := 1 }] := by
  decide!

set_option maxRecDepth 100000 in
theorem compress_tenA : compress_sbro tenA = .ok tenAStream := by
  decide!

theorem buildDecTree_codeLen (h : Huffman) : h.buildDecTree.codeLen = h.codeLen := rfl

theorem dfs_length (tn : List T) (fuel : Nat) :
    ∀ (u : Int) (d : Nat) (cl : List Nat), (Huffman.dfs tn fuel u d cl).length = cl.length := by
  induction fuel with
  | zero => intro u d cl; rfl
  | succ fuel ih =>
    intro u d cl
    unfold Huffman.dfs
    simp only
    split
    · simp
    · rw [ih, ih]

theorem buildFromFreq_codeLen_length (freq : List Nat) :
    (Huffman.buildFromFreq freq).codeLen.length = freq.length := by
  unfold Huffman.buildFromFreq
  simp only
  split
  · split <;> simp [buildDecTree_codeLen]
  · split
    · simp [buildDecTree_codeLen]
    · simp [buildDecTree_codeLen, dfs_length]

theorem encode_sym_le (v : Nat) (h32 : v < 2 ^ 32) : (BucketCoder.encode v).sym ≤ 32 := by
  by_cases h0 : v = 0
  · subst h0; decide
  · have h1 : 1 ≤ v := by omega
    rw [encode_of_pos v h1 h32]
    have := (ilog2_u32_spec v h1 h32).1
    simp only; omega

theorem bumpLenBucket_length (F : List Nat) (v : Nat) (h32 : v < 2 ^ 32) (hF : 1 ≤ F.length)
    (hF2 : F.length ≤ 33) :
    1 ≤ (bumpLenBucket F v).length ∧ (bumpLenBucket F v).length ≤ 33 := by
  have hs := encode_sym_le v h32
  unfold bumpLenBucket
  simp only [List.length_set]
  split
  · simp only [List.length_append, List.length_replicate]; omega
  · omega

theorem tallyLiterals_shaped (lits : List Nat) :
    ∀ t : Tally, t.Shaped → (tallyLiterals t lits).Shaped
      ∧ (tallyLiterals t lits).insFreq = t.insFreq
      ∧ (tallyLiterals t lits).copFreq = t.copFreq
      ∧ (tallyLiterals t lits).distFreq = t.distFreq := by
  induction lits with
  | nil => intro t ht; exact ⟨ht, rfl, rfl, rfl⟩
  | cons b lits ih =>
    intro t ht
    unfold tallyLiterals
    rw [List.foldl_cons]
    have hstep : Tally.Shaped
        { t with
          litFreq := t.litFreq.set (if t.out = [] then 3 else charContext (t.out.getLastD 0))
            ((t.litFreq.getD (if t.out = [] then 3 else charContext (t.out.getLastD 0)) []).set b
              (((t.litFreq.getD (if t.out = [] then 3 else charContext (t.out.getLastD 0)) []).getD
                b 0 + 1) % 2 ^ 64)),
          out := t.out ++ [b] } := by
      obtain ⟨h4, hrows, hi, hc, hd⟩ := ht
      refine ⟨by simp [h4], ?_, hi, hc, hd⟩
      intro row hrow
      simp only at hrow
      rcases List.mem_or_eq_of_mem_set hrow with h | h
      · exact hrows row h
      · subst h
        rw [List.length_set]
        by_cases hctx : (if t.out = [] then 3 else charContext (t.out.getLastD 0)) < t.litFreq.length
        · apply hrows
          rw [List.getD_eq_getElem _ _ hctx]
          exact List.getElem_mem _
        · exfalso
          rw [h4] at hctx
          apply hctx
          split
          · decide
          · unfold charContext; split_ifs <;> decide
    have := ih _ hstep
    exact this

theorem tallyCommand_shaped (t t2 : Tally) (cmd : Command) (ht : t.Shaped)
    (h : tallyCommand t cmd = .ok t2) : t2.Shaped := by
  obtain ⟨hs, hi, hc, hd⟩ := tallyLiterals_shaped cmd.literals t ht
  obtain ⟨h4, hrows, hins, hcop, hdst⟩ := hs
  have hins2 := bumpLenBucket_length (tallyLiterals t cmd.literals).insFreq
    (cmd.literals.length % 2 ^ 32) (Nat.mod_lt _ (by norm_num)) hins.1 hins.2
  have hcop2 := bumpLenBucket_length (tallyLiterals t cmd.literals).copFreq
    ((cmd.matchLen + (2 ^ 32 - 3)) % 2 ^ 32) (Nat.mod_lt _ (by norm_num)) hcop.1 hcop.2
  have hdst2 := bumpLenBucket_length (tallyLiterals t cmd.literals).distFreq
    ((cmd.distance + (2 ^ 32 - 1)) % 2 ^ 32) (Nat.mod_lt _ (by norm_num)) hdst.1 hdst.2
  unfold tallyCommand at h
  simp only at h
  split at h
  · split at h
    · cases h
    · cases h
      exact ⟨h4, hrows, hins2, hcop2, hdst2⟩
  · cases h
    exact ⟨h4, hrows, hins2, hcop, hdst⟩

theorem tallyLoop_shaped (cmds : List Command) :
    ∀ (t t2 : Tally), t.Shaped → tallyLoop cmds t = .ok t2 → t2.Shaped := by
  induction cmds with
  | nil => intro t t2 ht h; cases h; exact ht
  | cons cmd rest ih =>
    intro t t2 ht h
    unfold tallyLoop at h
    split at h
    · cases h
    · rename_i t1 h1
      exact ih t1 t2 (tallyCommand_shaped t t1 cmd ht h1) h

theorem tally_init_shaped : Tally.Shaped {} := by
  refine ⟨List.length_replicate _ _, ?_, by decide, by decide, by decide⟩
  intro row hrow
  have hrow2 : row ∈ List.replicate 4 (List.replicate 256 0) := hrow
  rw [List.eq_of_mem_replicate hrow2, List.length_replicate]

theorem lenRow_length (h : Huffman) (h1 : 1 ≤ h.codeLen.length) :
    (lenRow h).length = h.codeLen.length := by
  unfold lenRow
  split
  · rename_i he; rw [he] at h1; simp at h1
  · rfl

/-- What `Codebooks::build` guarantees about the serialized code lengths. -/
theorem build_shape (cmds : List Command) (original : List Nat) (cb : Codebooks)
    (h : Codebooks.build cmds original = .ok cb) :
    cb.litCodeLen.length = 4 ∧ (∀ row ∈ cb.litCodeLen, row.length = 256)
      ∧ (1 ≤ cb.insCodeLen.length ∧ cb.insCodeLen.length ≤ 33)
      ∧ (1 ≤ cb.copCodeLen.length ∧ cb.copCodeLen.length ≤ 33)
      ∧ (1 ≤ cb.distCodeLen.length ∧ cb.distCodeLen.length ≤ 33) := by
  unfold Codebooks.build at h
  split at h
  · cases h
  · rename_i t ht
    obtain ⟨h4, hrows, hins, hcop, hdst⟩ := tallyLoop_shaped cmds {} t tally_init_shaped ht
    split at h
    · cases h
    · cases h
      simp only
      refine ⟨by simp, ?_, ?_, ?_, ?_⟩
      · intro row hrow
        simp only [List.map_map, List.mem_map, List.mem_range, Function.comp] at hrow
        obtain ⟨c, hc, rfl⟩ := hrow
        unfold litRow
        rw [List.length_take, buildFromFreq_codeLen_length]
        have : (t.litFreq.getD c []).length = 256 := by
          apply hrows
          rw [List.getD_eq_getElem _ _ (by omega)]
          exact List.getElem_mem _
        omega
      · rw [lenRow_length _ (by rw [buildFromFreq_codeLen_length]; exact hins.1),
          buildFromFreq_codeLen_length]
        exact hins
      · rw [lenRow_length _ (by rw [buildFromFreq_codeLen_length]; exact hcop.1),
          buildFromFreq_codeLen_length]
        exact hcop
      · rw [lenRow_length _ (by rw [buildFromFreq_codeLen_length]; exact hdst.1),
          buildFromFreq_codeLen_length]
        exact hdst

theorem padRow_self (cl : List Nat) : padRow cl.length cl = cl := by
  unfold padRow
  apply List.ext_getElem
  · simp
  · intro i h1 h2
    simp only [List.length_map, List.length_range] at h1
    simp [h1, List.getD_eq_getElem _ _ h1]

theorem flatMap_rows (rows : List (List Nat)) (h4 : rows.length = 4)
    (hrows : ∀ row ∈ rows, row.length = 256) :
    (List.range 4).flatMap (fun c => (rows.getD c []).take 256) = rows.flatten
      ∧ rows.flatten.length = 1024 := by
  match rows, h4, hrows with
  | [a, b, c, d], _, hrows =>
    have ha : a.length = 256 := hrows a (by simp)
    have hb : b.length = 256 := hrows b (by simp)
    have hc : c.length = 256 := hrows c (by simp)
    have hd : d.length = 256 := hrows d (by simp)
    constructor
    · simp [List.range_succ, List.flatMap, List.take_of_length_le, ha, hb, hc, hd]
    · simp [ha, hb, hc, hd]

theorem and_255 (v : Nat) : v &&& 0xFF = v % 256 := Nat.and_pow_two_sub_one_eq_mod v 8

theorem or_shift_eq_add (x y k : Nat) (hx : x < 2 ^ k) : x ||| (y <<< k) = x + 2 ^ k * y := by
  rw [Nat.shiftLeft_eq, Nat.or_comm, Nat.mul_comm y, ← Nat.mul_add_lt_is_or hx, Nat.add_comm]

theorem write_u32_le_eq (buf : List Nat) (v : Nat) : write_u32_le buf v = buf ++ le32 v := by
  simp only [write_u32_le, le32, and_255, Nat.shiftRight_eq_div_pow]

theorem write_u16_le_eq (buf : List Nat) (v : Nat) : write_u16_le buf v = buf ++ le16 v := by
  simp only [write_u16_le, le16, and_255, Nat.shiftRight_eq_div_pow]

theorem read_le16 (v : Nat) (hv : v < 2 ^ 16) :
    ((v % 256) ||| ((v / 2 ^ 8 % 256) <<< 8)) % 2 ^ 16 = v := by
  rw [or_shift_eq_add _ _ 8 (by omega)]
  omega

theorem read_le32 (v : Nat) (hv : v < 2 ^ 32) :
    ((v % 256) ||| ((v / 2 ^ 8 % 256) <<< 8) ||| ((v / 2 ^ 16 % 256) <<< 16)
      ||| ((v / 2 ^ 24 % 256) <<< 24)) % 2 ^ 32 = v := by
  rw [or_shift_eq_add _ _ 8 (by omega), or_shift_eq_add _ _ 16 (by omega),
    or_shift_eq_add _ _ 24 (by omega)]
  omega

theorem flushTo_eq (bw : BitWriter) (dst : List Nat) : bw.flushTo dst = dst ++ bw.flushTo [] := by
  simp [BitWriter.flushTo]

/-- The bytes written by `compress_sbro` before the bitstream, spelled out. -/
theorem headerBytes_eq (cb : Codebooks) (size : Nat)
    (h4 : cb.litCodeLen.length = 4) (hrows : ∀ row ∈ cb.litCodeLen, row.length = 256)
    (hins : 1 ≤ cb.insCodeLen.length ∧ cb.insCodeLen.length ≤ 33)
    (hcop : 1 ≤ cb.copCodeLen.length ∧ cb.copCodeLen.length ≤ 33)
    (hdst : 1 ≤ cb.distCodeLen.length ∧ cb.distCodeLen.length ≤ 33) :
    headerBytes cb size =
      [83, 66, 82, 79, 1] ++ (le32 (size % 2 ^ 32) ++ (le16 cb.insCodeLen.length
        ++ (le16 cb.copCodeLen.length ++ (le16 cb.distCodeLen.length
        ++ (cb.litCodeLen.flatten ++ (cb.insCodeLen ++ (cb.copCodeLen ++ cb.distCodeLen))))))) := by
  have e1 : (max cb.insCodeLen.length 1) % 2 ^ 16 = cb.insCodeLen.length := by
    rw [Nat.max_eq_left hins.1]; apply Nat.mod_eq_of_lt; omega
  have e2 : (max cb.copCodeLen.length 1) % 2 ^ 16 = cb.copCodeLen.length := by
    rw [Nat.max_eq_left hcop.1]; apply Nat.mod_eq_of_lt; omega
  have e3 : (max cb.distCodeLen.length 1) % 2 ^ 16 = cb.distCodeLen.length := by
    rw [Nat.max_eq_left hdst.1]; apply Nat.mod_eq_of_lt; omega
  unfold headerBytes
  simp only [e1, e2, e3, padRow_self, write_u32_le_eq, write_u16_le_eq,
    (flatMap_rows cb.litCodeLen h4 hrows).1, List.append_assoc]
  rfl

/-- The output of `compress_sbro` is the header bytes followed by the flushed
bit writer of the command loop, whose reconstruction equals the input. -/
theorem compress_decomp (B out : List Nat) (h : compress_sbro B = .ok out) :
    ∃ cb bw, Codebooks.build (LZ77.parse B) B = .ok cb
      ∧ encodeLoop cb (LZ77.parse B) ({}, []) = .ok (bw, B)
      ∧ out = headerBytes cb B.length ++ bw.flushTo [] := by
  unfold compress_sbro at h
  simp only at h
  split at h
  · cases h
  · rename_i cb hcb
    split at h
    · cases h
    · rename_i st hst
      split at h
      · cases h
      · rename_i hre
        simp only [ne_eq, Decidable.not_not] at hre
        cases h
        refine ⟨cb, st.1, hcb, ?_, flushTo_eq _ _⟩
        rw [hst, ← hre]

set_option maxRecDepth 100000 in
theorem compress_empty : compress_sbro [] = .ok emptyStream := by
  decide!

theorem emptyStream_facts :
    emptyStream.length = 1042 ∧ (emptyStream.drop 5).take 4 = [0, 0, 0, 0]
      ∧ read_u32_le emptyStream 5 = 0 := by
  decide!

theorem layout_of_decomp (B out : List Nat) (cb : Codebooks) (bits : List Nat)
    (hB : B.length < 2 ^ 32)
    (h4 : cb.litCodeLen.length = 4) (hrows : ∀ row ∈ cb.litCodeLen, row.length = 256)
    (hins : 1 ≤ cb.insCodeLen.length ∧ cb.insCodeLen.length ≤ 33)
    (hcop : 1 ≤ cb.copCodeLen.length ∧ cb.copCodeLen.length ≤ 33)
    (hdst : 1 ≤ cb.distCodeLen.length ∧ cb.distCodeLen.length ≤ 33)
    (hout : out = headerBytes cb B.length ++ bits) :
    out = [83, 66, 82, 79] ++ [1] ++ le32 B.length ++ le16 cb.insCodeLen.length
          ++ le16 cb.copCodeLen.length ++ le16 cb.distCodeLen.length
          ++ cb.litCodeLen.flatten ++ cb.insCodeLen ++ cb.copCodeLen ++ cb.distCodeLen ++ bits
      ∧ read_u32_le out 5 = B.length
      ∧ read_u16_le out 9 = cb.insCodeLen.length
      ∧ read_u16_le out 11 = cb.copCodeLen.length
      ∧ read_u16_le out 13 = cb.distCodeLen.length
      ∧ out.drop (1039 + cb.insCodeLen.length + cb.copCodeLen.length + cb.distCodeLen.length)
          = bits
      ∧ out.length = 1039 + cb.insCodeLen.length + cb.copCodeLen.length
          + cb.distCodeLen.length + bits.length := by
  have hH := headerBytes_eq cb B.length h4 hrows hins hcop hdst
  rw [Nat.mod_eq_of_lt hB] at hH
  have hflat := (flatMap_rows cb.litCodeLen h4 hrows).2
  have hlen : (headerBytes cb B.length).length
      = 1039 + cb.insCodeLen.length + cb.copCodeLen.length + cb.distCodeLen.length := by
    rw [hH]
    simp only [List.length_append, List.length_cons, List.length_nil, le32, le16, hflat]
    omega
  subst hout
  refine ⟨?_, ?_, ?_, ?_, ?_, ?_, ?_⟩
  · rw [hH]; simp only [List.append_assoc]; rfl
  · rw [hH]
    simp only [read_u32_le, le32, List.cons_append, List.nil_append, List.getD_cons_succ,
      List.getD_cons_zero]
    exact read_le32 B.length hB
  · rw [hH]
    simp only [read_u16_le, le32, le16, List.cons_append, List.nil_append, List.getD_cons_succ,
      List.getD_cons_zero]
    exact read_le16 _ (by omega)
  · rw [hH]
    simp only [read_u16_le, le32, le16, List.cons_append, List.nil_append, List.getD_cons_succ,
      List.getD_cons_zero]
    exact read_le16 _ (by omega)
  · rw [hH]
    simp only [read_u16_le, le32, le16, List.cons_append, List.nil_append, List.getD_cons_succ,
      List.getD_cons_zero]
    exact read_le16 _ (by omega)
  · exact List.drop_left' hlen
  · rw [List.length_append, hlen]

/-! ## The decode loop: failures and bit consumption -/

theorem refill_spec (nbits : Nat) (fuel : Nat) :
    ∀ br : BitReader, nbits ≤ br.bitcnt + 8 * fuel →
      (∀ e, BitReader.refill nbits fuel br = .error e → e = .outOfBytes)
      ∧ (∀ br2, BitReader.refill nbits fuel br = .ok br2 →
          br2.remaining = br.remaining ∧ nbits ≤ br2.bitcnt) := by
  induction fuel with
  | zero =>
    intro br hf
    have hnot : ¬ br.bitcnt < nbits := by omega
    unfold BitReader.refill
    simp only [hnot, if_false]
    constructor
    · intro e h; cases h
    · intro br2 h; cases h; exact ⟨rfl, by omega⟩
  | succ fuel ih =>
    intro br hf
    unfold BitReader.refill
    by_cases hlt : br.bitcnt < nbits
    · simp only [hlt, if_true]
      by_cases hidx : br.idx ≥ br.p.length
      · simp only [hidx, if_true]
        constructor
        · intro e h; cases h; rfl
        · intro br2 h; cases h
      · simp only [hidx, if_false]
        have hrec := ih
          { br with
            buf := (br.buf ||| ((br.p.getD br.idx 0) <<< br.bitcnt)) % 2 ^ 64
            idx := br.idx + 1
            bitcnt := br.bitcnt + 8 } (by simp only; omega)
        refine ⟨hrec.1, fun br2 h => ?_⟩
        obtain ⟨h1, h2⟩ := hrec.2 br2 h
        refine ⟨?_, h2⟩
        rw [h1]
        simp only [BitReader.remaining]
        omega
    · simp only [hlt, if_false]
      constructor
      · intro e h; cases h
      · intro br2 h; cases h; exact ⟨rfl, by omega⟩

theorem readBits_error (br : BitReader) (nbits : Nat) (e : Err)
    (h : br.readBits nbits = .error e) : e = .outOfBytes := by
  obtain ⟨h1, _⟩ := refill_spec nbits nbits br (by omega)
  unfold BitReader.readBits at h
  cases hr : BitReader.refill nbits nbits br with
  | error e1 => rw [hr] at h; cases h; exact h1 _ hr
  | ok brr => rw [hr] at h; cases h

theorem readBits_ok (br : BitReader) (nbits v : Nat) (br2 : BitReader)
    (h : br.readBits nbits = .ok (v, br2)) : br2.remaining + nbits = br.remaining := by
  obtain ⟨_, h2⟩ := refill_spec nbits nbits br (by omega)
  unfold BitReader.readBits at h
  cases hr : BitReader.refill nbits nbits br with
  | error e1 => rw [hr] at h; cases h
  | ok brr =>
    rw [hr] at h
    obtain ⟨h3, h4⟩ := h2 brr hr
    cases h
    rw [← h3]
    simp only [BitReader.remaining]
    omega

theorem decWalk_spec (h : Huffman) (fuel : Nat) :
    ∀ (br : BitReader) (cur : Int), br.remaining < fuel →
      (∀ e, Huffman.decWalk h fuel br cur = .error e → e = .outOfBytes ∨ e = .invalidPath)
      ∧ (∀ s br2, Huffman.decWalk h fuel br cur = .ok (s, br2) →
          br2.remaining ≤ br.remaining) := by
  induction fuel with
  | zero => intro br cur hf; omega
  | succ fuel ih =>
    intro br cur hf
    unfold Huffman.decWalk
    dsimp only
    by_cases hleaf : (h.nodes.getD cur.toNat {}).sym ≠ -1
    · rw [if_pos hleaf]
      constructor
      · intro e hh; cases hh
      · intro s br2 hh; cases hh; exact le_refl _
    · rw [if_neg hleaf]
      cases hr : br.readBit with
      | error e1 =>
        dsimp only
        constructor
        · intro e hh; cases hh; exact Or.inl (readBits_error br 1 _ hr)
        · intro s br2 hh; cases hh
      | ok res =>
        obtain ⟨bit, br1⟩ := res
        have hrem := readBits_ok br 1 bit br1 hr
        dsimp only
        by_cases hnone : (if bit = 0 then (h.nodes.getD cur.toNat {}).l
            else (h.nodes.getD cur.toNat {}).r) = -1
        · rw [if_pos hnone]
          constructor
          · intro e hh; cases hh; exact Or.inr rfl
          · intro s br2 hh; cases hh
        · rw [if_neg hnone]
          obtain ⟨i1, i2⟩ := ih br1 (if bit = 0 then (h.nodes.getD cur.toNat {}).l
            else (h.nodes.getD cur.toNat {}).r) (by omega)
          refine ⟨i1, fun s br2 hh => ?_⟩
          have := i2 s br2 hh
          omega

theorem decSymbol_error (h : Huffman) (br : BitReader) (e : Err)
    (hh : h.decSymbol br = .error e) : e = .outOfBytes ∨ e = .invalidPath :=
  (decWalk_spec h (br.remaining + 1) br 0 (by omega)).1 e hh

theorem decSymbol_ok (h : Huffman) (br : BitReader) (s : Int) (br2 : BitReader)
    (hh : h.decSymbol br = .ok (s, br2)) : br2.remaining ≤ br.remaining :=
  (decWalk_spec h (br.remaining + 1) br 0 (by omega)).2 s br2 hh

theorem decodeFromStream_spec (h : Huffman) (br : BitReader) :
    (∀ e, BucketCoder.decodeFromStream h br = .error e → e = .outOfBytes ∨ e = .invalidPath)
      ∧ (∀ v br2, BucketCoder.decodeFromStream h br = .ok (v, br2) →
          br2.remaining ≤ br.remaining) := by
  unfold BucketCoder.decodeFromStream
  cases hs : h.decSymbol br with
  | error e1 =>
    dsimp only
    constructor
    · intro e hh; cases hh; exact decSymbol_error h br _ hs
    · intro v br2 hh; cases hh
  | ok res =>
    obtain ⟨sym, br1⟩ := res
    have hrem := decSymbol_ok h br sym br1 hs
    dsimp only
    by_cases h0 : sym = 0
    · rw [if_pos h0]
      constructor
      · intro e hh; cases hh
      · intro v br2 hh; cases hh; exact hrem
    · rw [if_neg h0]
      by_cases heb : (sym - 1).toNat ≠ 0
      · rw [if_pos heb]
        cases hr : br1.readBits (sym - 1).toNat with
        | error e1 =>
          dsimp only
          constructor
          · intro e hh; cases hh; exact Or.inl (readBits_error _ _ _ hr)
          · intro v br2 hh; cases hh
        | ok res2 =>
          obtain ⟨ev, br3⟩ := res2
          have := readBits_ok _ _ _ _ hr
          dsimp only
          constructor
          · intro e hh; cases hh
          · intro v br2 hh; cases hh; omega
      · rw [if_neg heb]
        constructor
        · intro e hh; cases hh
        · intro v br2 hh; cases hh; exact hrem

theorem decodeLiterals_spec (lit : List Huffman) (rawSize : Nat) (cnt : Nat) :
    ∀ (br : BitReader) (out : List Nat),
      (∀ e, decodeLiterals lit rawSize cnt br out = .error e →
          e = .outOfBytes ∨ e = .invalidPath ∨ e = .beyondRawLiterals)
      ∧ (∀ out2 br2, decodeLiterals lit rawSize cnt br out = .ok (out2, br2) →
          br2.remaining ≤ br.remaining) := by
  induction cnt with
  | zero =>
    intro br out
    unfold decodeLiterals
    constructor
    · intro e h; cases h
    · intro out2 br2 h; cases h; exact le_refl _
  | succ cnt ih =>
    intro br out
    unfold decodeLiterals
    dsimp only
    cases hs : (lit.getD (if out = [] then 3 else charContext (out.getLastD 0)) {}).decSymbol br with
    | error e1 =>
      dsimp only
      constructor
      · intro e h
        cases h
        rcases decSymbol_error _ _ _ hs with h | h
        · exact Or.inl h
        · exact Or.inr (Or.inl h)
      · intro out2 br2 h; cases h
    | ok res =>
      obtain ⟨litSym, br1⟩ := res
      have hrem := decSymbol_ok _ _ _ _ hs
      dsimp only
      by_cases hbig : (out ++ [litSym.toNat % 256]).length > rawSize
      · rw [if_pos hbig]
        constructor
        · intro e h; cases h; exact Or.inr (Or.inr rfl)
        · intro out2 br2 h; cases h
      · rw [if_neg hbig]
        obtain ⟨i1, i2⟩ := ih br1 (out ++ [litSym.toNat % 256])
        refine ⟨i1, fun out2 br2 h => ?_⟩
        have := i2 out2 br2 h
        omega

theorem copyMatch_error (rawSize start : Nat) (m : Nat) :
    ∀ (k : Nat) (out : List Nat) (e : Err),
      copyMatch rawSize start m k out = .error e → e = .beyondRawMatch := by
  induction m with
  | zero => intro k out e h; cases h
  | succ m ih =>
    intro k out e h
    unfold copyMatch at h
    dsimp only at h
    by_cases hbig : (out ++ [out.getD (start + k) 0]).length > rawSize
    · rw [if_pos hbig] at h; cases h; rfl
    · rw [if_neg hbig] at h; exact ih _ _ e h

theorem stream_of_walk {e : Err} (h : e = .outOfBytes ∨ e = .invalidPath) : e.Stream := by
  rcases h with h | h <;> subst h
  · exact Or.inl rfl
  · exact Or.inr rfl

theorem decodeLoop_error (tb : DecTables) (rawSize : Nat) (fuel : Nat) :
    ∀ (br : BitReader) (out : List Nat) (e : Err), br.remaining < fuel →
      decodeLoop tb rawSize fuel br out = .error e → e.Stream := by
  induction fuel with
  | zero => intro br out e hf; omega
  | succ fuel ih =>
    intro br out e hf h
    unfold decodeLoop at h
    by_cases hlt : out.length < rawSize
    · rw [if_pos hlt] at h
      obtain ⟨a1, a2⟩ := decodeFromStream_spec tb.insH br
      cases h1 : BucketCoder.decodeFromStream tb.insH br with
      | error e1 => rw [h1] at h; cases h; exact stream_of_walk (a1 _ h1)
      | ok res1 =>
        obtain ⟨insVal, br1⟩ := res1
        rw [h1] at h
        have r1 := a2 insVal br1 h1
        obtain ⟨b1, b2⟩ := decodeLiterals_spec tb.lit rawSize insVal br1 out
        dsimp only at h
        cases h2 : decodeLiterals tb.lit rawSize insVal br1 out with
        | error e2 =>
          rw [h2] at h; cases h
          rcases b1 _ h2 with h | h | h
          · exact stream_of_walk (Or.inl h)
          · exact stream_of_walk (Or.inr h)
          · subst h; exact Or.inr rfl
        | ok res2 =>
          obtain ⟨out2, br2⟩ := res2
          rw [h2] at h
          have r2 := b2 out2 br2 h2
          dsimp only at h
          by_cases hge : out2.length ≥ rawSize
          · rw [if_pos hge] at h; cases h
          · rw [if_neg hge] at h
            cases h3 : br2.readBit with
            | error e3 =>
              rw [h3] at h; cases h
              rw [readBits_error br2 1 _ h3]; exact Or.inl rfl
            | ok res3 =>
              obtain ⟨hasM, br3⟩ := res3
              rw [h3] at h
              have r3 := readBits_ok br2 1 hasM br3 h3
              dsimp only at h
              by_cases hm : hasM = 0
              · rw [if_pos hm] at h
                exact ih br3 out2 e (by omega) h
              · rw [if_neg hm] at h
                obtain ⟨d1, d2⟩ := decodeFromStream_spec tb.copH br3
                cases h4 : BucketCoder.decodeFromStream tb.copH br3 with
                | error e4 => rw [h4] at h; cases h; exact stream_of_walk (d1 _ h4)
                | ok res4 =>
                  obtain ⟨lenVal, br4⟩ := res4
                  rw [h4] at h
                  have r4 := d2 lenVal br4 h4
                  obtain ⟨f1, f2⟩ := decodeFromStream_spec tb.dstH br4
                  dsimp only at h
                  cases h5 : BucketCoder.decodeFromStream tb.dstH br4 with
                  | error e5 => rw [h5] at h; cases h; exact stream_of_walk (f1 _ h5)
                  | ok res5 =>
                    obtain ⟨dstVal, br5⟩ := res5
                    rw [h5] at h
                    have r5 := f2 dstVal br5 h5
                    dsimp only at h
                    by_cases hbad : (dstVal + 1) % 2 ^ 32 = 0
                        ∨ (dstVal + 1) % 2 ^ 32 > out2.length
                    · rw [if_pos hbad] at h; cases h; exact Or.inr rfl
                    · rw [if_neg hbad] at h
                      cases h6 : copyMatch rawSize (out2.length - (dstVal + 1) % 2 ^ 32)
                          ((lenVal + 3) % 2 ^ 32) 0 out2 with
                      | error e6 =>
                        rw [h6] at h; cases h
                        rw [copyMatch_error _ _ _ _ _ _ h6]; exact Or.inr rfl
                      | ok out3 =>
                        rw [h6] at h
                        exact ih br5 out3 e (by omega) h
    · rw [if_neg hlt] at h; cases h

/-- Once the header checks pass and the declared tables fit, `decompress_sbro`
either returns `raw_size` bytes or fails with a stream error (or the size
mismatch of its final check). -/
theorem decompress_outcome (inp : List Nat) (hlen : 1039 ≤ inp.length)
    (hmagic : inp.getD 0 0 = 'S'.toNat ∧ inp.getD 1 0 = 'B'.toNat ∧ inp.getD 2 0 = 'R'.toNat
      ∧ inp.getD 3 0 = 'O'.toNat)
    (hver : inp.getD 4 0 = 1)
    (hfit : 1039 + read_u16_le inp 9 + read_u16_le inp 11 + read_u16_le inp 13 ≤ inp.length) :
    (∃ out, decompress_sbro inp = .ok out ∧ out.length = read_u32_le inp 5)
      ∨ (∃ e, decompress_sbro inp = .error e ∧ (e.Stream ∨ e = .sizeMismatch)) := by
  unfold decompress_sbro
  rw [if_neg (by omega), if_neg (not_not.mpr hmagic), if_neg (not_not.mpr hver)]
  dsimp only
  unfold readTable
  rw [if_neg (by omega), if_neg (by omega), if_neg (by omega)]
  dsimp only
  generalize hbr : ({ p := inp.drop (15 + 4 * 256 + read_u16_le inp 9 + read_u16_le inp 11
    + read_u16_le inp 13) } : BitReader) = br
  generalize htb : ({ lit := _, insH := _, copH := _, dstH := _ } : DecTables) = tb
  cases hd : decodeLoop tb (read_u32_le inp 5) (br.remaining + 1) br [] with
  | error e =>
    right
    exact ⟨e, rfl, Or.inl (decodeLoop_error tb _ _ br [] e (by omega) hd)⟩
  | ok out =>
    dsimp only
    by_cases hsz : out.length ≠ read_u32_le inp 5
    · rw [if_pos hsz]
      right
      exact ⟨_, rfl, Or.inr rfl⟩
    · rw [if_neg hsz]
      left
      exact ⟨out, rfl, not_not.mp hsz⟩

set_option maxRecDepth 100000 in
theorem compress_twoSym : compress_sbro twoSym = .ok twoSymStream := by
  decide!

theorem twoSymStream_offset :
    twoSymStream.length = 1045
      ∧ 1039 + read_u16_le twoSymStream 9 + read_u16_le twoSymStream 11
          + read_u16_le twoSymStream 13 = 1044
      ∧ twoSymStream.getD 1044 0 = 8 := by
  decide!

set_option maxRecDepth 100000 in
theorem decompress_twoSym_corrupted :
    decompress_sbro (twoSymStream.set 1044 12) = .ok [35, 35] := by
  decide!

/-- C10, counterexample: in the container of the two bytes `!#` the bitstream is
the byte at offset 1044; changing it from `0x08` to `0x0C` makes
`decompress_sbro` return successfully, with `##` instead of `!#`. -/
theorem corrupted_byte_decodes_wrong :
    compress_sbro twoSym = .ok twoSymStream
      ∧ 1039 + read_u16_le twoSymStream 9 + read_u16_le twoSymStream 11
          + read_u16_le twoSymStream 13 ≤ 1044
      ∧ 1044 < twoSymStream.length
      ∧ twoSymStream.getD 1044 0 ≠ 12
      ∧ decompress_sbro (twoSymStream.set 1044 12) = .ok [35, 35]
      ∧ [35, 35] ≠ twoSym := by
  refine ⟨compress_twoSym, ?_, ?_, ?_, decompress_twoSym_corrupted, by decide⟩
  · rw [twoSymStream_offset.2.1]
  · rw [twoSymStream_offset.1]; decide
  · rw [twoSymStream_offset.2.2]; decide

/-- C10, amended: for every input `B` with `|B| < 2^32` whose container is `c`,
and every byte sequence obtained from `c` by overwriting the byte at an offset
`i` inside the bitstream section (`i` at least `1039 + insA + copA + dstA`) with
any value `v`,
`decompress_sbro` either returns successfully with exactly `|B|` bytes (which
need not be the bytes of `B`) or fails with an `EndOfStream`, `CorruptStream` or
`SizeMismatch` error. -/
theorem corrupted_bitstream (B c : List Nat) (i v : Nat) (hB : B.length < 2 ^ 32)
    (hc : compress_sbro B = .ok c)
    (hlo : 1039 + read_u16_le c 9 + read_u16_le c 11 + read_u16_le c 13 ≤ i) :
    (∃ out, decompress_sbro (c.set i v) = .ok out ∧ out.length = B.length)
      ∨ (∃ e, decompress_sbro (c.set i v) = .error e
          ∧ (e.kind = .EndOfStream ∨ e.kind = .CorruptStream ∨ e.kind = .SizeMismatch)) := by
  obtain ⟨cb, bw, hcb, _, hout⟩ := compress_decomp B c hc
  obtain ⟨h4, hrows, hins, hcop, hdst⟩ := build_shape _ _ cb hcb
  obtain ⟨_, _, e3, e4, e5, _, e7⟩ :=
    layout_of_decomp B c cb (bw.flushTo []) hB h4 hrows hins hcop hdst hout
  have hlenH : (headerBytes cb B.length).length
      = 1039 + cb.insCodeLen.length + cb.copCodeLen.length + cb.distCodeLen.length := by
    have := congrArg List.length hout
    rw [List.length_append, e7] at this
    omega
  rw [e3, e4, e5] at hlo
  have hset : c.set i v = headerBytes cb B.length
      ++ (bw.flushTo []).set (i - (headerBytes cb B.length).length) v := by
    rw [hout, List.set_append_right _ _ (by omega)]
  obtain ⟨f1, f2, f3, f4, f5, _, f7⟩ :=
    layout_of_decomp B (c.set i v) cb _ hB h4 hrows hins hcop hdst hset
  have hmagic : (c.set i v).getD 0 0 = 'S'.toNat ∧ (c.set i v).getD 1 0 = 'B'.toNat
      ∧ (c.set i v).getD 2 0 = 'R'.toNat ∧ (c.set i v).getD 3 0 = 'O'.toNat := by
    rw [f1]; exact ⟨rfl, rfl, rfl, rfl⟩
  have hver : (c.set i v).getD 4 0 = 1 := by rw [f1]; rfl
  rcases decompress_outcome (c.set i v) (by rw [f7]; omega) hmagic hver
      (by rw [f3, f4, f5, f7]; omega) with ⟨out, h1, h2⟩ | ⟨e, h1, h2⟩
  · left
    exact ⟨out, h1, by rw [h2, f2]⟩
  · right
    refine ⟨e, h1, ?_⟩
    rcases h2 with (h | h) | h
    · exact Or.inl h
    · exact Or.inr (Or.inl h)
    · subst h; exact Or.inr (Or.inr rfl)

/-- Witness for the amended C10: the container of `!#` with its bitstream byte
overwritten by `0x0C`. -/
theorem corrupted_bitstream_witness :
    (∃ out, decompress_sbro (twoSymStream.set 1044 12) = .ok out ∧ out.length = twoSym.length)
      ∨ (∃ e, decompress_sbro (twoSymStream.set 1044 12) = .error e
          ∧ (e.kind = .EndOfStream ∨ e.kind = .CorruptStream ∨ e.kind = .SizeMismatch)) :=
  corrupted_bitstream twoSym twoSymStream 1044 12 (by decide) compress_twoSym
    (by rw [twoSymStream_offset.2.1])

/-! ## The LZ77 parse replays to its input -/

theorem extend_spec (inp : List Nat) (p i : Nat) (rest : Nat) :
    ∀ L, L ≤ LZ77.extend inp p i rest L ∧ LZ77.extend inp p i rest L ≤ L + rest
      ∧ (∀ k, L ≤ k → k < LZ77.extend inp p i rest L →
          inp.getD (p + k) 0 = inp.getD (i + k) 0) := by
  induction rest with
  | zero =>
    intro L
    unfold LZ77.extend
    exact ⟨le_refl _, by omega, fun k h1 h2 => by omega⟩
  | succ rest ih =>
    intro L
    unfold LZ77.extend
    by_cases heq : inp.getD (p + L) 0 = inp.getD (i + L) 0
    · rw [if_pos heq]
      obtain ⟨h1, h2, h3⟩ := ih (L + 1)
      refine ⟨by omega, by omega, fun k hk1 hk2 => ?_⟩
      by_cases hkL : k = L
      · subst hkL; exact heq
      · exact h3 k (by omega) hk2
    · rw [if_neg heq]
      exact ⟨le_refl _, by omega, fun k h1 h2 => by omega⟩

theorem candLoop_sound (inp : List Nat) (n : Int) (i : Nat) (hin : (i : Int) < n) :
    ∀ (cands : List Nat) (checked : Nat) (best : Nat × Int),
      LZ77.Sound inp n i best → LZ77.Sound inp n i (LZ77.candLoop inp n i cands checked best) := by
  intro cands
  induction cands with
  | nil => intro checked best hb; exact hb
  | cons p older ih =>
    intro checked best hb
    unfold LZ77.candLoop
    by_cases hc : checked < LZ77.MAX_CANDS
    · rw [if_pos hc]
      dsimp only
      by_cases hd : (i : Int) - (p : Int) ≤ 0 ∨ (i : Int) - (p : Int) > (LZ77.WND : Int)
      · rw [if_pos hd]; exact ih _ _ hb
      · rw [if_neg hd]
        have hnew : LZ77.Sound inp n i
            (LZ77.extend inp p i (min (n - (i : Int)) (LZ77.WND : Int)).toNat 0,
              (i : Int) - (p : Int)) := by
          right
          obtain ⟨_, h2, h3⟩ := extend_spec inp p i (min (n - (i : Int)) (LZ77.WND : Int)).toNat 0
          have hp : (i : Int) - (p : Int) > 0 := by omega
          have hidx : i - ((i : Int) - (p : Int)).toNat = p := by omega
          refine ⟨by omega, by omega, by omega, ?_, ?_, ?_⟩
          · dsimp only; omega
          · dsimp only; omega
          · intro k hk
            dsimp only at hk ⊢
            rw [hidx]
            exact h3 k (by omega) hk
        by_cases hbetter : LZ77.extend inp p i (min (n - (i : Int)) (LZ77.WND : Int)).toNat 0
            ≥ LZ77.MIN_MATCH
            ∧ LZ77.extend inp p i (min (n - (i : Int)) (LZ77.WND : Int)).toNat 0 > best.1
        · rw [if_pos hbetter]
          by_cases hlong : LZ77.extend inp p i (min (n - (i : Int)) (LZ77.WND : Int)).toNat 0
              ≥ 258
          · rw [if_pos hlong]; exact hnew
          · rw [if_neg hlong]; exact ih _ _ hnew
        · rw [if_neg hbetter]; exact ih _ _ hb
    · rw [if_neg hc]; exact hb

theorem findBest_sound (inp : List Nat) (n : Int) (ht : HashTable) (i : Nat)
    (hin : (i : Int) < n) : LZ77.Sound inp n i (LZ77.findBest inp n ht i) := by
  unfold LZ77.findBest
  split
  · dsimp only
    split
    · exact candLoop_sound inp n i hin _ _ _ (Or.inl rfl)
    · exact Or.inl rfl
  · exact Or.inl rfl

theorem copyRun_take (inp : List Nat) (i d : Nat) (hd1 : 1 ≤ d) (hd2 : d ≤ i) (m : Nat) :
    ∀ k, i + k + m ≤ inp.length →
      (∀ j, j < k + m → inp.getD (i - d + j) 0 = inp.getD (i + j) 0) →
      copyRun (i - d) m k (inp.take (i + k)) = inp.take (i + k + m) := by
  induction m with
  | zero => intro k _ _; rfl
  | succ m ih =>
    intro k hlen hrep
    unfold copyRun
    have h1 : (inp.take (i + k)).getD (i - d + k) 0 = inp.getD (i + k) 0 := by
      rw [← hrep k (by omega)]
      simp only [List.getD_eq_getElem?_getD]
      rw [List.getElem?_take_of_lt (by omega)]
    have hlt : i + k < inp.length := by omega
    have h2 : inp.take (i + k) ++ [inp.getD (i + k) 0] = inp.take (i + (k + 1)) := by
      rw [show i + (k + 1) = (i + k) + 1 from by omega, List.take_succ,
        List.getElem?_eq_getElem hlt, List.getD_eq_getElem _ _ hlt]
      rfl
    rw [h1, h2, ih (k + 1) (by omega) (fun j hj => hrep j (by omega))]
    congr 1; omega

theorem replay_append (cmds : List Command) (cmd : Command) :
    ∀ out, replay (cmds ++ [cmd]) out = (replay cmds out).bind (fun o => replayCommand o cmd) := by
  induction cmds with
  | nil =>
    intro out
    simp only [List.nil_append, replay, Option.some_bind]
    cases replayCommand out cmd <;> rfl
  | cons c rest ih =>
    intro out
    simp only [List.cons_append, replay]
    cases replayCommand out c with
    | none => rfl
    | some o => exact ih o

theorem toInt32_of_small (x : Nat) (h : x < 2 ^ 31) : toInt32 x = (x : Int) := by
  unfold toInt32
  have h1 : x % 2 ^ 32 = x := Nat.mod_eq_of_lt (by omega)
  rw [h1, if_pos h]

theorem parseLoop_inv (inp : List Nat) (n : Int) (hn : n = (inp.length : Int)) (fuel : Nat) :
    ∀ st : LZ77.State, LZ77.Inv inp st → inp.length ≤ st.i + fuel →
      LZ77.Inv inp (LZ77.parseLoop inp n fuel st)
        ∧ (LZ77.parseLoop inp n fuel st).i = inp.length := by
  induction fuel with
  | zero =>
    intro st hinv hf
    unfold LZ77.parseLoop
    exact ⟨hinv, by have := hinv.1; omega⟩
  | succ fuel ih =>
    intro st hinv hf
    obtain ⟨hi, hl, hrep, htake⟩ := hinv
    unfold LZ77.parseLoop
    by_cases hlt : (st.i : Int) < n
    · rw [if_pos hlt]
      dsimp only
      have hilt : st.i < inp.length := by omega
      have hs := findBest_sound inp n st.ht st.i hlt
      by_cases hm : (LZ77.findBest inp n st.ht st.i).1 ≥ LZ77.MIN_MATCH
      · rw [if_pos hm]
        have hm3 : 3 ≤ (LZ77.findBest inp n st.ht st.i).1 := hm
        rcases hs with h0 | ⟨s1, s2, s3, s4, s5, s6⟩
        · omega
        · have hW : LZ77.WND = 32768 := rfl
          rw [hW] at s3 s4
          apply ih
          · refine ⟨by dsimp only; omega, by dsimp only [List.length_nil]; omega, ?_, ?_⟩
            · dsimp only
              rw [replay_append, hrep, Option.some_bind]
              unfold replayCommand
              dsimp only
              rw [htake]
              have hd : (LZ77.findBest inp n st.ht st.i).2.toNat % 2 ^ 32
                  = (LZ77.findBest inp n st.ht st.i).2.toNat := Nat.mod_eq_of_lt (by omega)
              have hL : (LZ77.findBest inp n st.ht st.i).1 % 2 ^ 32
                  = (LZ77.findBest inp n st.ht st.i).1 := Nat.mod_eq_of_lt (by omega)
              have hlen : (inp.take st.i).length = st.i := by
                rw [List.length_take]; omega
              rw [hd, hL, hlen, if_pos rfl, if_neg (by omega)]
              have := copyRun_take inp st.i (LZ77.findBest inp n st.ht st.i).2.toNat
                (by omega) (by omega) (LZ77.findBest inp n st.ht st.i).1 0 (by omega)
                (fun j hj => s6 j (by omega))
              rw [Nat.add_zero] at this
              rw [this, List.length_nil, Nat.sub_zero]
            · dsimp only
              rw [List.length_nil, Nat.sub_zero, List.append_nil]
          · dsimp only; omega
      · rw [if_neg hm]
        apply ih
        · refine ⟨by dsimp only; omega, ?_, ?_, ?_⟩
          · dsimp only; rw [List.length_append, List.length_singleton]; omega
          · dsimp only
            rw [List.length_append, List.length_singleton, hrep]
            congr 2; omega
          · dsimp only
            rw [List.length_append, List.length_singleton,
              show st.i + 1 - (st.litbuf.length + 1) = st.i - st.litbuf.length from by omega,
              ← List.append_assoc, htake, List.take_succ, List.getElem?_eq_getElem hilt,
              List.getD_eq_getElem _ _ hilt]
            rfl
        · dsimp only; omega
    · rw [if_neg hlt]
      exact ⟨⟨hi, hl, hrep, htake⟩, by omega⟩

/-- The commands of `LZ77::parse` replay to the input, for inputs on which
`(int)in.size()` and the position arithmetic do not overflow. -/
theorem parse_replay (inp : List Nat) (hlen : inp.length + 1 < 2 ^ 31) :
    replay (LZ77.parse inp) [] = some inp := by
  have hn : toInt32 inp.length = (inp.length : Int) := toInt32_of_small _ (by omega)
  have hinit : LZ77.Inv inp { ht := LZ77.push_key inp (LZ77.push_key inp [] 0) 1 } := by
    refine ⟨Nat.zero_le _, Nat.zero_le _, rfl, rfl⟩
  have key := parseLoop_inv inp (toInt32 inp.length) hn
    (toInt32 inp.length).toNat _ hinit (by rw [hn]; dsimp only; omega)
  unfold LZ77.parse
  dsimp only
  generalize LZ77.parseLoop inp (toInt32 inp.length) (toInt32 inp.length).toNat
    { ht := LZ77.push_key inp (LZ77.push_key inp [] 0) 1 } = fin at key ⊢
  obtain ⟨⟨_, hl, hrep, htake⟩, hi⟩ := key
  rw [hi] at hrep htake
  rw [List.take_length] at htake
  by_cases hne : fin.litbuf ≠ []
  · rw [if_pos hne, replay_append, hrep, Option.some_bind]
    unfold replayCommand
    dsimp only
    rw [if_neg (by decide), htake]
  · rw [if_neg hne, hrep]
    rw [not_not.mp hne, List.append_nil] at htake
    rw [not_not.mp hne, htake]

/-! ## `compress_sbro` returns on inputs below 2 GiB -/

theorem tallyLiterals_out (lits : List Nat) :
    ∀ t : Tally, (tallyLiterals t lits).out = t.out ++ lits := by
  induction lits with
  | nil => intro t; simp [tallyLiterals]
  | cons b lits ih =>
    intro t
    unfold tallyLiterals at ih ⊢
    rw [List.foldl_cons, ih]
    simp

theorem tallyCommand_replay (t : Tally) (cmd : Command) (o : List Nat)
    (h : replayCommand t.out cmd = some o) :
    ∃ t2, tallyCommand t cmd = .ok t2 ∧ t2.out = o := by
  unfold replayCommand at h
  unfold tallyCommand
  dsimp only
  rw [tallyLiterals_out]
  by_cases hm : cmd.hasMatch = true
  · rw [if_pos hm] at h ⊢
    by_cases hd : cmd.distance = 0 ∨ cmd.distance > (t.out ++ cmd.literals).length
    · rw [if_pos hd] at h; cases h
    · rw [if_neg hd] at h ⊢
      cases h
      exact ⟨_, rfl, rfl⟩
  · rw [if_neg hm] at h ⊢
    cases h
    exact ⟨_, rfl, rfl⟩

theorem tallyLoop_replay (cmds : List Command) :
    ∀ (t : Tally) (o : List Nat), replay cmds t.out = some o →
      ∃ t2, tallyLoop cmds t = .ok t2 ∧ t2.out = o := by
  induction cmds with
  | nil => intro t o h; cases h; exact ⟨t, rfl, rfl⟩
  | cons cmd rest ih =>
    intro t o h
    unfold replay at h
    cases hc : replayCommand t.out cmd with
    | none => rw [hc] at h; cases h
    | some o1 =>
      rw [hc] at h
      obtain ⟨t1, ht1, ho1⟩ := tallyCommand_replay t cmd o1 hc
      unfold tallyLoop
      rw [ht1]
      dsimp only
      exact ih t1 o (by rw [ho1]; exact h)

theorem build_of_replay (cmds : List Command) (original : List Nat)
    (h : replay cmds [] = some original) : ∃ cb, Codebooks.build cmds original = .ok cb := by
  obtain ⟨t, ht, ho⟩ := tallyLoop_replay cmds {} original h
  unfold Codebooks.build
  rw [ht]
  dsimp only
  rw [if_neg (not_not.mpr ho)]
  exact ⟨_, rfl⟩

theorem encodeLiterals_recon (cb : Codebooks) (lits : List Nat) :
    ∀ st : BitWriter × List Nat, (encodeLiterals cb st lits).2 = st.2 ++ lits := by
  induction lits with
  | nil => intro st; simp [encodeLiterals]
  | cons b lits ih =>
    intro st
    unfold encodeLiterals at ih ⊢
    rw [List.foldl_cons, ih]
    simp

theorem encodeCommand_replay (cb : Codebooks) (st : BitWriter × List Nat) (cmd : Command)
    (o : List Nat) (h : replayCommand st.2 cmd = some o) :
    ∃ bw, encodeCommand cb st cmd = .ok (bw, o) := by
  unfold replayCommand at h
  unfold encodeCommand
  dsimp only
  rw [encodeLiterals_recon]
  by_cases hm : cmd.hasMatch = true
  · rw [if_pos hm] at h
    rw [if_pos hm, if_pos hm]
    by_cases hd : cmd.distance = 0 ∨ cmd.distance > (st.2 ++ cmd.literals).length
    · rw [if_pos hd] at h; cases h
    · rw [if_neg hd] at h ⊢
      cases h
      exact ⟨_, rfl⟩
  · rw [if_neg hm] at h
    rw [if_neg hm, if_neg hm]
    cases h
    exact ⟨_, rfl⟩

theorem encodeLoop_replay (cb : Codebooks) (cmds : List Command) :
    ∀ (st : BitWriter × List Nat) (o : List Nat), replay cmds st.2 = some o →
      ∃ bw, encodeLoop cb cmds st = .ok (bw, o) := by
  induction cmds with
  | nil => intro st o h; cases h; exact ⟨st.1, rfl⟩
  | cons cmd rest ih =>
    intro st o h
    unfold replay at h
    cases hc : replayCommand st.2 cmd with
    | none => rw [hc] at h; cases h
    | some o1 =>
      rw [hc] at h
      obtain ⟨bw1, hb1⟩ := encodeCommand_replay cb st cmd o1 hc
      unfold encodeLoop
      rw [hb1]
      dsimp only
      exact ih (bw1, o1) o h

/-- On every input of at most `2^31 - 2` bytes `compress_sbro` returns a
container: none of its failure branches is reached. -/
theorem compress_returns (B : List Nat) (hlen : B.length + 1 < 2 ^ 31) :
    ∃ out, compress_sbro B = .ok out := by
  have hrep := parse_replay B hlen
  obtain ⟨cb, hcb⟩ := build_of_replay _ _ hrep
  obtain ⟨bw, hbw⟩ := encodeLoop_replay cb (LZ77.parse B) ({}, []) B hrep
  unfold compress_sbro
  dsimp only
  rw [hcb]
  dsimp only
  rw [hbw]
  dsimp only
  rw [if_neg (not_not.mpr rfl)]
  exact ⟨_, rfl⟩

/-! ## The container layout -/

theorem layout_of_output (B out : List Nat) (hB : B.length < 2 ^ 32)
    (h : compress_sbro B = .ok out) :
    (∃ cb bw, Codebooks.build (LZ77.parse B) B = .ok cb
      ∧ encodeLoop cb (LZ77.parse B) ({}, []) = .ok (bw, B)
      ∧ out = [83, 66, 82, 79] ++ [1] ++ le32 B.length ++ le16 cb.insCodeLen.length
          ++ le16 cb.copCodeLen.length ++ le16 cb.distCodeLen.length
          ++ cb.litCodeLen.flatten ++ cb.insCodeLen ++ cb.copCodeLen ++ cb.distCodeLen
          ++ bw.flushTo []
      ∧ cb.litCodeLen.map List.length = [256, 256, 256, 256]
      ∧ cb.litCodeLen.flatten.length = 1024
      ∧ read_u16_le out 9 = cb.insCodeLen.length
      ∧ read_u16_le out 11 = cb.copCodeLen.length
      ∧ read_u16_le out 13 = cb.distCodeLen.length
      ∧ out.drop (1039 + read_u16_le out 9 + read_u16_le out 11 + read_u16_le out 13)
          = bw.flushTo [])
      ∧ out.take 4 = ['S'.toNat, 'B'.toNat, 'R'.toNat, 'O'.toNat]
      ∧ out.getD 4 0 = 1
      ∧ (out.drop 5).take 4 = le32 B.length
      ∧ read_u32_le out 5 = B.length
      ∧ 1 ≤ read_u16_le out 9 ∧ 1 ≤ read_u16_le out 11 ∧ 1 ≤ read_u16_le out 13
      ∧ 1039 + read_u16_le out 9 + read_u16_le out 11 + read_u16_le out 13 ≤ out.length := by
  obtain ⟨cb, bw, hcb, henc, hout⟩ := compress_decomp B out h
  obtain ⟨h4, hrows, hins, hcop, hdst⟩ := build_shape _ _ cb hcb
  obtain ⟨e1, e2, e3, e4, e5, e6, e7⟩ :=
    layout_of_decomp B out cb (bw.flushTo []) hB h4 hrows hins hcop hdst hout
  have hrowlen : cb.litCodeLen.map List.length = [256, 256, 256, 256] := by
    match hc : cb.litCodeLen, h4 with
    | [a, b, c, d], _ =>
      rw [hc] at hrows
      simp [hrows a (by simp), hrows b (by simp), hrows c (by simp), hrows d (by simp)]
  refine ⟨⟨cb, bw, hcb, henc, e1, hrowlen, (flatMap_rows cb.litCodeLen h4 hrows).2, e3, e4, e5,
    ?_⟩, ?_, ?_, ?_, e2, ?_, ?_, ?_, ?_⟩
  · rw [e3, e4, e5]; exact e6
  · rw [e1]; rfl
  · rw [e1]; rfl
  · rw [e1]; simp [le32]
  · rw [e3]; exact hins.1
  · rw [e4]; exact hcop.1
  · rw [e5]; exact hdst.1
  · rw [e3, e4, e5, e7]; omega

/-- C6 (container layout), at the failing input and in general. The input of
`2^31` zero bytes is below `2^32` bytes, and `compress_sbro` returns no output
on it: it fails with "Command stream does not reconstruct input.", as it does on
every input of `2^31 <= |B| < 2^32` bytes, so there is no container to have the
layout. On every input of at most `2^31 - 2` bytes `compress_sbro` does return an
output, and every output `out` that it returns on an input `B` with
`|B| < 2^32` is `SBRO`, the version byte 1, `|B|` in four little-endian bytes,
the three alphabet sizes `insA`, `copA`, `dstA` (each at least 1) in two
little-endian bytes each, 1024 literal code lengths (4 rows of 256), then
`insA`, `copA` and `dstA` code lengths, then the flushed bitstream, which
therefore starts at offset `1039 + insA + copA + dstA`; the output is at least
that long. For the empty input the output is `emptyStream`: 1042 bytes with
`raw_size = 0`; for the ten bytes `aaaaaaaaaa` it is `tenAStream`. -/
theorem container_layout :
    (twoGiB.length < 2 ^ 32 ∧ compress_sbro twoGiB = .error .noReconstruct
        ∧ ∀ out, compress_sbro twoGiB ≠ .ok out)
      ∧ (∀ B : List Nat, 2 ^ 31 ≤ B.length → B.length < 2 ^ 32 →
          compress_sbro B = .error .noReconstruct)
      ∧ (∀ B : List Nat, B.length + 1 < 2 ^ 31 → ∃ out, compress_sbro B = .ok out)
      ∧ (∀ B out : List Nat, B.length < 2 ^ 32 → compress_sbro B = .ok out →
          (∃ cb bw, Codebooks.build (LZ77.parse B) B = .ok cb
            ∧ encodeLoop cb (LZ77.parse B) ({}, []) = .ok (bw, B)
            ∧ out = [83, 66, 82, 79] ++ [1] ++ le32 B.length ++ le16 cb.insCodeLen.length
                ++ le16 cb.copCodeLen.length ++ le16 cb.distCodeLen.length
                ++ cb.litCodeLen.flatten ++ cb.insCodeLen ++ cb.copCodeLen ++ cb.distCodeLen
                ++ bw.flushTo []
            ∧ cb.litCodeLen.map List.length = [256, 256, 256, 256]
            ∧ cb.litCodeLen.flatten.length = 1024
            ∧ read_u16_le out 9 = cb.insCodeLen.length
            ∧ read_u16_le out 11 = cb.copCodeLen.length
            ∧ read_u16_le out 13 = cb.distCodeLen.length
            ∧ out.drop (1039 + read_u16_le out 9 + read_u16_le out 11 + read_u16_le out 13)
                = bw.flushTo [])
            ∧ out.take 4 = ['S'.toNat, 'B'.toNat, 'R'.toNat, 'O'.toNat]
            ∧ out.getD 4 0 = 1
            ∧ (out.drop 5).take 4 = le32 B.length
            ∧ read_u32_le out 5 = B.length
            ∧ 1 ≤ read_u16_le out 9 ∧ 1 ≤ read_u16_le out 11 ∧ 1 ≤ read_u16_le out 13
            ∧ 1039 + read_u16_le out 9 + read_u16_le out 11 + read_u16_le out 13 ≤ out.length)
      ∧ compress_sbro [] = .ok emptyStream ∧ emptyStream.length = 1042
      ∧ (emptyStream.drop 5).take 4 = [0, 0, 0, 0]
      ∧ compress_sbro tenA = .ok tenAStream :=
  ⟨⟨twoGiB_length_lt, compress_twoGiB, fun out => ne_ok_of_eq_error compress_twoGiB out⟩,
    compress_of_large, compress_returns, layout_of_output, compress_empty, emptyStream_facts.1,
    emptyStream_facts.2.1, compress_tenA⟩

/-! ## The decode loop returns exactly `raw_size` bytes -/

theorem decodeLiterals_length (lit : List Huffman) (rawSize : Nat) (cnt : Nat) :
    ∀ (br : BitReader) (out out2 : List Nat) (br2 : BitReader), out.length ≤ rawSize →
      decodeLiterals lit rawSize cnt br out = .ok (out2, br2) → out2.length ≤ rawSize := by
  induction cnt with
  | zero =>
    intro br out out2 br2 hle h
    unfold decodeLiterals at h
    cases h; exact hle
  | succ cnt ih =>
    intro br out out2 br2 hle h
    unfold decodeLiterals at h
    dsimp only at h
    cases hs : (lit.getD (if out = [] then 3 else charContext (out.getLastD 0)) {}).decSymbol br with
    | error e1 => rw [hs] at h; cases h
    | ok res =>
      obtain ⟨litSym, br1⟩ := res
      rw [hs] at h
      dsimp only at h
      by_cases hbig : (out ++ [litSym.toNat % 256]).length > rawSize
      · rw [if_pos hbig] at h; cases h
      · rw [if_neg hbig] at h
        exact ih br1 _ out2 br2 (by omega) h

theorem copyMatch_length (rawSize start : Nat) (m : Nat) :
    ∀ (k : Nat) (out out2 : List Nat), out.length ≤ rawSize →
      copyMatch rawSize start m k out = .ok out2 → out2.length ≤ rawSize := by
  induction m with
  | zero => intro k out out2 hle h; cases h; exact hle
  | succ m ih =>
    intro k out out2 hle h
    unfold copyMatch at h
    dsimp only at h
    by_cases hbig : (out ++ [out.getD (start + k) 0]).length > rawSize
    · rw [if_pos hbig] at h; cases h
    · rw [if_neg hbig] at h
      exact ih _ _ out2 (by omega) h

theorem decodeLoop_length (tb : DecTables) (rawSize : Nat) (fuel : Nat) :
    ∀ (br : BitReader) (out res : List Nat), out.length ≤ rawSize →
      decodeLoop tb rawSize fuel br out = .ok res → res.length = rawSize := by
  induction fuel with
  | zero => intro br out res _ h; cases h
  | succ fuel ih =>
    intro br out res hle h
    unfold decodeLoop at h
    by_cases hlt : out.length < rawSize
    · rw [if_pos hlt] at h
      cases h1 : BucketCoder.decodeFromStream tb.insH br with
      | error e1 => rw [h1] at h; cases h
      | ok res1 =>
        obtain ⟨insVal, br1⟩ := res1
        rw [h1] at h
        dsimp only at h
        cases h2 : decodeLiterals tb.lit rawSize insVal br1 out with
        | error e2 => rw [h2] at h; cases h
        | ok res2 =>
          obtain ⟨out2, br2⟩ := res2
          rw [h2] at h
          have l2 := decodeLiterals_length tb.lit rawSize insVal br1 out out2 br2 hle h2
          dsimp only at h
          by_cases hge : out2.length ≥ rawSize
          · rw [if_pos hge] at h; cases h; omega
          · rw [if_neg hge] at h
            cases h3 : br2.readBit with
            | error e3 => rw [h3] at h; cases h
            | ok res3 =>
              obtain ⟨hasM, br3⟩ := res3
              rw [h3] at h
              dsimp only at h
              by_cases hm : hasM = 0
              · rw [if_pos hm] at h
                exact ih br3 out2 res l2 h
              · rw [if_neg hm] at h
                cases h4 : BucketCoder.decodeFromStream tb.copH br3 with
                | error e4 => rw [h4] at h; cases h
                | ok res4 =>
                  obtain ⟨lenVal, br4⟩ := res4
                  rw [h4] at h
                  dsimp only at h
                  cases h5 : BucketCoder.decodeFromStream tb.dstH br4 with
                  | error e5 => rw [h5] at h; cases h
                  | ok res5 =>
                    obtain ⟨dstVal, br5⟩ := res5
                    rw [h5] at h
                    dsimp only at h
                    by_cases hbad : (dstVal + 1) % 2 ^ 32 = 0
                        ∨ (dstVal + 1) % 2 ^ 32 > out2.length
                    · rw [if_pos hbad] at h; cases h
                    · rw [if_neg hbad] at h
                      cases h6 : copyMatch rawSize (out2.length - (dstVal + 1) % 2 ^ 32)
                          ((lenVal + 3) % 2 ^ 32) 0 out2 with
                      | error e6 => rw [h6] at h; cases h
                      | ok out3 =>
                        rw [h6] at h
                        exact ih br5 out3 res (copyMatch_length _ _ _ _ _ _ l2 h6) h
    · rw [if_neg hlt] at h; cases h; omega

/-- Every outcome of `decompress_sbro`: it returns `raw_size` bytes, or rejects
the header, or reads past the end of a header that declares more table bytes
than the input holds, or fails with a stream error. It never exhausts the loop
bound of the embedding and never reaches "Decoded size mismatch". -/
theorem decompress_cases (inp : List Nat) :
    (∃ out, decompress_sbro inp = .ok out ∧ out.length = read_u32_le inp 5)
      ∨ (∃ e, decompress_sbro inp = .error e
          ∧ (e = .inputTooSmall ∨ e = .badMagic ∨ e = .unsupportedVersion ∨ e = .readPastEnd
              ∨ e.Stream)) := by
  unfold decompress_sbro
  by_cases h1 : inp.length < 4 + 1 + 4 + 6 + 4 * 256
  · rw [if_pos h1]; exact Or.inr ⟨_, rfl, Or.inl rfl⟩
  rw [if_neg h1]
  by_cases h2 : ¬ (inp.getD 0 0 = 'S'.toNat ∧ inp.getD 1 0 = 'B'.toNat ∧ inp.getD 2 0 = 'R'.toNat
      ∧ inp.getD 3 0 = 'O'.toNat)
  · rw [if_pos h2]; exact Or.inr ⟨_, rfl, Or.inr (Or.inl rfl)⟩
  rw [if_neg h2]
  by_cases h3 : inp.getD 4 0 ≠ 1
  · rw [if_pos h3]; exact Or.inr ⟨_, rfl, Or.inr (Or.inr (Or.inl rfl))⟩
  rw [if_neg h3]
  dsimp only
  unfold readTable
  by_cases h4 : 15 + 4 * 256 + read_u16_le inp 9 > inp.length
  · rw [if_pos h4]; exact Or.inr ⟨_, rfl, Or.inr (Or.inr (Or.inr (Or.inl rfl)))⟩
  rw [if_neg h4]
  dsimp only
  by_cases h5 : 15 + 4 * 256 + read_u16_le inp 9 + read_u16_le inp 11 > inp.length
  · rw [if_pos h5]; exact Or.inr ⟨_, rfl, Or.inr (Or.inr (Or.inr (Or.inl rfl)))⟩
  rw [if_neg h5]
  dsimp only
  by_cases h6 : 15 + 4 * 256 + read_u16_le inp 9 + read_u16_le inp 11 + read_u16_le inp 13
      > inp.length
  · rw [if_pos h6]; exact Or.inr ⟨_, rfl, Or.inr (Or.inr (Or.inr (Or.inl rfl)))⟩
  rw [if_neg h6]
  dsimp only
  generalize hbr : ({ p := inp.drop (15 + 4 * 256 + read_u16_le inp 9 + read_u16_le inp 11
    + read_u16_le inp 13) } : BitReader) = br
  generalize htb : ({ lit := _, insH := _, copH := _, dstH := _ } : DecTables) = tb
  cases hd : decodeLoop tb (read_u32_le inp 5) (br.remaining + 1) br [] with
  | error e =>
    right
    exact ⟨e, rfl, Or.inr (Or.inr (Or.inr (Or.inr
      (decodeLoop_error tb _ _ br [] e (by omega) hd))))⟩
  | ok out =>
    dsimp only
    have hl := decodeLoop_length tb _ _ br [] out (Nat.zero_le _) hd
    rw [if_neg (not_not.mpr hl)]
    left
    exact ⟨out, rfl, hl⟩

/-! ## A `raw_size` larger than what the bitstream encodes -/

set_option maxRecDepth 100000 in
theorem compress_oneA : compress_sbro oneA = .ok oneAStream := by
  decide!

set_option maxRecDepth 100000 in
theorem decompress_oneA_raw2 : decompress_sbro (withRawSize oneAStream 2) = .ok [97, 0] := by
  decide!

set_option maxRecDepth 100000 in
theorem decompress_oneA_raw1000 :
    decompress_sbro (withRawSize oneAStream 1000) = .error .outOfBytes := by
  decide!

theorem withRawSize_eq (B c : List Nat) (cb : Codebooks) (bits : List Nat) (r : Nat)
    (hr : r < 2 ^ 32)
    (h4 : cb.litCodeLen.length = 4) (hrows : ∀ row ∈ cb.litCodeLen, row.length = 256)
    (hins : 1 ≤ cb.insCodeLen.length ∧ cb.insCodeLen.length ≤ 33)
    (hcop : 1 ≤ cb.copCodeLen.length ∧ cb.copCodeLen.length ≤ 33)
    (hdst : 1 ≤ cb.distCodeLen.length ∧ cb.distCodeLen.length ≤ 33)
    (hout : c = headerBytes cb B.length ++ bits) :
    withRawSize c r = headerBytes cb (List.replicate r 0).length ++ bits := by
  rw [hout, headerBytes_eq cb B.length h4 hrows hins hcop hdst,
    headerBytes_eq cb _ h4 hrows hins hcop hdst, List.length_replicate, Nat.mod_eq_of_lt hr]
  unfold withRawSize
  simp only [le32, List.append_assoc]
  rfl

/-- C11, counterexample: the container of the single byte `a` with `raw_size`
overwritten by 2 is decoded successfully, to the two bytes `a`, `0x00` (the
padding bits are valid codes); with `raw_size` 1000 the failure is "BitReader:
out of bytes", an `EndOfStream`, not "Decoded size mismatch". -/
theorem larger_raw_size_is_accepted :
    compress_sbro oneA = .ok oneAStream ∧ oneA.length < 2
      ∧ decompress_sbro (withRawSize oneAStream 2) = .ok [97, 0]
      ∧ decompress_sbro (withRawSize oneAStream 1000) = .error .outOfBytes
      ∧ Err.kind .outOfBytes = .EndOfStream :=
  ⟨compress_oneA, by decide, decompress_oneA_raw2, decompress_oneA_raw1000, rfl⟩

/-- C11, amended: for every input `B` whose container is `c` and every `r` with
`|B| < r < 2^32`, `decompress_sbro` applied to `c` with its `raw_size` field
overwritten by `r` never fails with "Decoded size mismatch": it either fails with
an `EndOfStream` or `CorruptStream` error, or returns successfully with exactly
`r` bytes, more than `B` has. -/
theorem raw_size_overwritten (B c : List Nat) (r : Nat) (hc : compress_sbro B = .ok c)
    (hr1 : B.length < r) (hr2 : r < 2 ^ 32) :
    (∃ out, decompress_sbro (withRawSize c r) = .ok out ∧ out.length = r
        ∧ B.length < out.length)
      ∨ (∃ e, decompress_sbro (withRawSize c r) = .error e
          ∧ (e.kind = .EndOfStream ∨ e.kind = .CorruptStream)) := by
  obtain ⟨cb, bw, hcb, _, hout⟩ := compress_decomp B c hc
  obtain ⟨h4, hrows, hins, hcop, hdst⟩ := build_shape _ _ cb hcb
  have hw := withRawSize_eq B c cb (bw.flushTo []) r hr2 h4 hrows hins hcop hdst hout
  obtain ⟨f1, f2, f3, f4, f5, _, f7⟩ :=
    layout_of_decomp (List.replicate r 0) (withRawSize c r) cb _
      (by rw [List.length_replicate]; exact hr2) h4 hrows hins hcop hdst hw
  rw [List.length_replicate] at f2
  have hmagic : (withRawSize c r).getD 0 0 = 'S'.toNat ∧ (withRawSize c r).getD 1 0 = 'B'.toNat
      ∧ (withRawSize c r).getD 2 0 = 'R'.toNat ∧ (withRawSize c r).getD 3 0 = 'O'.toNat := by
    rw [f1]; exact ⟨rfl, rfl, rfl, rfl⟩
  have hver : (withRawSize c r).getD 4 0 = 1 := by rw [f1]; rfl
  rcases decompress_outcome (withRawSize c r) (by rw [f7]; omega) hmagic hver
      (by rw [f3, f4, f5, f7]; omega) with ⟨out, h1, h2⟩ | ⟨e, h1, h2⟩
  · left
    exact ⟨out, h1, by rw [h2, f2], by rw [h2, f2]; exact hr1⟩
  · right
    refine ⟨e, h1, ?_⟩
    rcases h2 with h | h
    · exact h
    · exfalso
      subst h
      rcases decompress_cases (withRawSize c r) with ⟨out, g1, _⟩ | ⟨e2, g1, g2⟩
      · rw [h1] at g1; cases g1
      · rw [h1] at g1
        cases g1
        rcases g2 with g | g | g | g | g | g <;> cases g

/-- Witness for the amended C11: the container of `a` with `raw_size` 2. -/
theorem raw_size_overwritten_witness :
    (∃ out, decompress_sbro (withRawSize oneAStream 2) = .ok out ∧ out.length = 2
        ∧ oneA.length < out.length)
      ∨ (∃ e, decompress_sbro (withRawSize oneAStream 2) = .error e
          ∧ (e.kind = .EndOfStream ∨ e.kind = .CorruptStream)) :=
  raw_size_overwritten oneA oneAStream 2 compress_oneA (by decide) (by decide)

/-! ## The replay invariant on an input of 2 GiB -/

theorem ne_nil_of_length_pos {l : List Nat} (h : 0 < l.length) : [] ≠ l := by
  intro hh; rw [← hh] at h; exact Nat.lt_irrefl _ h

/-- C13, at the failing input: on 2 GiB of zero bytes `LZ77::parse` returns no
command, whose replay is the empty buffer and not the input; on every input of
at most `2^31 - 2` bytes the replay of the parse is the input. -/
theorem replay_twoGiB_fails :
    LZ77.parse twoGiB = [] ∧ replay (LZ77.parse twoGiB) [] = some []
      ∧ [] ≠ twoGiB
      ∧ (∀ B : List Nat, B.length + 1 < 2 ^ 31 → replay (LZ77.parse B) [] = some B) := by
  have hp : LZ77.parse twoGiB = [] :=
    parse_of_large twoGiB (le_of_eq twoGiB_length.symm) twoGiB_length_lt
  refine ⟨hp, ?_, ne_nil_of_length_pos (by rw [twoGiB_length]; norm_num), parse_replay⟩
  rw [hp]; rfl

/-! ## The root of a decode trie is never a leaf -/

theorem getD_set_ne_zero (nodes : List Node) (cur : Nat) (hcur : 1 ≤ cur) (x : Node) :
    (nodes.set cur x).getD 0 {} = nodes.getD 0 {} := by
  simp only [List.getD_eq_getElem?_getD]
  rw [List.getElem?_set_ne (by omega)]

theorem links_of_getD (nodes : List Node)
    (h : ∀ nd ∈ nodes, (nd.l = -1 ∨ 1 ≤ nd.l) ∧ (nd.r = -1 ∨ 1 ≤ nd.r)) (cur : Nat) :
    ((nodes.getD cur {}).l = -1 ∨ 1 ≤ (nodes.getD cur {}).l)
      ∧ ((nodes.getD cur {}).r = -1 ∨ 1 ≤ (nodes.getD cur {}).r) := by
  by_cases hc : cur < nodes.length
  · rw [List.getD_eq_getElem _ _ hc]
    exact h _ (List.getElem_mem _)
  · rw [List.getD_eq_default _ _ (by omega)]
    exact ⟨Or.inl rfl, Or.inl rfl⟩

theorem walkBit_ok (rev : Nat) (st : List Node × Nat) (i : Nat) (hn : 1 ≤ st.1.length)
    (h : TrieOK st.1) :
    1 ≤ (Huffman.walkBit rev st i).1.length ∧ TrieOK (Huffman.walkBit rev st i).1
      ∧ 1 ≤ (Huffman.walkBit rev st i).2 := by
  obtain ⟨hroot, hlinks⟩ := h
  have hcurlinks := links_of_getD st.1 hlinks st.2
  unfold Huffman.walkBit
  dsimp only
  by_cases hnone : (if (rev >>> i) &&& 1 = 0 then (st.1.getD st.2 {}).l
      else (st.1.getD st.2 {}).r) = -1
  · rw [if_pos hnone]
    dsimp only
    refine ⟨by rw [List.length_set, List.length_append]; omega, ⟨?_, ?_⟩, hn⟩
    · by_cases hz : st.2 = 0
      · rw [hz]
        simp only [List.getD_eq_getElem?_getD] at hroot ⊢
        rw [List.getElem?_set_self (by rw [List.length_append]; omega)]
        by_cases hb : (rev >>> i) &&& 1 = 0
        · rw [if_pos hb]; exact hroot
        · rw [if_neg hb]; exact hroot
      · rw [getD_set_ne_zero _ _ (by omega)]
        simp only [List.getD_eq_getElem?_getD] at hroot ⊢
        rw [List.getElem?_append_left (by omega)]
        exact hroot
    · intro nd hnd
      rcases List.mem_or_eq_of_mem_set hnd with hm | hm
      · rcases List.mem_append.mp hm with hm2 | hm2
        · exact hlinks nd hm2
        · rw [List.mem_singleton] at hm2; subst hm2
          exact ⟨Or.inl rfl, Or.inl rfl⟩
      · subst hm
        by_cases hb : (rev >>> i) &&& 1 = 0
        · rw [if_pos hb]
          exact ⟨Or.inr (by dsimp only; omega), hcurlinks.2⟩
        · rw [if_neg hb]
          exact ⟨hcurlinks.1, Or.inr (by dsimp only; omega)⟩
  · rw [if_neg hnone]
    dsimp only
    refine ⟨hn, ⟨hroot, hlinks⟩, ?_⟩
    by_cases hb : (rev >>> i) &&& 1 = 0
    · rw [if_pos hb] at hnone ⊢
      rcases hcurlinks.1 with h1 | h1
      · exact absurd h1 hnone
      · omega
    · rw [if_neg hb] at hnone ⊢
      rcases hcurlinks.2 with h1 | h1
      · exact absurd h1 hnone
      · omega

theorem walkBit_fold_ok (rev : Nat) (is : List Nat) :
    ∀ st : List Node × Nat, 1 ≤ st.1.length → TrieOK st.1 → 1 ≤ st.2 →
      1 ≤ (is.foldl (Huffman.walkBit rev) st).1.length
        ∧ TrieOK (is.foldl (Huffman.walkBit rev) st).1
        ∧ 1 ≤ (is.foldl (Huffman.walkBit rev) st).2 := by
  induction is with
  | nil => intro st h1 h2 h3; exact ⟨h1, h2, h3⟩
  | cons i is ih =>
    intro st h1 h2 _
    rw [List.foldl_cons]
    obtain ⟨a, b, c⟩ := walkBit_ok rev st i h1 h2
    exact ih _ a b c

theorem insertSym_ok (codeLen codeRev : List Nat) (nodes : List Node) (s : Nat)
    (hn : 1 ≤ nodes.length) (h : TrieOK nodes) :
    1 ≤ (Huffman.insertSym codeLen codeRev nodes s).length
      ∧ TrieOK (Huffman.insertSym codeLen codeRev nodes s) := by
  unfold Huffman.insertSym
  dsimp only
  by_cases hz : codeLen.getD s 0 = 0
  · rw [if_pos hz]; exact ⟨hn, h⟩
  · rw [if_neg hz]
    obtain ⟨len, hlen⟩ : ∃ len, codeLen.getD s 0 = len + 1 := ⟨codeLen.getD s 0 - 1, by omega⟩
    rw [hlen, List.range_succ_eq_map, List.foldl_cons]
    obtain ⟨a, b, c⟩ := walkBit_ok (codeRev.getD s 0) (nodes, 0) 0 hn h
    obtain ⟨a2, ⟨b2, b3⟩, c2⟩ := walkBit_fold_ok (codeRev.getD s 0)
      (List.map Nat.succ (List.range len)) _ a b c
    refine ⟨by rw [List.length_set]; exact a2, ?_, ?_⟩
    · rw [getD_set_ne_zero _ _ c2]; exact b2
    · intro nd hnd
      rcases List.mem_or_eq_of_mem_set hnd with hm | hm
      · exact b3 nd hm
      · subst hm
        exact links_of_getD _ b3 _

theorem insertSym_fold_ok (codeLen codeRev : List Nat) (ss : List Nat) :
    ∀ nodes : List Node, 1 ≤ nodes.length → TrieOK nodes →
      1 ≤ (ss.foldl (Huffman.insertSym codeLen codeRev) nodes).length
        ∧ TrieOK (ss.foldl (Huffman.insertSym codeLen codeRev) nodes) := by
  induction ss with
  | nil => intro nodes h1 h2; exact ⟨h1, h2⟩
  | cons s ss ih =>
    intro nodes h1 h2
    rw [List.foldl_cons]
    obtain ⟨a, b⟩ := insertSym_ok codeLen codeRev nodes s h1 h2
    exact ih _ a b

theorem buildDecTree_root (h : Huffman) :
    ((h.buildDecTree).nodes.getD 0 {}).sym = -1 := by
  unfold Huffman.buildDecTree
  dsimp only
  have h0 : TrieOK [({} : Node)] := by
    refine ⟨rfl, ?_⟩
    intro nd hnd
    rw [List.mem_singleton] at hnd; subst hnd
    exact ⟨Or.inl rfl, Or.inl rfl⟩
  exact (insertSym_fold_ok h.codeLen h.codeRev (List.range h.alphabet) _ (by simp) h0).2.1

theorem buildFromCL_root (cl : List Nat) :
    (((buildFromCL cl).nodes).getD 0 {}).sym = -1 := by
  unfold buildFromCL
  dsimp only
  split
  · exact buildDecTree_root _
  · exact buildDecTree_root _

theorem buildFromFreq_root (freq : List Nat) :
    (((Huffman.buildFromFreq freq).nodes).getD 0 {}).sym = -1 := by
  unfold Huffman.buildFromFreq
  dsimp only
  split
  · split
    · exact buildDecTree_root _
    · exact buildDecTree_root _
  · split
    · exact buildDecTree_root _
    · exact buildDecTree_root _

/-- A symbol decode on a trie whose root is no leaf reads at least one bit. -/
theorem decSymbol_progress (h : Huffman) (hroot : (h.nodes.getD 0 {}).sym = -1)
    (br : BitReader) (s : Int) (br2 : BitReader) (hd : h.decSymbol br = .ok (s, br2)) :
    br2.remaining < br.remaining := by
  unfold Huffman.decSymbol Huffman.decWalk at hd
  have hz : (0 : Int).toNat = 0 := rfl
  dsimp only at hd
  rw [hz, if_neg (not_not.mpr hroot)] at hd
  cases hr : br.readBit with
  | error e => rw [hr] at hd; cases hd
  | ok res =>
    obtain ⟨bit, br1⟩ := res
    rw [hr] at hd
    have hrem := readBits_ok br 1 bit br1 hr
    dsimp only at hd
    by_cases hnone : (if bit = 0 then (h.nodes.getD 0 {}).l else (h.nodes.getD 0 {}).r) = -1
    · rw [if_pos hnone] at hd; cases hd
    · rw [if_neg hnone] at hd
      have := (decWalk_spec h br.remaining br1 _ (by omega)).2 s br2 hd
      omega

/-! ## A stream of zero-literal, no-match commands -/

theorem getD_zero_of_all_zero (p : List Nat) (hp : ∀ b ∈ p, b = 0) (i : Nat) :
    p.getD i 0 = 0 := by
  by_cases hi : i < p.length
  · rw [List.getD_eq_getElem _ _ hi]; exact hp _ (List.getElem_mem _)
  · rw [List.getD_eq_default _ _ (by omega)]

theorem readBit_zero (br : BitReader) (hbuf : br.buf = 0) (hp : ∀ b ∈ br.p, b = 0) :
    br.readBit = .error .outOfBytes
      ∨ ∃ br2, br.readBit = .ok (0, br2) ∧ br2.buf = 0 ∧ br2.p = br.p
          ∧ br2.remaining + 1 = br.remaining := by
  cases hr : br.readBit with
  | error e => left; rw [readBits_error br 1 e hr]
  | ok res =>
    obtain ⟨v, br2⟩ := res
    right
    have hrem := readBits_ok br 1 v br2 hr
    unfold BitReader.readBit BitReader.readBits BitReader.refill at hr
    by_cases hlt : br.bitcnt < 1
    · rw [if_pos hlt] at hr
      by_cases hidx : br.idx ≥ br.p.length
      · rw [if_pos hidx] at hr; cases hr
      · rw [if_neg hidx] at hr
        unfold BitReader.refill at hr
        dsimp only at hr
        rw [if_neg (by omega), getD_zero_of_all_zero _ hp, hbuf] at hr
        dsimp only at hr
        simp only [Nat.zero_shiftLeft, Nat.or_zero, Nat.zero_mod, Nat.zero_and,
          Nat.zero_shiftRight, Nat.reduceEqDiff, if_false, Except.ok.injEq, Prod.mk.injEq] at hr
        obtain ⟨hv, hb⟩ := hr
        subst hv
        subst hb
        exact ⟨_, rfl, rfl, rfl, hrem⟩
    · rw [if_neg hlt] at hr
      dsimp only at hr
      rw [hbuf] at hr
      simp only [Nat.zero_shiftLeft, Nat.or_zero, Nat.zero_mod, Nat.zero_and,
        Nat.zero_shiftRight, Nat.reduceEqDiff, if_false, Except.ok.injEq, Prod.mk.injEq] at hr
      obtain ⟨hv, hb⟩ := hr
      subst hv
      subst hb
      exact ⟨_, rfl, rfl, rfl, hrem⟩

theorem decodeFromStream_zero (h : Huffman)
    (hnodes : h.nodes = [{ l := 1, r := -1, sym := -1 }, { l := -1, r := -1, sym := 0 }])
    (br : BitReader) (hbuf : br.buf = 0) (hp : ∀ b ∈ br.p, b = 0) :
    BucketCoder.decodeFromStream h br = .error .outOfBytes
      ∨ ∃ br2, BucketCoder.decodeFromStream h br = .ok (0, br2) ∧ br2.buf = 0 ∧ br2.p = br.p
          ∧ br2.remaining + 1 = br.remaining := by
  unfold BucketCoder.decodeFromStream Huffman.decSymbol Huffman.decWalk
  rw [hnodes]
  have hz : (0 : Int).toNat = 0 := rfl
  dsimp only
  rw [hz]
  rcases readBit_zero br hbuf hp with hr | ⟨br2, hr, h1, h2, h3⟩
  · left
    rw [hr]
    rfl
  · right
    rw [hr]
    have hfuel : br.remaining = (br.remaining - 1) + 1 := by omega
    rw [hfuel]
    unfold Huffman.decWalk
    rw [hnodes]
    exact ⟨br2, rfl, h1, h2, by omega⟩

theorem zero_loop (tb : DecTables)
    (hnodes : tb.insH.nodes
      = [{ l := 1, r := -1, sym := -1 }, { l := -1, r := -1, sym := 0 }]) (fuel : Nat) :
    ∀ br : BitReader, br.buf = 0 → (∀ b ∈ br.p, b = 0) → br.remaining < fuel →
      decodeLoop tb 1 fuel br [] = .error .outOfBytes := by
  induction fuel with
  | zero => intro br _ _ hf; omega
  | succ fuel ih =>
    intro br hbuf hp hf
    unfold decodeLoop
    rw [if_pos (by decide)]
    rcases decodeFromStream_zero tb.insH hnodes br hbuf hp with h1 | ⟨br1, h1, b1, p1, r1⟩
    · rw [h1]
    · rw [h1]
      dsimp only
      unfold decodeLiterals
      dsimp only
      rw [if_neg (by decide)]
      rcases readBit_zero br1 b1 (by rw [p1]; exact hp) with h2 | ⟨br2, h2, b2, p2, r2⟩
      · rw [h2]
      · rw [h2]
        dsimp only
        rw [if_pos rfl]
        exact ih br2 b2 (by rw [p2, p1]; exact hp) (by omega)

theorem zeroCmdFixed_length : zeroCmdFixed.length = 1039 := by
  unfold zeroCmdFixed
  rw [List.length_append, List.length_replicate]
  rfl

theorem buildFromCL_one :
    (buildFromCL [1]).nodes = [{ l := 1, r := -1, sym := -1 }, { l := -1, r := -1, sym := 0 }] := by
  decide

/-- Whatever the number `k` of zero bytes in its bitstream, the container
`zeroCommands k` is rejected with "BitReader: out of bytes". -/
theorem zeroCommands_out_of_bytes (k : Nat) :
    decompress_sbro (zeroCommands k) = .error .outOfBytes := by
  have hlen : (zeroCommands k).length = 1042 + k := by
    unfold zeroCommands
    rw [List.length_append, List.length_append, zeroCmdFixed_length, List.length_replicate]
    show 1039 + (3 + k) = 1042 + k
    omega
  have g5 : (zeroCommands k).getD 5 0 = 1 := rfl
  have g6 : (zeroCommands k).getD (5 + 1) 0 = 0 := rfl
  have g7 : (zeroCommands k).getD (5 + 2) 0 = 0 := rfl
  have g8 : (zeroCommands k).getD (5 + 3) 0 = 0 := rfl
  have g9 : (zeroCommands k).getD 9 0 = 1 := rfl
  have g10 : (zeroCommands k).getD (9 + 1) 0 = 0 := rfl
  have g11 : (zeroCommands k).getD 11 0 = 1 := rfl
  have g12 : (zeroCommands k).getD (11 + 1) 0 = 0 := rfl
  have g13 : (zeroCommands k).getD 13 0 = 1 := rfl
  have g14 : (zeroCommands k).getD (13 + 1) 0 = 0 := rfl
  have hraw : read_u32_le (zeroCommands k) 5 = 1 := by
    unfold read_u32_le
    rw [g5, g6, g7, g8]
    rfl
  have hins : read_u16_le (zeroCommands k) 9 = 1 := by
    unfold read_u16_le
    rw [g9, g10]
    rfl
  have hcop : read_u16_le (zeroCommands k) 11 = 1 := by
    unfold read_u16_le
    rw [g11, g12]
    rfl
  have hdst : read_u16_le (zeroCommands k) 13 = 1 := by
    unfold read_u16_le
    rw [g13, g14]
    rfl
  have hmagic : (zeroCommands k).getD 0 0 = 'S'.toNat ∧ (zeroCommands k).getD 1 0 = 'B'.toNat
      ∧ (zeroCommands k).getD 2 0 = 'R'.toNat ∧ (zeroCommands k).getD 3 0 = 'O'.toNat :=
    ⟨rfl, rfl, rfl, rfl⟩
  have hver : (zeroCommands k).getD 4 0 = 1 := rfl
  have hd39 : (zeroCommands k).drop 1039 = [1, 1, 1] ++ List.replicate k 0 := by
    unfold zeroCommands
    exact List.drop_left' zeroCmdFixed_length
  have hd42 : (zeroCommands k).drop 1042 = List.replicate k 0 := by
    rw [show 1042 = 1039 + 3 from rfl, ← List.drop_drop, hd39]
    rfl
  unfold decompress_sbro
  rw [if_neg (by omega), if_neg (not_not.mpr hmagic), if_neg (not_not.mpr hver)]
  dsimp only
  unfold readTable
  rw [hraw, hins, hcop, hdst]
  rw [if_neg (by omega), if_neg (by omega), if_neg (by omega)]
  dsimp only
  rw [hd39, show 15 + 4 * 256 + 1 + 1 + 1 = 1042 from rfl, hd42]
  have key : ∀ tb : DecTables,
      tb.insH.nodes = [{ l := 1, r := -1, sym := -1 }, { l := -1, r := -1, sym := 0 }] →
      decodeLoop tb 1 (BitReader.remaining { p := List.replicate k 0 } + 1)
        { p := List.replicate k 0 } [] = .error .outOfBytes :=
    fun tb h => zero_loop tb h _ _ rfl (fun b hb => List.eq_of_mem_replicate hb) (by omega)
  rw [key _ buildFromCL_one]

theorem stream_ne_outOfFuel (e : Err) (h : e.Stream) : e ≠ .outOfFuel := by
  intro he
  subst he
  rcases h with h | h <;> cases h

theorem readPastEnd_cut_short (inp : List Nat)
    (h : decompress_sbro inp = .error .readPastEnd) :
    1039 ≤ inp.length
      ∧ (inp.getD 0 0 = 'S'.toNat ∧ inp.getD 1 0 = 'B'.toNat ∧ inp.getD 2 0 = 'R'.toNat
          ∧ inp.getD 3 0 = 'O'.toNat)
      ∧ inp.getD 4 0 = 1
      ∧ inp.length < 1039 + read_u16_le inp 9 + read_u16_le inp 11 + read_u16_le inp 13 := by
  unfold decompress_sbro at h
  by_cases h1 : inp.length < 4 + 1 + 4 + 6 + 4 * 256
  · rw [if_pos h1] at h; cases h
  rw [if_neg h1] at h
  by_cases h2 : ¬ (inp.getD 0 0 = 'S'.toNat ∧ inp.getD 1 0 = 'B'.toNat ∧ inp.getD 2 0 = 'R'.toNat
      ∧ inp.getD 3 0 = 'O'.toNat)
  · rw [if_pos h2] at h; cases h
  rw [if_neg h2] at h
  by_cases h3 : inp.getD 4 0 ≠ 1
  · rw [if_pos h3] at h; cases h
  rw [if_neg h3] at h
  refine ⟨by omega, not_not.mp h2, not_not.mp h3, ?_⟩
  dsimp only at h
  unfold readTable at h
  by_cases h4 : 15 + 4 * 256 + read_u16_le inp 9 > inp.length
  · omega
  rw [if_neg h4] at h
  dsimp only at h
  by_cases h5 : 15 + 4 * 256 + read_u16_le inp 9 + read_u16_le inp 11 > inp.length
  · omega
  rw [if_neg h5] at h
  dsimp only at h
  by_cases h6 : 15 + 4 * 256 + read_u16_le inp 9 + read_u16_le inp 11 + read_u16_le inp 13
      > inp.length
  · omega
  rw [if_neg h6] at h
  dsimp only at h
  exfalso
  generalize hbr : ({ p := inp.drop (15 + 4 * 256 + read_u16_le inp 9 + read_u16_le inp 11
    + read_u16_le inp 13) } : BitReader) = br at h
  generalize htb : ({ lit := _, insH := _, copH := _, dstH := _ } : DecTables) = tb at h
  cases hd : decodeLoop tb (read_u32_le inp 5) (br.remaining + 1) br [] with
  | error e =>
    rw [hd] at h
    have hs := decodeLoop_error tb _ _ br [] e (by omega) hd
    cases h
    rcases hs with hs | hs <;> cases hs
  | ok out =>
    rw [hd] at h
    dsimp only at h
    split at h <;> cases h

theorem bitReaderSize_of_le (inp : List Nat) (off : Nat) (h1 : off ≤ inp.length)
    (h2 : inp.length < 2 ^ 64) : bitReaderSize inp off = (inp.drop off).length := by
  unfold bitReaderSize
  rw [List.length_drop]
  omega

/-- C12, at the failing input and in general. The input `zeroCmdFixed` (1039
bytes: `SBRO`, version 1, `raw_size = 1`, three tables of one code length each
declared but not held) passes every check of the header; `decompress_sbro` then
indexes the input at the offsets 1039 to 1041, past its end, which is undefined
behaviour (the outcome `Err.readPastEnd`, of kind `Undefined`, is the mark of it
and not an error that the program raises), and the length `in.size() - off`
that it hands to the bit reader wraps around to `2^64 - 3`: the decode loop is
no longer bound by the finite input. This outcome is reached exactly on the
inputs that pass the header checks and are shorter than the fixed header plus
the tables they declare. On every other input `decompress_sbro` terminates: it
returns, or raises one of the errors of the source; there the length of the bit
reader is the number of bytes left. The rounds of the decode loop are counted
against the bits that are left in the stream plus one, and this count is never
exhausted, because a symbol decode over a table built by `buildFromCL` that
returns has read at least one bit. A container whose bitstream is any number of
zero bytes under a one-symbol insert table, i.e. a stream of commands with no
literal and no match, ends in "BitReader: out of bytes". -/
theorem decompress_terminates :
    (zeroCmdFixed.length = 1039 ∧ zeroCmdFixed.take 5 = [83, 66, 82, 79, 1]
        ∧ read_u32_le zeroCmdFixed 5 = 1
        ∧ 1039 + read_u16_le zeroCmdFixed 9 + read_u16_le zeroCmdFixed 11
            + read_u16_le zeroCmdFixed 13 = 1042
        ∧ decompress_sbro zeroCmdFixed = .error .readPastEnd
        ∧ Err.kind .readPastEnd = .Undefined
        ∧ bitReaderSize zeroCmdFixed 1042 = 2 ^ 64 - 3)
      ∧ (∀ inp : List Nat, decompress_sbro inp = .error .readPastEnd ↔
          (1039 ≤ inp.length
            ∧ (inp.getD 0 0 = 'S'.toNat ∧ inp.getD 1 0 = 'B'.toNat ∧ inp.getD 2 0 = 'R'.toNat
                ∧ inp.getD 3 0 = 'O'.toNat)
            ∧ inp.getD 4 0 = 1
            ∧ inp.length
                < 1039 + read_u16_le inp 9 + read_u16_le inp 11 + read_u16_le inp 13))
      ∧ (∀ inp : List Nat, decompress_sbro inp ≠ .error .readPastEnd →
          (∃ out, decompress_sbro inp = .ok out)
            ∨ (∃ e, decompress_sbro inp = .error e ∧ e.kind ≠ .Undefined))
      ∧ (∀ (inp : List Nat) (off : Nat), off ≤ inp.length → inp.length < 2 ^ 64 →
          bitReaderSize inp off = (inp.drop off).length)
      ∧ (∀ (tb : DecTables) (rawSize fuel : Nat) (br : BitReader) (out : List Nat),
          br.remaining < fuel → decodeLoop tb rawSize fuel br out ≠ .error .outOfFuel)
      ∧ (∀ (cl : List Nat) (br : BitReader) (s : Nat) (br2 : BitReader),
          (buildFromCL cl).decSymbol br = .ok (s, br2) → br2.remaining < br.remaining)
      ∧ (∀ k : Nat, decompress_sbro (zeroCommands k) = .error .outOfBytes) := by
  have hfix : decompress_sbro zeroCmdFixed = .error .readPastEnd :=
    decompress_reads_past_end zeroCmdFixed (by rw [zeroCmdFixed_length])
      (by decide) (by decide) (by rw [zeroCmdFixed_length]; decide)
  refine ⟨⟨zeroCmdFixed_length, by decide, by decide, by decide, hfix, rfl, ?_⟩, ?_, ?_,
    bitReaderSize_of_le, ?_, ?_, zeroCommands_out_of_bytes⟩
  · unfold bitReaderSize
    rw [zeroCmdFixed_length]
    norm_num
  · intro inp
    exact ⟨readPastEnd_cut_short inp,
      fun h => decompress_reads_past_end inp h.1 h.2.1 h.2.2.1 h.2.2.2⟩
  · intro inp hne
    rcases decompress_cases inp with ⟨out, h, _⟩ | ⟨e, h, he⟩
    · exact Or.inl ⟨out, h⟩
    · refine Or.inr ⟨e, h, ?_⟩
      rcases he with he | he | he | he | he
      · rw [he]; decide
      · rw [he]; decide
      · rw [he]; decide
      · rw [he] at h; exact absurd h hne
      · rcases he with he | he
        · rw [he]; decide
        · rw [he]; decide
  · intro tb rawSize fuel br out hf h
    exact stream_ne_outOfFuel _ (decodeLoop_error tb rawSize fuel br out _ hf h) rfl
  · intro cl br s br2 h
    exact decSymbol_progress _ (buildFromCL_root cl) br s br2 h

/-! ## Command invariants of `LZ77::parse` -/

theorem copyRun_length (start : Nat) (m : Nat) :
    ∀ k out, (copyRun start m k out).length = out.length + m := by
  induction m with
  | zero => intro k out; rfl
  | succ m ih =>
    intro k out
    unfold copyRun
    rw [ih, List.length_append, List.length_singleton]
    omega

theorem matchOK_append (cmds : List Command) (cmd : Command) (j : Nat) (hj : j < cmds.length)
    (h : MatchOK cmds j) : MatchOK (cmds ++ [cmd]) j := by
  unfold MatchOK at h ⊢
  rw [List.getD_append _ _ _ _ hj, List.take_append_of_le_length (by omega)]
  exact h

theorem getD_append_self (cmds : List Command) (cmd : Command) :
    (cmds ++ [cmd]).getD cmds.length {} = cmd := by
  rw [List.getD_append_right _ _ _ _ (le_refl _), Nat.sub_self]
  rfl

theorem parseLoop_shape (inp : List Nat) (n : Int) (fuel : Nat) :
    ∀ st : LZ77.State, LZ77.Shape st → LZ77.Shape (LZ77.parseLoop inp n fuel st) := by
  induction fuel with
  | zero => intro st h; exact h
  | succ fuel ih =>
    intro st hst
    obtain ⟨⟨out, hrep, hlen⟩, hall⟩ := hst
    unfold LZ77.parseLoop
    by_cases hlt : (st.i : Int) < n
    · rw [if_pos hlt]
      dsimp only
      have hs := findBest_sound inp n st.ht st.i hlt
      by_cases hm : (LZ77.findBest inp n st.ht st.i).1 ≥ LZ77.MIN_MATCH
      · rw [if_pos hm]
        have hm3 : 3 ≤ (LZ77.findBest inp n st.ht st.i).1 := hm
        rcases hs with h0 | ⟨s1, s2, s3, s4, _, _⟩
        · omega
        · have hW : LZ77.WND = 32768 := rfl
          rw [hW] at s3 s4
          have hd : (LZ77.findBest inp n st.ht st.i).2.toNat % 2 ^ 32
              = (LZ77.findBest inp n st.ht st.i).2.toNat := Nat.mod_eq_of_lt (by omega)
          have hL : (LZ77.findBest inp n st.ht st.i).1 % 2 ^ 32
              = (LZ77.findBest inp n st.ht st.i).1 := Nat.mod_eq_of_lt (by omega)
          apply ih
          refine ⟨?_, ?_⟩
          · dsimp only
            rw [replay_append, hrep, Option.some_bind]
            unfold replayCommand
            dsimp only
            rw [if_pos rfl, hd, hL, List.length_append, if_neg (by omega)]
            refine ⟨_, rfl, ?_⟩
            rw [copyRun_length, List.length_append, List.length_nil]
            omega
          · intro j hj
            dsimp only at hj ⊢
            rw [List.length_append, List.length_singleton] at hj
            by_cases hjl : j < st.cmds.length
            · refine ⟨?_, matchOK_append _ _ j hjl (hall j hjl).2⟩
              rw [List.getD_append _ _ _ _ hjl]
              exact (hall j hjl).1
            · have hje : j = st.cmds.length := by omega
              subst hje
              unfold MatchOK
              rw [getD_append_self, List.take_left]
              dsimp only
              rw [hd, hL]
              exact ⟨rfl, hm3, by omega, by omega, out, hrep, by omega⟩
      · rw [if_neg hm]
        apply ih
        refine ⟨⟨out, hrep, ?_⟩, hall⟩
        dsimp only
        rw [List.length_append, List.length_singleton]
        omega
    · rw [if_neg hlt]
      exact ⟨⟨out, hrep, hlen⟩, hall⟩

/-- C14: for every input `B` and every index `j` of a command of
`LZ77::parse(B)`: if the command has a match then `matchLen >= 3`,
`1 <= distance <= 32768` and the distance is at most the number of bytes that
the replay of the commands before it gives plus the literals of the command
itself; if it has no match then it is the last command of the stream. -/
theorem parse_command_invariants (B : List Nat) (j : Nat) (hj : j < (LZ77.parse B).length) :
    (((LZ77.parse B).getD j {}).hasMatch = true →
        3 ≤ ((LZ77.parse B).getD j {}).matchLen
          ∧ 1 ≤ ((LZ77.parse B).getD j {}).distance
          ∧ ((LZ77.parse B).getD j {}).distance ≤ 32768
          ∧ ∃ out, replay ((LZ77.parse B).take j) [] = some out
              ∧ ((LZ77.parse B).getD j {}).distance
                  ≤ out.length + ((LZ77.parse B).getD j {}).literals.length)
      ∧ (((LZ77.parse B).getD j {}).hasMatch = false → j + 1 = (LZ77.parse B).length) := by
  have hinit : LZ77.Shape { ht := LZ77.push_key B (LZ77.push_key B [] 0) 1 } :=
    ⟨⟨[], rfl, rfl⟩, fun j hj => absurd hj (Nat.not_lt_zero _)⟩
  have hsh := parseLoop_shape B (toInt32 B.length) (toInt32 B.length).toNat _ hinit
  obtain ⟨_, hall⟩ := hsh
  unfold LZ77.parse at hj ⊢
  dsimp only at hj ⊢
  generalize LZ77.parseLoop B (toInt32 B.length) (toInt32 B.length).toNat
    { ht := LZ77.push_key B (LZ77.push_key B [] 0) 1 } = st at hj hall ⊢
  by_cases hl : st.litbuf ≠ []
  · rw [if_pos hl] at hj ⊢
    rw [List.length_append, List.length_singleton] at hj
    by_cases hjl : j < st.cmds.length
    · have h1 := hall j hjl
      have h2 := matchOK_append st.cmds { literals := st.litbuf, hasMatch := false } j hjl h1.2
      unfold MatchOK at h2
      refine ⟨fun _ => h2, fun hf => ?_⟩
      rw [List.getD_append _ _ _ _ hjl, h1.1] at hf
      cases hf
    · have hje : j = st.cmds.length := by omega
      subst hje
      rw [getD_append_self]
      refine ⟨fun ht => ?_, fun _ => ?_⟩
      · cases ht
      · rw [List.length_append, List.length_singleton]
  · rw [if_neg hl] at hj ⊢
    have h1 := hall j hj
    have h2 := h1.2
    unfold MatchOK at h2
    refine ⟨fun _ => h2, fun hf => ?_⟩
    rw [h1.1] at hf
    cases hf

/-- Witness for C14: the only command of the parse of `aaaaaaaaaa`. -/
theorem parse_command_invariants_witness :
    0 < (LZ77.parse tenA).length
      ∧ (((LZ77.parse tenA).getD 0 {}).hasMatch = true →
          3 ≤ ((LZ77.parse tenA).getD 0 {}).matchLen
            ∧ 1 ≤ ((LZ77.parse tenA).getD 0 {}).distance
            ∧ ((LZ77.parse tenA).getD 0 {}).distance ≤ 32768
            ∧ ∃ out, replay ((LZ77.parse tenA).take 0) [] = some out
                ∧ ((LZ77.parse tenA).getD 0 {}).distance
                    ≤ out.length + ((LZ77.parse tenA).getD 0 {}).literals.length)
      ∧ (((LZ77.parse tenA).getD 0 {}).hasMatch = false → 0 + 1 = (LZ77.parse tenA).length) :=
  ⟨by rw [parse_tenA]; decide, parse_command_invariants tenA 0 (by rw [parse_tenA]; decide)⟩

/-! ## Code lengths above 32 -/

set_option maxRecDepth 100000 in
/-- C15, at the failing input: in the table built from the first 35 Fibonacci
numbers symbol 2 (frequency 2) gets code length 33, which does not fit the
`uint32_t` fields `code` and `codeRev`. `encSymbol` writes the 33 bits
`0, 1, ..., 1, 0` (bytes `FE FF FF FF 00`), and `decSymbol` on these bytes
returns symbol 34, the one with code length 1, after one bit. -/
theorem huffman_round_trip_fails :
    fibFreq.getD 2 0 = 2
      ∧ (Huffman.buildFromFreq fibFreq).codeLen.getD 2 0 = 33
      ∧ (Huffman.buildFromFreq fibFreq).codeLen.getD 34 0 = 1
      ∧ encodeOne fibFreq 2 = [254, 255, 255, 255, 0]
      ∧ decodeOne fibFreq (encodeOne fibFreq 2) = .ok (34, 1) := by
  decide!

/-! ## Frequency vectors without a non-zero entry -/

theorem syms_nil_of_all_zero (freq : List Nat) (hz : ∀ x ∈ freq, x = 0) :
    (List.range freq.length).filter (fun i => freq.getD i 0 > 0) = [] := by
  rw [List.filter_eq_nil_iff]
  intro i _
  rw [getD_zero_of_all_zero freq hz i]
  decide

theorem insertSym_skip (codeLen codeRev : List Nat) (nodes : List Node) (l : List Nat)
    (hl : ∀ s ∈ l, codeLen.getD s 0 = 0) :
    l.foldl (Huffman.insertSym codeLen codeRev) nodes = nodes := by
  induction l generalizing nodes with
  | nil => rfl
  | cons s rest ih =>
    rw [List.foldl_cons]
    have h0 : Huffman.insertSym codeLen codeRev nodes s = nodes := by
      unfold Huffman.insertSym
      dsimp only
      rw [if_pos (hl s (List.mem_cons_self _ _))]
    rw [h0]
    exact ih nodes (fun s hs => hl s (List.mem_cons_of_mem _ hs))

theorem getD_set_zero_one (n s : Nat) (hs : 1 ≤ s) :
    ((List.replicate n 0).set 0 1).getD s 0 = 0 := by
  rw [List.getD_eq_getElem?_getD, List.getElem?_set_ne (by omega), ← List.getD_eq_getElem?_getD]
  exact getD_zero_of_all_zero _ (fun b hb => List.eq_of_mem_replicate hb) s

/-- The trie of a table whose only code is the one-bit code 0 of symbol 0. -/
theorem buildDecTree_single_zero (n : Nat) :
    (List.range (n + 1)).foldl
        (Huffman.insertSym ((List.replicate (n + 1) 0).set 0 1) ((List.replicate (n + 1) 0).set 0 0))
        [({} : Node)]
      = [{ l := 1, r := -1, sym := -1 }, { l := -1, r := -1, sym := 0 }] := by
  rw [List.range_succ_eq_map, List.foldl_cons]
  have h0 : Huffman.insertSym ((List.replicate (n + 1) 0).set 0 1)
      ((List.replicate (n + 1) 0).set 0 0) [({} : Node)] 0
      = [{ l := 1, r := -1, sym := -1 }, { l := -1, r := -1, sym := 0 }] := by
    have g1 : ((List.replicate (n + 1) 0).set 0 1).getD 0 0 = 1 := rfl
    have g0 : ((List.replicate (n + 1) 0).set 0 0).getD 0 0 = 0 := rfl
    unfold Huffman.insertSym
    dsimp only
    rw [g1, g0]
    decide
  rw [h0]
  apply insertSym_skip
  intro s hs
  rw [List.mem_map] at hs
  obtain ⟨j, _, hj⟩ := hs
  rw [← hj]
  exact getD_set_zero_one (n + 1) (j + 1) (by omega)

/-- C19, counterexample: for the all-zero frequency vector of three symbols
`buildFromFreq` gives symbol 0 the code length 1, so not every code length is 0,
and symbol 0 is encodable: `encSymbol` writes one bit for it and `decSymbol`
reads it back. -/
theorem all_zero_freq_codes_symbol_zero :
    (∀ x ∈ [0, 0, 0], x = 0)
      ∧ (Huffman.buildFromFreq [0, 0, 0]).codeLen = [1, 0, 0]
      ∧ encodeOne [0, 0, 0] 0 = [0]
      ∧ decodeOne [0, 0, 0] (encodeOne [0, 0, 0] 0) = .ok (0, 1) := by
  decide

/-- C19, amended: for every frequency vector without a non-zero entry (of fewer
than `2^31` symbols, the alphabet size being an `int`), the table built by
`buildFromFreq` is empty only when the alphabet is empty; when the alphabet is
not empty, symbol 0 gets code length 1 with code 0, every other code length is
0, and the decode trie is the root with a single child on bit 0, the leaf of
symbol 0. -/
theorem buildFromFreq_all_zero (freq : List Nat) (_hlen : freq.length < 2 ^ 31)
    (hz : ∀ x ∈ freq, x = 0) :
    (freq = [] → Huffman.buildFromFreq freq
        = { codeLen := [], code := [], codeRev := [], alphabet := 0, nodes := [{}] })
      ∧ (freq ≠ [] → Huffman.buildFromFreq freq
        = { codeLen := (List.replicate freq.length 0).set 0 1,
            code := List.replicate freq.length 0,
            codeRev := List.replicate freq.length 0,
            alphabet := freq.length,
            nodes := [{ l := 1, r := -1, sym := -1 }, { l := -1, r := -1, sym := 0 }] }) := by
  constructor
  · intro h
    subst h
    rfl
  · intro h
    have hs := syms_nil_of_all_zero freq hz
    unfold Huffman.buildFromFreq
    dsimp only
    obtain ⟨n, hn⟩ := Nat.exists_eq_succ_of_ne_zero (fun h0 => h (List.length_eq_zero.mp h0))
    rw [if_pos hs, if_neg (by omega)]
    unfold Huffman.buildDecTree
    dsimp only
    rw [hn, buildDecTree_single_zero n]
    have hset : (List.replicate (n + 1) 0).set 0 0 = List.replicate (n + 1) 0 := by
      rw [List.replicate_succ]
      rfl
    rw [hset]

/-- Witness for the amended C19: three symbols of frequency 0. -/
theorem buildFromFreq_all_zero_witness :
    ([0, 0, 0] : List Nat).length < 2 ^ 31 ∧ (∀ x ∈ [0, 0, 0], x = 0)
      ∧ (([0, 0, 0] : List Nat) = [] → Huffman.buildFromFreq [0, 0, 0]
          = { codeLen := [], code := [], codeRev := [], alphabet := 0, nodes := [{}] })
      ∧ (([0, 0, 0] : List Nat) ≠ [] → Huffman.buildFromFreq [0, 0, 0]
          = { codeLen := (List.replicate ([0, 0, 0] : List Nat).length 0).set 0 1,
              code := List.replicate ([0, 0, 0] : List Nat).length 0,
              codeRev := List.replicate ([0, 0, 0] : List Nat).length 0,
              alphabet := ([0, 0, 0] : List Nat).length,
              nodes := [{ l := 1, r := -1, sym := -1 }, { l := -1, r := -1, sym := 0 }] }) :=
  ⟨by decide, by decide, buildFromFreq_all_zero [0, 0, 0] (by decide) (by decide)⟩

/-! ## Bit I/O round trip -/

theorem leVal_append (a b : List Nat) :
    leVal (a ++ b) = leVal a + 2 ^ (8 * a.length) * leVal b := by
  induction a with
  | nil => simp [leVal]
  | cons x xs ih =>
    rw [List.cons_append, leVal, leVal, ih, List.length_cons]
    have : 2 ^ (8 * (xs.length + 1)) = 256 * 2 ^ (8 * xs.length) := by
      rw [show 8 * (xs.length + 1) = 8 * xs.length + 8 from by ring, pow_add]
      ring
    rw [this]
    ring

theorem leVal_lt (l : List Nat) (h : ∀ b ∈ l, b < 256) : leVal l < 2 ^ (8 * l.length) := by
  induction l with
  | nil => simp [leVal]
  | cons x xs ih =>
    have hx := h x (List.mem_cons_self _ _)
    have hr := ih (fun b hb => h b (List.mem_cons_of_mem _ hb))
    rw [leVal, List.length_cons]
    have : 2 ^ (8 * (xs.length + 1)) = 256 * 2 ^ (8 * xs.length) := by
      rw [show 8 * (xs.length + 1) = 8 * xs.length + 8 from by ring, pow_add]
      ring
    rw [this]
    nlinarith

theorem getD_leVal (l : List Nat) (h : ∀ b ∈ l, b < 256) :
    ∀ i, l.getD i 0 = (leVal l / 2 ^ (8 * i)) % 256 := by
  induction l with
  | nil => intro i; simp [leVal]
  | cons x xs ih =>
    intro i
    have hx := h x (List.mem_cons_self _ _)
    cases i with
    | zero =>
      rw [List.getD_cons_zero, leVal]
      simp only [Nat.mul_zero, pow_zero, Nat.div_one]
      omega
    | succ i =>
      rw [List.getD_cons_succ, ih (fun b hb => h b (List.mem_cons_of_mem _ hb)) i, leVal]
      have : 2 ^ (8 * (i + 1)) = 256 * 2 ^ (8 * i) := by
        rw [show 8 * (i + 1) = 8 * i + 8 from by ring, pow_add]
        ring
      rw [this, ← Nat.div_div_eq_div_mul]
      have h2 : (x + 256 * leVal xs) / 256 = leVal xs := by omega
      rw [h2]

theorem leVal_drop (p : List Nat) (idx : Nat) (h : idx < p.length) :
    leVal (p.drop idx) = p.getD idx 0 + 256 * leVal (p.drop (idx + 1)) := by
  rw [List.drop_eq_getElem_cons h, leVal, List.getD_eq_getElem _ _ h]

theorem bitsVal_lt (ws : List (Nat × Nat)) : bitsVal ws < 2 ^ totalBits ws := by
  induction ws with
  | nil => simp [bitsVal, totalBits]
  | cons w rest ih =>
    unfold totalBits at ih ⊢
    rw [bitsVal, List.map_cons, List.sum_cons, pow_add]
    have h1 : w.1 % 2 ^ w.2 < 2 ^ w.2 := Nat.mod_lt _ (by positivity)
    have h2 : 0 < 2 ^ w.2 := by positivity
    nlinarith

theorem pow_eight_succ (k : Nat) : 2 ^ (8 * (k + 1)) = 2 ^ (8 * k) * 256 := by
  rw [show 8 * (k + 1) = 8 * k + 8 from by ring, pow_add]
  rfl

theorem mask_eq (n : Nat) (hn : n ≤ 32) :
    (if n = 32 then 0xFFFFFFFF else ((1 <<< n) % 2 ^ 64 + (2 ^ 64 - 1)) % 2 ^ 64) = 2 ^ n - 1 := by
  by_cases h : n = 32
  · rw [if_pos h, h]
    rfl
  · rw [if_neg h, Nat.one_shiftLeft]
    have h1 : 2 ^ n < 2 ^ 64 := Nat.pow_lt_pow_right (by decide) (by omega)
    have h2 : 0 < 2 ^ n := by positivity
    rw [Nat.mod_eq_of_lt h1]
    have h3 : 2 ^ n + (2 ^ 64 - 1) = (2 ^ n - 1) + 2 ^ 64 := by omega
    rw [h3, Nat.add_mod_right, Nat.mod_eq_of_lt (by omega)]

theorem drain_spec (fuel : Nat) :
    ∀ bw : BitWriter, bw.Ok → bw.bitcnt / 8 ≤ fuel →
      (BitWriter.drain fuel bw).Ok ∧ (BitWriter.drain fuel bw).value = bw.value
        ∧ (BitWriter.drain fuel bw).bits = bw.bits ∧ (BitWriter.drain fuel bw).bitcnt < 8 := by
  induction fuel with
  | zero =>
    intro bw hok hf
    unfold BitWriter.drain
    exact ⟨hok, rfl, rfl, by omega⟩
  | succ fuel ih =>
    intro bw hok hf
    unfold BitWriter.drain
    by_cases h8 : bw.bitcnt ≥ 8
    · rw [if_pos h8]
      obtain ⟨hb, ho⟩ := hok
      have hsplit : 2 ^ bw.bitcnt = 2 ^ (bw.bitcnt - 8) * 256 := by
        rw [show (256 : Nat) = 2 ^ 8 from rfl, ← pow_add]
        congr 1
        omega
      have hok2 : BitWriter.Ok ⟨bw.out ++ [bw.buf &&& 0xFF], bw.buf >>> 8, bw.bitcnt - 8⟩ := by
        refine ⟨?_, ?_⟩
        · show bw.buf >>> 8 < 2 ^ (bw.bitcnt - 8)
          rw [Nat.shiftRight_eq_div_pow]
          apply Nat.div_lt_of_lt_mul
          rw [show (2 : Nat) ^ 8 = 256 from rfl, Nat.mul_comm, ← hsplit]
          exact hb
        · intro b hbm
          rw [List.mem_append, List.mem_singleton] at hbm
          rcases hbm with hbm | hbm
          · exact ho b hbm
          · rw [hbm, and_255]
            exact Nat.mod_lt _ (by decide)
      obtain ⟨r1, r2, r3, r4⟩ := ih _ hok2 (by dsimp only; omega)
      refine ⟨r1, ?_, ?_, r4⟩
      · rw [r2]
        unfold BitWriter.value
        dsimp only
        rw [leVal_append, List.length_append, List.length_singleton, pow_eight_succ, and_255,
          Nat.shiftRight_eq_div_pow]
        have hdm := Nat.div_add_mod bw.buf 256
        simp only [leVal, Nat.mul_zero, Nat.add_zero]
        rw [show (2 : Nat) ^ 8 = 256 from rfl]
        nth_rewrite 3 [← hdm]
        ring
      · rw [r3]
        unfold BitWriter.bits
        dsimp only
        rw [List.length_append, List.length_singleton]
        omega
    · rw [if_neg h8]
      exact ⟨hok, rfl, rfl, by omega⟩

theorem writeBits_spec (bw : BitWriter) (v n : Nat) (hok : bw.Ok) (h8 : bw.bitcnt < 8)
    (hn : n ≤ 32) :
    (bw.writeBits v n).Ok ∧ (bw.writeBits v n).bitcnt < 8
      ∧ (bw.writeBits v n).value = bw.value + 2 ^ bw.bits * (v % 2 ^ n)
      ∧ (bw.writeBits v n).bits = bw.bits + n := by
  unfold BitWriter.writeBits
  by_cases h0 : n = 0
  · rw [if_pos h0, h0]
    exact ⟨hok, h8, by rw [pow_zero, Nat.mod_one, Nat.mul_zero, Nat.add_zero], rfl⟩
  · rw [if_neg h0]
    dsimp only
    rw [mask_eq n hn, Nat.and_pow_two_sub_one_eq_mod,
      Nat.mod_mod_of_dvd _ (pow_dvd_pow 2 hn), or_shift_eq_add _ _ _ hok.1]
    have hv : v % 2 ^ n < 2 ^ n := Nat.mod_lt _ (by positivity)
    have hlt : bw.buf + 2 ^ bw.bitcnt * (v % 2 ^ n) < 2 ^ (bw.bitcnt + n) := by
      rw [pow_add]
      have := hok.1
      have hp : 0 < 2 ^ bw.bitcnt := by positivity
      nlinarith
    have h64 : (2 : Nat) ^ (bw.bitcnt + n) ≤ 2 ^ 64 := Nat.pow_le_pow_right (by decide) (by omega)
    rw [Nat.mod_eq_of_lt (by omega)]
    have hok2 : BitWriter.Ok ⟨bw.out, bw.buf + 2 ^ bw.bitcnt * (v % 2 ^ n), bw.bitcnt + n⟩ :=
      ⟨hlt, hok.2⟩
    obtain ⟨r1, r2, r3, r4⟩ := drain_spec ((bw.bitcnt + n) / 8) _ hok2 (le_refl _)
    refine ⟨r1, r4, ?_, ?_⟩
    · rw [r2]
      unfold BitWriter.value BitWriter.bits
      dsimp only
      rw [pow_add]
      ring
    · rw [r3]
      unfold BitWriter.bits
      dsimp only
      omega

theorem writeFold_spec (ws : List (Nat × Nat)) (hw : ∀ w ∈ ws, w.2 ≤ 32) :
    ∀ bw : BitWriter, bw.Ok → bw.bitcnt < 8 →
      (ws.foldl (fun bw w => bw.writeBits w.1 w.2) bw).Ok
        ∧ (ws.foldl (fun bw w => bw.writeBits w.1 w.2) bw).bitcnt < 8
        ∧ (ws.foldl (fun bw w => bw.writeBits w.1 w.2) bw).value
            = bw.value + 2 ^ bw.bits * bitsVal ws
        ∧ (ws.foldl (fun bw w => bw.writeBits w.1 w.2) bw).bits = bw.bits + totalBits ws := by
  induction ws with
  | nil =>
    intro bw hok h8
    rw [List.foldl_nil]
    exact ⟨hok, h8, by simp [bitsVal], by simp [totalBits]⟩
  | cons w rest ih =>
    intro bw hok h8
    obtain ⟨a1, a2, a3, a4⟩ :=
      writeBits_spec bw w.1 w.2 hok h8 (hw w (List.mem_cons_self _ _))
    obtain ⟨b1, b2, b3, b4⟩ :=
      ih (fun x hx => hw x (List.mem_cons_of_mem _ hx)) _ a1 a2
    rw [List.foldl_cons]
    refine ⟨b1, b2, ?_, ?_⟩
    · rw [b3, a3, a4, bitsVal, pow_add]
      ring
    · rw [b4, a4]
      unfold totalBits
      rw [List.map_cons, List.sum_cons]
      omega

theorem flushTo_spec (bw : BitWriter) (hok : bw.Ok) (h8 : bw.bitcnt < 8) :
    (∀ b ∈ bw.flushTo [], b < 256) ∧ leVal (bw.flushTo []) = bw.value
      ∧ (bw.flushTo []).length = (bw.bits + 7) / 8 := by
  unfold BitWriter.flushTo BitWriter.value BitWriter.bits
  dsimp only
  rw [List.nil_append]
  by_cases h0 : bw.bitcnt > 0
  · rw [if_pos h0]
    have hb : bw.buf < 256 :=
      lt_of_lt_of_le hok.1 (by
        rw [show (256 : Nat) = 2 ^ 8 from rfl]
        exact Nat.pow_le_pow_right (by decide) (by omega))
    rw [and_255, Nat.mod_eq_of_lt hb]
    refine ⟨?_, ?_, ?_⟩
    · intro b hbm
      rw [List.mem_append, List.mem_singleton] at hbm
      rcases hbm with hbm | hbm
      · exact hok.2 b hbm
      · rw [hbm]; exact hb
    · rw [leVal_append]
      simp only [leVal, Nat.mul_zero, Nat.add_zero]
    · rw [List.length_append, List.length_singleton]
      omega
  · rw [if_neg h0]
    have hz : bw.bitcnt = 0 := by omega
    have hb : bw.buf = 0 := by
      have := hok.1
      rw [hz] at this
      omega
    refine ⟨hok.2, ?_, ?_⟩
    · rw [hb]; simp
    · omega

theorem refill_val (nbits : Nat) (hn : nbits ≤ 32) (fuel : Nat) :
    ∀ br : BitReader, br.Ok → br.bitcnt < nbits + 8 → nbits ≤ br.bitcnt + 8 * fuel →
      nbits ≤ br.remaining →
      ∃ br2, BitReader.refill nbits fuel br = .ok br2 ∧ br2.Ok ∧ br2.pending = br.pending
        ∧ nbits ≤ br2.bitcnt ∧ br2.bitcnt < nbits + 8 ∧ br2.remaining = br.remaining
        ∧ br2.p = br.p := by
  induction fuel with
  | zero =>
    intro br hok h8 hf hrem
    unfold BitReader.refill
    rw [if_neg (by omega)]
    exact ⟨br, rfl, hok, rfl, by omega, h8, rfl, rfl⟩
  | succ fuel ih =>
    intro br hok h8 hf hrem
    unfold BitReader.refill
    by_cases hlt : br.bitcnt < nbits
    · rw [if_pos hlt]
      have hidx : ¬ br.idx ≥ br.p.length := by
        unfold BitReader.remaining at hrem
        omega
      rw [if_neg hidx]
      have hbyte : br.p.getD br.idx 0 < 256 := by
        rw [List.getD_eq_getElem _ _ (by omega)]
        exact hok.2 _ (List.getElem_mem _)
      have hnew : br.buf + 2 ^ br.bitcnt * br.p.getD br.idx 0 < 2 ^ (br.bitcnt + 8) := by
        rw [pow_add, show (2 : Nat) ^ 8 = 256 from rfl]
        have := hok.1
        have hp : 0 < 2 ^ br.bitcnt := by positivity
        nlinarith
      have h64 : (2 : Nat) ^ (br.bitcnt + 8) ≤ 2 ^ 64 :=
        Nat.pow_le_pow_right (by decide) (by omega)
      rw [or_shift_eq_add _ _ _ hok.1, Nat.mod_eq_of_lt (by omega)]
      have hok2 : BitReader.Ok
          ⟨br.p, br.idx + 1, br.buf + 2 ^ br.bitcnt * br.p.getD br.idx 0, br.bitcnt + 8⟩ :=
        ⟨hnew, hok.2⟩
      obtain ⟨br2, r1, r2, r3, r4, r5, r6, r7⟩ := ih _ hok2 (by dsimp only; omega)
        (by dsimp only; omega) (by unfold BitReader.remaining at hrem ⊢; dsimp only; omega)
      refine ⟨br2, r1, r2, ?_, r4, r5, ?_, r7⟩
      · rw [r3]
        unfold BitReader.pending
        dsimp only
        rw [leVal_drop br.p br.idx (by omega), pow_add, show (2 : Nat) ^ 8 = 256 from rfl]
        ring
      · rw [r6]
        unfold BitReader.remaining
        dsimp only
        omega
    · rw [if_neg hlt]
      exact ⟨br, rfl, hok, rfl, by omega, h8, rfl, rfl⟩

theorem readBits_val (br : BitReader) (n : Nat) (hok : br.Ok) (h8 : br.bitcnt < 8)
    (hn : n ≤ 32) (hrem : n ≤ br.remaining) :
    ∃ br2, br.readBits n = .ok (br.pending % 2 ^ n, br2) ∧ br2.Ok ∧ br2.bitcnt < 8
      ∧ br2.pending = br.pending / 2 ^ n ∧ br2.remaining + n = br.remaining := by
  obtain ⟨br1, r1, r2, r3, r4, r5, r6, _⟩ :=
    refill_val n hn n br hok (by omega) (by omega) hrem
  unfold BitReader.readBits
  rw [r1]
  dsimp only
  have hsplit : 2 ^ br1.bitcnt = 2 ^ n * 2 ^ (br1.bitcnt - n) := by
    rw [← pow_add]
    congr 1
    omega
  have hpend : br.pending = br1.buf + 2 ^ n * (2 ^ (br1.bitcnt - n) * leVal (br1.p.drop br1.idx)) := by
    rw [← r3]
    unfold BitReader.pending
    rw [hsplit]
    ring
  have hval : (if n = 32 then br1.buf % 2 ^ 32
      else (br1.buf &&& (((1 <<< n) % 2 ^ 64 + (2 ^ 64 - 1)) % 2 ^ 64)) % 2 ^ 32)
      = br.pending % 2 ^ n := by
    rw [hpend, Nat.add_mul_mod_self_left]
    by_cases h32 : n = 32
    · rw [if_pos h32, h32]
    · rw [if_neg h32]
      have hm := mask_eq n hn
      rw [if_neg h32] at hm
      rw [hm, Nat.and_pow_two_sub_one_eq_mod]
      apply Nat.mod_eq_of_lt
      exact lt_of_lt_of_le (Nat.mod_lt _ (by positivity))
        (Nat.pow_le_pow_right (by decide) hn)
  rw [hval]
  refine ⟨_, rfl, ?_, ?_, ?_, ?_⟩
  · refine ⟨?_, r2.2⟩
    show br1.buf >>> n < 2 ^ (br1.bitcnt - n)
    rw [Nat.shiftRight_eq_div_pow]
    apply Nat.div_lt_of_lt_mul
    rw [← hsplit]
    exact r2.1
  · show br1.bitcnt - n < 8
    omega
  · unfold BitReader.pending
    dsimp only
    rw [Nat.shiftRight_eq_div_pow]
    unfold BitReader.pending at hpend
    rw [hpend, Nat.add_mul_div_left _ _ (by positivity)]
  · rw [← r6]
    unfold BitReader.remaining
    dsimp only
    omega

theorem readAll_spec (ws : List (Nat × Nat)) (hw : ∀ w ∈ ws, w.2 ≤ 32) :
    ∀ (br : BitReader) (X : Nat), br.Ok → br.bitcnt < 8 → totalBits ws ≤ br.remaining →
      br.pending = bitsVal ws + 2 ^ totalBits ws * X →
      ∃ br2, readAll (ws.map Prod.snd) br = .ok (ws.map (fun w => w.1 % 2 ^ w.2), br2) := by
  induction ws with
  | nil =>
    intro br X _ _ _ _
    exact ⟨br, rfl⟩
  | cons w rest ih =>
    intro br X hok h8 hrem hp
    have hT : totalBits (w :: rest) = w.2 + totalBits rest := by
      unfold totalBits
      rw [List.map_cons, List.sum_cons]
    rw [hT] at hrem hp
    obtain ⟨br1, r1, r2, r3, r4, r5⟩ :=
      readBits_val br w.2 hok h8 (hw w (List.mem_cons_self _ _)) (by omega)
    have hp2 : br.pending = w.1 % 2 ^ w.2 + 2 ^ w.2 * (bitsVal rest + 2 ^ totalBits rest * X) := by
      rw [hp, bitsVal, pow_add]
      ring
    have hv : br.pending % 2 ^ w.2 = w.1 % 2 ^ w.2 := by
      rw [hp2, Nat.add_mul_mod_self_left, Nat.mod_mod]
    have hq : br1.pending = bitsVal rest + 2 ^ totalBits rest * X := by
      rw [r4, hp2, Nat.add_mul_div_left _ _ (by positivity),
        Nat.div_eq_of_lt (Nat.mod_lt _ (by positivity)), Nat.zero_add]
    obtain ⟨br2, hr⟩ := ih (fun x hx => hw x (List.mem_cons_of_mem _ hx)) br1 X r2 r3
      (by omega) hq
    refine ⟨br2, ?_⟩
    rw [List.map_cons, List.map_cons, readAll, r1, hv]
    dsimp only
    rw [hr]

theorem streamBit_of_lt (bytes : List Nat) (hb : ∀ b ∈ bytes, b < 256) (T : Nat)
    (hlt : leVal bytes < 2 ^ T) (k : Nat) (hk : T ≤ k) : streamBit bytes k = false := by
  unfold streamBit
  rw [getD_leVal bytes hb, show (256 : Nat) = 2 ^ 8 from rfl, Nat.testBit_mod_two_pow,
    ← Nat.shiftRight_eq_div_pow, Nat.testBit_shiftRight]
  have h1 : 8 * (k / 8) + k % 8 = k := by omega
  have h2 : (leVal bytes).testBit (8 * (k / 8) + k % 8) = false := by
    rw [h1]
    exact Nat.testBit_eq_false_of_lt
      (lt_of_lt_of_le hlt (Nat.pow_le_pow_right (by decide) hk))
  rw [h2, Bool.and_false]

/-- C20: for every sequence of writes `(v, n)` with `1 <= n <= 32` made with
`writeBits` on an empty `BitWriter` and followed by `flushTo`, the emitted bytes
number `ceil(sum n / 8)`, every bit of them from position `sum n` on (the
padding in the high positions of the last byte) is zero, and a `BitReader` over
these bytes calling `readBits(n)` in the same order returns `v mod 2^n` for
each write; bit positions count LSB-first within each byte. -/
theorem bit_io_round_trip (ws : List (Nat × Nat)) (hw : ∀ w ∈ ws, 1 ≤ w.2 ∧ w.2 ≤ 32) :
    ((writeAll ws).flushTo []).length = (totalBits ws + 7) / 8
      ∧ (∀ k, totalBits ws ≤ k → streamBit ((writeAll ws).flushTo []) k = false)
      ∧ ∃ br, readAll (ws.map Prod.snd) { p := (writeAll ws).flushTo [] }
          = .ok (ws.map (fun w => w.1 % 2 ^ w.2), br) := by
  have hw2 : ∀ w ∈ ws, w.2 ≤ 32 := fun w h => (hw w h).2
  have hinit : BitWriter.Ok {} := ⟨by decide, fun b hb => absurd hb (List.not_mem_nil b)⟩
  obtain ⟨a1, a2, a3, a4⟩ := writeFold_spec ws hw2 {} hinit (by decide)
  have hv0 : BitWriter.value {} = 0 := rfl
  have hb0 : BitWriter.bits {} = 0 := rfl
  rw [hv0, hb0, pow_zero, Nat.one_mul, Nat.zero_add] at a3
  rw [hb0, Nat.zero_add] at a4
  obtain ⟨f1, f2, f3⟩ := flushTo_spec _ a1 a2
  rw [a3] at f2
  rw [a4] at f3
  have f1w : ∀ b ∈ (writeAll ws).flushTo [], b < 256 := f1
  have f2w : leVal ((writeAll ws).flushTo []) = bitsVal ws := f2
  have f3w : ((writeAll ws).flushTo []).length = (totalBits ws + 7) / 8 := f3
  refine ⟨f3w, ?_, ?_⟩
  · intro k hk
    exact streamBit_of_lt _ f1w (totalBits ws) (by rw [f2w]; exact bitsVal_lt ws) k hk
  · apply readAll_spec ws hw2 { p := (writeAll ws).flushTo [] } 0
      ⟨Nat.zero_lt_one, f1w⟩ (Nat.zero_lt_succ 7)
    · unfold BitReader.remaining
      dsimp only
      rw [f3w]
      omega
    · unfold BitReader.pending
      dsimp only
      rw [List.drop_zero, f2w, pow_zero, Nat.one_mul, Nat.zero_add, Nat.mul_zero, Nat.add_zero]

/-- Witness for C20: the writes `(5, 3)`, `(0xABCDEF01, 32)`, `(1, 1)`. -/
theorem bit_io_round_trip_witness :
    (∀ w ∈ [(5, 3), (0xABCDEF01, 32), (1, 1)], 1 ≤ w.2 ∧ w.2 ≤ 32)
      ∧ ((writeAll [(5, 3), (0xABCDEF01, 32), (1, 1)]).flushTo []).length
          = (totalBits [(5, 3), (0xABCDEF01, 32), (1, 1)] + 7) / 8
      ∧ (∀ k, totalBits [(5, 3), (0xABCDEF01, 32), (1, 1)] ≤ k →
          streamBit ((writeAll [(5, 3), (0xABCDEF01, 32), (1, 1)]).flushTo []) k = false)
      ∧ ∃ br, readAll ([(5, 3), (0xABCDEF01, 32), (1, 1)].map Prod.snd)
            { p := (writeAll [(5, 3), (0xABCDEF01, 32), (1, 1)]).flushTo [] }
          = .ok ([(5, 3), (0xABCDEF01, 32), (1, 1)].map (fun w => w.1 % 2 ^ w.2), br) :=
  ⟨by decide, bit_io_round_trip [(5, 3), (0xABCDEF01, 32), (1, 1)] (by decide)⟩

/-! ## Canonical code assignment -/

theorem getD_set (l : List Nat) (i j a : Nat) :
    (l.set i a).getD j 0 = if i = j ∧ i < l.length then a else l.getD j 0 := by
  rw [List.getD_eq_getElem?_getD, List.getElem?_set, List.getD_eq_getElem?_getD]
  by_cases h : i = j
  · by_cases h2 : i < l.length
    · rw [if_pos h, if_pos h2, if_pos ⟨h, h2⟩]; rfl
    · rw [if_pos h, if_neg h2, if_neg (fun hh => h2 hh.2), ← h,
        List.getElem?_eq_none (by omega)]
  · rw [if_neg h, if_neg (fun hh => h hh.1)]

theorem rankBelow_succ (cl : List Nat) (L k : Nat) :
    rankBelow cl L (k + 1) = rankBelow cl L k + (if cl.getD k 0 = L then 1 else 0) := by
  unfold rankBelow
  rw [List.range_succ, List.filter_append, List.length_append]
  by_cases h : cl.getD k 0 = L
  · rw [if_pos h, List.filter_cons_of_pos (by simpa using h)]
    rfl
  · rw [if_neg h, List.filter_cons_of_neg (by simpa using h)]
    rfl

theorem rankBelow_of_ne (cl : List Nat) (L : Nat) (h : ∀ i, cl.getD i 0 ≠ L) (k : Nat) :
    rankBelow cl L k = 0 := by
  induction k with
  | zero => rfl
  | succ k ih => rw [rankBelow_succ, ih, if_neg (h k)]

theorem foldl_max_ge (l : List Nat) : ∀ m, m ≤ l.foldl (fun m L => max m L) m
    ∧ ∀ x ∈ l, x ≤ l.foldl (fun m L => max m L) m := by
  induction l with
  | nil => intro m; exact ⟨le_refl _, fun x hx => absurd hx (List.not_mem_nil x)⟩
  | cons a rest ih =>
    intro m
    rw [List.foldl_cons]
    obtain ⟨h1, h2⟩ := ih (max m a)
    refine ⟨le_trans (le_max_left _ _) h1, fun x hx => ?_⟩
    rcases List.mem_cons.mp hx with hx | hx
    · rw [hx]; exact le_trans (le_max_right _ _) h1
    · exact h2 x hx

theorem getD_le_foldl_max (cl : List Nat) (i : Nat) :
    cl.getD i 0 ≤ cl.foldl (fun m L => max m L) 0 := by
  by_cases h : i < cl.length
  · rw [List.getD_eq_getElem _ _ h]
    exact (foldl_max_ge cl 0).2 _ (List.getElem_mem _)
  · rw [List.getD_eq_default _ _ (by omega)]
    exact Nat.zero_le _

theorem blCount_fold (cl : List Nat) (M : Nat) (hM : ∀ i, cl.getD i 0 ≤ M) (k : Nat) :
    ((List.range k).foldl
        (fun bl i =>
          if cl.getD i 0 ≠ 0 then bl.set (cl.getD i 0) (bl.getD (cl.getD i 0) 0 + 1) else bl)
        (List.replicate (M + 1) 0)).length = M + 1
      ∧ ∀ L, ((List.range k).foldl
        (fun bl i =>
          if cl.getD i 0 ≠ 0 then bl.set (cl.getD i 0) (bl.getD (cl.getD i 0) 0 + 1) else bl)
        (List.replicate (M + 1) 0)).getD L 0 = if L = 0 then 0 else rankBelow cl L k := by
  induction k with
  | zero =>
    rw [List.range_zero, List.foldl_nil, List.length_replicate]
    refine ⟨rfl, fun L => ?_⟩
    rw [getD_zero_of_all_zero _ (fun b hb => List.eq_of_mem_replicate hb)]
    by_cases hL : L = 0
    · rw [if_pos hL]
    · rw [if_neg hL]; rfl
  | succ k ih =>
    rw [List.range_succ, List.foldl_append, List.foldl_cons, List.foldl_nil]
    obtain ⟨h1, h2⟩ := ih
    generalize (List.range k).foldl
        (fun bl i =>
          if cl.getD i 0 ≠ 0 then bl.set (cl.getD i 0) (bl.getD (cl.getD i 0) 0 + 1) else bl)
        (List.replicate (M + 1) 0) = bl at h1 h2 ⊢
    by_cases hc : cl.getD k 0 ≠ 0
    · rw [if_pos hc, List.length_set]
      refine ⟨h1, fun L => ?_⟩
      rw [getD_set, rankBelow_succ, h2]
      have := hM k
      by_cases hL : cl.getD k 0 = L
      · rw [if_pos ⟨hL, by omega⟩, if_neg hc, if_pos hL, if_neg (by omega), hL]
      · rw [if_neg (fun hh => hL hh.1), if_neg hL, h2, Nat.add_zero]
    · rw [if_neg hc]
      refine ⟨h1, fun L => ?_⟩
      rw [h2, rankBelow_succ]
      by_cases hL : L = 0
      · rw [if_pos hL, if_pos hL]
      · rw [if_neg hL, if_neg hL, if_neg (by omega), Nat.add_zero]

theorem nextCode_fold (cl bl : List Nat) (M : Nat)
    (hbl : ∀ L, bl.getD L 0 = if L = 0 then 0 else lenCount cl L) (j : Nat) (hj : j ≤ M) :
    ((List.range j).foldl
        (fun (st : List Nat × Nat) j =>
          (st.1.set (j + 1) (((st.2 + bl.getD (j + 1 - 1) 0) <<< 1) % 2 ^ 32),
            ((st.2 + bl.getD (j + 1 - 1) 0) <<< 1) % 2 ^ 32))
        (List.replicate (M + 1) 0, 0)).1.length = M + 1
      ∧ ((List.range j).foldl
        (fun (st : List Nat × Nat) j =>
          (st.1.set (j + 1) (((st.2 + bl.getD (j + 1 - 1) 0) <<< 1) % 2 ^ 32),
            ((st.2 + bl.getD (j + 1 - 1) 0) <<< 1) % 2 ^ 32))
        (List.replicate (M + 1) 0, 0)).2 = nextCode cl j % 2 ^ 32
      ∧ ∀ L, 1 ≤ L → L ≤ j → ((List.range j).foldl
        (fun (st : List Nat × Nat) j =>
          (st.1.set (j + 1) (((st.2 + bl.getD (j + 1 - 1) 0) <<< 1) % 2 ^ 32),
            ((st.2 + bl.getD (j + 1 - 1) 0) <<< 1) % 2 ^ 32))
        (List.replicate (M + 1) 0, 0)).1.getD L 0 = nextCode cl L % 2 ^ 32 := by
  induction j with
  | zero =>
    rw [List.range_zero, List.foldl_nil]
    refine ⟨List.length_replicate _ _, rfl, fun L h1 h2 => ?_⟩
    omega
  | succ j ih =>
    rw [List.range_succ, List.foldl_append, List.foldl_cons, List.foldl_nil]
    obtain ⟨h1, h2, h3⟩ := ih (by omega)
    generalize (List.range j).foldl
        (fun (st : List Nat × Nat) j =>
          (st.1.set (j + 1) (((st.2 + bl.getD (j + 1 - 1) 0) <<< 1) % 2 ^ 32),
            ((st.2 + bl.getD (j + 1 - 1) 0) <<< 1) % 2 ^ 32))
        (List.replicate (M + 1) 0, 0) = st at h1 h2 h3 ⊢
    have hc : ((st.2 + bl.getD (j + 1 - 1) 0) <<< 1) % 2 ^ 32 = nextCode cl (j + 1) % 2 ^ 32 := by
      rw [Nat.add_sub_cancel, h2, hbl j, Nat.shiftLeft_eq, nextCode, pow_one]
      generalize (if j = 0 then 0 else lenCount cl j) = b
      generalize nextCode cl j = a
      omega
    dsimp only
    rw [hc]
    refine ⟨by rw [List.length_set]; exact h1, rfl, fun L hL1 hL2 => ?_⟩
    rw [getD_set]
    by_cases hL : j + 1 = L
    · rw [if_pos ⟨hL, by omega⟩, hL]
    · rw [if_neg (fun hh => hL hh.1)]
      exact h3 L hL1 (by omega)

theorem assign_fold (cl nc0 code0 rev0 : List Nat) (M n : Nat)
    (body : List Nat × List Nat × List Nat → Nat → List Nat × List Nat × List Nat)
    (hbody : ∀ st i, body st i =
      if cl.getD i 0 = 0 then st
      else (st.1.set (cl.getD i 0) ((st.1.getD (cl.getD i 0) 0 + 1) % 2 ^ 32),
        st.2.1.set i (st.1.getD (cl.getD i 0) 0),
        st.2.2.set i (Huffman.reverseBits (st.1.getD (cl.getD i 0) 0) (cl.getD i 0))))
    (hM : ∀ i, cl.getD i 0 ≤ M) (hlen : nc0.length = M + 1)
    (hnc : ∀ L, 1 ≤ L → L ≤ M → nc0.getD L 0 = nextCode cl L % 2 ^ 32)
    (hc : code0.length = n) (hr : rev0.length = n) (k : Nat) (hk : k ≤ n) :
    ((List.range k).foldl body (nc0, code0, rev0)).1.length = M + 1
      ∧ ((List.range k).foldl body (nc0, code0, rev0)).2.1.length = n
      ∧ ((List.range k).foldl body (nc0, code0, rev0)).2.2.length = n
      ∧ (∀ L, 1 ≤ L → L ≤ M → ((List.range k).foldl body (nc0, code0, rev0)).1.getD L 0
          = (nextCode cl L + rankBelow cl L k) % 2 ^ 32)
      ∧ (∀ i, i < k → cl.getD i 0 ≠ 0 →
          ((List.range k).foldl body (nc0, code0, rev0)).2.1.getD i 0
            = (nextCode cl (cl.getD i 0) + rankBelow cl (cl.getD i 0) i) % 2 ^ 32
          ∧ ((List.range k).foldl body (nc0, code0, rev0)).2.2.getD i 0
            = Huffman.reverseBits
                ((nextCode cl (cl.getD i 0) + rankBelow cl (cl.getD i 0) i) % 2 ^ 32)
                (cl.getD i 0))
      ∧ (∀ i, k ≤ i → ((List.range k).foldl body (nc0, code0, rev0)).2.1.getD i 0
            = code0.getD i 0
          ∧ ((List.range k).foldl body (nc0, code0, rev0)).2.2.getD i 0 = rev0.getD i 0) := by
  induction k with
  | zero =>
    rw [List.range_zero, List.foldl_nil]
    refine ⟨hlen, hc, hr, fun L h1 h2 => ?_, fun i hi => absurd hi (Nat.not_lt_zero _),
      fun i _ => ⟨rfl, rfl⟩⟩
    show nc0.getD L 0 = _
    rw [hnc L h1 h2]
    rfl
  | succ k ih =>
    rw [List.range_succ, List.foldl_append, List.foldl_cons, List.foldl_nil]
    obtain ⟨h1, h2, h3, h4, h5, h6⟩ := ih (by omega)
    generalize (List.range k).foldl body (nc0, code0, rev0) = st at h1 h2 h3 h4 h5 h6 ⊢
    rw [hbody]
    by_cases hz : cl.getD k 0 = 0
    · rw [if_pos hz]
      refine ⟨h1, h2, h3, fun L hL1 hL2 => ?_, fun i hi hne => ?_, fun i hi => h6 i (by omega)⟩
      · rw [h4 L hL1 hL2, rankBelow_succ, if_neg (by omega), Nat.add_zero]
      · have hik : i < k := by
          rcases Nat.lt_succ_iff_lt_or_eq.mp hi with h | h
          · exact h
          · rw [h] at hne; exact absurd hz hne
        exact h5 i hik hne
    · rw [if_neg hz]
      have hLk := hM k
      have hcv := h4 (cl.getD k 0) (by omega) hLk
      dsimp only
      refine ⟨by rw [List.length_set]; exact h1, by rw [List.length_set]; exact h2,
        by rw [List.length_set]; exact h3, fun L hL1 hL2 => ?_, fun i hi hne => ?_,
        fun i hi => ?_⟩
      · rw [getD_set, rankBelow_succ]
        by_cases hL : cl.getD k 0 = L
        · rw [if_pos ⟨hL, by omega⟩, if_pos hL, hcv, hL]
          generalize nextCode cl L = a
          generalize rankBelow cl L k = b
          omega
        · rw [if_neg (fun hh => hL hh.1), if_neg hL, Nat.add_zero]
          exact h4 L hL1 hL2
      · rw [getD_set, getD_set]
        by_cases hik : k = i
        · rw [if_pos ⟨hik, by omega⟩, if_pos ⟨hik, by omega⟩, hcv, ← hik]
          exact ⟨rfl, rfl⟩
        · rw [if_neg (fun hh => hik hh.1), if_neg (fun hh => hik hh.1)]
          exact h5 i (by omega) hne
      · rw [getD_set, getD_set, if_neg (fun hh => by omega), if_neg (fun hh => by omega)]
        exact h6 i (by omega)

theorem testBit_one_and (y j : Nat) : (y &&& 1).testBit j = (decide (j = 0) && y.testBit 0) := by
  rw [show (1 : Nat) = 2 ^ 1 - 1 from rfl, Nat.and_pow_two_sub_one_eq_mod,
    Nat.testBit_mod_two_pow]
  cases j with
  | zero => simp
  | succ j => simp

/-- The function `reverseBits(x, len)` for `len <= 32`: a number below `2^len`
whose bit `j` is bit `len - 1 - j` of `x`. -/
theorem reverseBits_spec (x : Nat) (len : Nat) (hlen : len ≤ 32) :
    Huffman.reverseBits x len < 2 ^ len
      ∧ ∀ j, (Huffman.reverseBits x len).testBit j
          = (decide (j < len) && x.testBit (len - 1 - j)) := by
  unfold Huffman.reverseBits
  induction len with
  | zero =>
    rw [List.range_zero, List.foldl_nil]
    refine ⟨by decide, fun j => ?_⟩
    simp
  | succ k ih =>
    rw [List.range_succ, List.foldl_append, List.foldl_cons, List.foldl_nil]
    obtain ⟨h1, h2⟩ := ih (by omega)
    generalize (List.range k).foldl
      (fun r i => ((r <<< 1) % 2 ^ 32) ||| ((x >>> i) &&& 1)) 0 = r at h1 h2 ⊢
    have hk : (2 : Nat) ^ k ≤ 2 ^ 31 := Nat.pow_le_pow_right (by decide) (by omega)
    have hsh : (r <<< 1) % 2 ^ 32 = r <<< 1 := by
      apply Nat.mod_eq_of_lt
      rw [Nat.shiftLeft_eq]
      omega
    rw [hsh]
    have hbits : ∀ j, ((r <<< 1) ||| ((x >>> k) &&& 1)).testBit j
        = (decide (j < k + 1) && x.testBit (k + 1 - 1 - j)) := by
      intro j
      rw [Nat.testBit_or, Nat.testBit_shiftLeft, testBit_one_and, Nat.testBit_shiftRight]
      cases j with
      | zero => simp
      | succ j =>
        have e1 : k + 1 - 1 - (j + 1) = k - 1 - j := by omega
        rw [Nat.add_sub_cancel, h2 j, e1]
        simp
    refine ⟨?_, hbits⟩
    apply Nat.lt_pow_two_of_testBit
    intro i hi
    rw [hbits i]
    simp only [Bool.and_eq_false_imp, decide_eq_true_eq]
    intro h
    omega

theorem assignCodes_spec (cl : List Nat) (n : Nat) (hn : cl.length = n) (s : Nat) (hs : s < n)
    (hne : cl.getD s 0 ≠ 0) :
    (Huffman.assignCodes n cl (List.replicate n 0) (List.replicate n 0)).1.getD s 0
        = (nextCode cl (cl.getD s 0) + rankBelow cl (cl.getD s 0) s) % 2 ^ 32
      ∧ (Huffman.assignCodes n cl (List.replicate n 0) (List.replicate n 0)).2.getD s 0
        = Huffman.reverseBits
            ((nextCode cl (cl.getD s 0) + rankBelow cl (cl.getD s 0) s) % 2 ^ 32)
            (cl.getD s 0) := by
  have hM := getD_le_foldl_max cl
  obtain ⟨b1, b2⟩ := blCount_fold cl (cl.foldl (fun m L => max m L) 0) hM n
  have hbl : ∀ L, ((List.range n).foldl
        (fun bl i =>
          if cl.getD i 0 ≠ 0 then bl.set (cl.getD i 0) (bl.getD (cl.getD i 0) 0 + 1) else bl)
        (List.replicate (cl.foldl (fun m L => max m L) 0 + 1) 0)).getD L 0
      = if L = 0 then 0 else lenCount cl L := by
    intro L
    rw [b2 L]
    unfold lenCount
    rw [hn]
  obtain ⟨c1, _, c3⟩ := nextCode_fold cl _ (cl.foldl (fun m L => max m L) 0) hbl
    (cl.foldl (fun m L => max m L) 0) (le_refl _)
  obtain ⟨_, _, _, _, d5, _⟩ := assign_fold cl _ (List.replicate n 0) (List.replicate n 0)
    (cl.foldl (fun m L => max m L) 0) n
    (fun (st : List Nat × List Nat × List Nat) i =>
      let len := cl.getD i 0
      if len = 0 then st
      else
        let cv := st.1.getD len 0
        (st.1.set len ((cv + 1) % 2 ^ 32), st.2.1.set i cv,
          st.2.2.set i (Huffman.reverseBits cv len)))
    (fun st i => rfl) hM c1 c3 (List.length_replicate _ _) (List.length_replicate _ _) n
    (le_refl _)
  exact d5 s hs hne

theorem buildFromFreq_general (freq : List Nat) (h2 : 2 ≤ (nonzeroSyms freq).length) :
    (Huffman.buildFromFreq freq).code
        = (Huffman.assignCodes freq.length (Huffman.buildFromFreq freq).codeLen
            (List.replicate freq.length 0) (List.replicate freq.length 0)).1
      ∧ (Huffman.buildFromFreq freq).codeRev
        = (Huffman.assignCodes freq.length (Huffman.buildFromFreq freq).codeLen
            (List.replicate freq.length 0) (List.replicate freq.length 0)).2 := by
  have hs1 : ¬ ((List.range freq.length).filter (fun i => freq.getD i 0 > 0) = []) := by
    intro h
    unfold nonzeroSyms at h2
    rw [h] at h2
    exact absurd h2 (by decide)
  have hs2 : ¬ (((List.range freq.length).filter (fun i => freq.getD i 0 > 0)).length = 1) := by
    unfold nonzeroSyms at h2
    omega
  unfold Huffman.buildFromFreq
  dsimp only
  rw [if_neg hs1, if_neg hs2]
  exact ⟨rfl, rfl⟩

/-- C18, general part and failing input. In a table built by `buildFromFreq`
from at least two non-zero frequencies, `code[s]` of a symbol with non-zero
length `L` is `next_code[L]` plus the number of smaller symbols of length `L`,
reduced modulo `2^32` (the fields are `uint32_t`), and `codeRev[s]` is
`reverseBits(code[s], L)`, which for `L <= 32` is `code[s]` with its `L` bits
reversed. For the first 35 Fibonacci numbers symbol 2 has length 33 and the
construction gives the code `2^33 - 2`, but `code[2] = 2^32 - 2`. -/
theorem canonical_codes_mod_2_32 :
    (∀ (freq : List Nat) (s : Nat), 2 ≤ (nonzeroSyms freq).length → s < freq.length →
        (Huffman.buildFromFreq freq).codeLen.getD s 0 ≠ 0 →
        (Huffman.buildFromFreq freq).code.getD s 0
            = (nextCode (Huffman.buildFromFreq freq).codeLen
                  ((Huffman.buildFromFreq freq).codeLen.getD s 0)
                + rankBelow (Huffman.buildFromFreq freq).codeLen
                  ((Huffman.buildFromFreq freq).codeLen.getD s 0) s) % 2 ^ 32
          ∧ (Huffman.buildFromFreq freq).codeRev.getD s 0
            = Huffman.reverseBits ((Huffman.buildFromFreq freq).code.getD s 0)
                ((Huffman.buildFromFreq freq).codeLen.getD s 0))
      ∧ (∀ x len j : Nat, len ≤ 32 →
          Huffman.reverseBits x len < 2 ^ len
            ∧ (Huffman.reverseBits x len).testBit j
                = (decide (j < len) && x.testBit (len - 1 - j)))
      ∧ (2 ≤ (nonzeroSyms fibFreq).length
          ∧ (Huffman.buildFromFreq fibFreq).codeLen.getD 2 0 = 33
          ∧ nextCode (Huffman.buildFromFreq fibFreq).codeLen 33
              + rankBelow (Huffman.buildFromFreq fibFreq).codeLen 33 2 = 2 ^ 33 - 2
          ∧ (Huffman.buildFromFreq fibFreq).code.getD 2 0 = 2 ^ 32 - 2) := by
  refine ⟨fun freq s h2 hs hne => ?_, fun x len j hlen => ?_, ?_⟩
  · obtain ⟨g1, g2⟩ := buildFromFreq_general freq h2
    obtain ⟨a1, a2⟩ := assignCodes_spec (Huffman.buildFromFreq freq).codeLen freq.length
      (buildFromFreq_codeLen_length freq) s hs hne
    rw [g1, g2, a1, a2]
    exact ⟨rfl, rfl⟩
  · exact ⟨(reverseBits_spec x len hlen).1, (reverseBits_spec x len hlen).2 j⟩
  · decide!

/-! ## The priority queue keeps its items -/

theorem getD_set_item (l : List Item) (i j : Nat) (a : Item) :
    (l.set i a).getD j default = if i = j ∧ i < l.length then a else l.getD j default := by
  rw [List.getD_eq_getElem?_getD, List.getElem?_set, List.getD_eq_getElem?_getD]
  by_cases h : i = j
  · by_cases h2 : i < l.length
    · rw [if_pos h, if_pos h2, if_pos ⟨h, h2⟩]; rfl
    · rw [if_pos h, if_neg h2, if_neg (fun hh => h2 hh.2), ← h,
        List.getElem?_eq_none (by omega)]
  · rw [if_neg h, if_neg (fun hh => h hh.1)]

theorem count_set_item (l : List Item) (i : Nat) (hi : i < l.length) (a b : Item) :
    List.count b (l.set i a) + (if l.getD i default = b then 1 else 0)
      = List.count b l + (if a = b then 1 else 0) := by
  rw [List.count_set a b l i hi, List.getD_eq_getElem _ _ hi]
  have hpos : l[i] = b → 0 < List.count b l := by
    intro h
    rw [List.count_pos_iff, ← h]
    exact List.getElem_mem _
  simp only [beq_iff_eq]
  by_cases h1 : l[i] = b
  · have := hpos h1
    rw [if_pos h1]
    omega
  · rw [if_neg h1]
    omega

theorem perm_set_swap (l : List Item) (i j : Nat) (hi : i < l.length) (hj : j < l.length)
    (hij : i ≠ j) (v : Item) :
    ((l.set i (l.getD j default)).set j v).Perm (l.set i v) := by
  rw [List.perm_iff_count]
  intro b
  have e1 := count_set_item l i hi (l.getD j default) b
  have e2 := count_set_item (l.set i (l.getD j default)) j (by rw [List.length_set]; exact hj) v b
  have e3 := count_set_item l i hi v b
  have g : (l.set i (l.getD j default)).getD j default = l.getD j default := by
    rw [getD_set_item, if_neg (fun hh => hij hh.1)]
  rw [g] at e2
  omega

theorem set_getD_self (l : List Item) : ∀ i, l.set i (l.getD i default) = l := by
  induction l with
  | nil => intro i; rfl
  | cons a rest ih =>
    intro i
    cases i with
    | zero => rfl
    | succ i =>
      rw [List.getD_cons_succ, List.set_cons_succ, ih i]

theorem heapSiftUp_spec (value : Item) (topIndex : Nat) (fuel : Nat) :
    ∀ (c : List Item) (hole : Nat), hole < c.length →
      (heapSiftUp value topIndex fuel c hole).1.length = c.length
        ∧ (heapSiftUp value topIndex fuel c hole).2 ≤ hole
        ∧ ((heapSiftUp value topIndex fuel c hole).1.set
            (heapSiftUp value topIndex fuel c hole).2 value).Perm (c.set hole value)
        ∧ ∀ k, hole < k →
            (heapSiftUp value topIndex fuel c hole).1.getD k default = c.getD k default := by
  induction fuel with
  | zero =>
    intro c hole _
    exact ⟨rfl, le_refl _, List.Perm.refl _, fun k _ => rfl⟩
  | succ fuel ih =>
    intro c hole hh
    unfold heapSiftUp
    dsimp only
    by_cases hc : hole > topIndex ∧ (c.getD ((hole - 1) / 2) default).f > value.f
    · rw [if_pos hc]
      have hp : (hole - 1) / 2 < hole := by omega
      obtain ⟨r1, r2, r3, r4⟩ := ih (c.set hole (c.getD ((hole - 1) / 2) default))
        ((hole - 1) / 2) (by rw [List.length_set]; omega)
      refine ⟨by rw [r1, List.length_set], by omega, ?_, fun k hk => ?_⟩
      · exact r3.trans (perm_set_swap c hole ((hole - 1) / 2) hh (by omega) (by omega) value)
      · rw [r4 k (by omega), getD_set_item, if_neg (fun hh2 => by omega)]
    · rw [if_neg hc]
      exact ⟨rfl, le_refl _, List.Perm.refl _, fun k _ => rfl⟩

theorem std_push_heap_spec (c : List Item) (hole topIndex : Nat) (value : Item)
    (hh : hole < c.length) :
    (std_push_heap c hole topIndex value).length = c.length
      ∧ (std_push_heap c hole topIndex value).Perm (c.set hole value)
      ∧ ∀ k, hole < k → (std_push_heap c hole topIndex value).getD k default
          = c.getD k default := by
  obtain ⟨r1, r2, r3, r4⟩ := heapSiftUp_spec value topIndex (hole + 1) c hole hh
  unfold std_push_heap
  dsimp only
  refine ⟨by rw [List.length_set, r1], r3, fun k hk => ?_⟩
  rw [getD_set_item, if_neg (fun hh2 => by omega), r4 k hk]

theorem pq_push_perm (c : List Item) (x : Item) : (pq_push c x).Perm (x :: c) := by
  unfold pq_push
  have h := (std_push_heap_spec (c ++ [x]) c.length 0 x
    (by rw [List.length_append, List.length_singleton]; omega)).2.1
  have hset : (c ++ [x]).set c.length x = c ++ [x] := by
    have := set_getD_self (c ++ [x]) c.length
    rw [List.getD_append_right _ _ _ _ (le_refl _), Nat.sub_self] at this
    exact this
  rw [hset] at h
  exact h.trans (List.perm_append_singleton x c)

theorem heapSiftDown_spec (len : Nat) (v : Item) (fuel : Nat) :
    ∀ (c : List Item) (hole : Nat), hole < len → len ≤ c.length →
      (heapSiftDown len fuel c hole hole).1.length = c.length
        ∧ (heapSiftDown len fuel c hole hole).2.1 = (heapSiftDown len fuel c hole hole).2.2
        ∧ (heapSiftDown len fuel c hole hole).2.1 < len
        ∧ ((heapSiftDown len fuel c hole hole).1.set
            (heapSiftDown len fuel c hole hole).2.1 v).Perm (c.set hole v)
        ∧ ∀ k, len ≤ k →
            (heapSiftDown len fuel c hole hole).1.getD k default = c.getD k default := by
  induction fuel with
  | zero =>
    intro c hole hh _
    exact ⟨rfl, rfl, hh, List.Perm.refl _, fun k _ => rfl⟩
  | succ fuel ih =>
    intro c hole hh hl
    unfold heapSiftDown
    dsimp only
    by_cases hc : hole < (len - 1) / 2
    · rw [if_pos hc]
      by_cases hcmp : (c.getD (2 * (hole + 1)) default).f > (c.getD (2 * (hole + 1) - 1) default).f
      · rw [if_pos hcmp]
        obtain ⟨r1, r2, r3, r4, r5⟩ := ih (c.set hole (c.getD (2 * (hole + 1) - 1) default))
          (2 * (hole + 1) - 1) (by omega) (by rw [List.length_set]; exact hl)
        refine ⟨by rw [r1, List.length_set], r2, r3, ?_, fun k hk => ?_⟩
        · exact r4.trans (perm_set_swap c hole (2 * (hole + 1) - 1) (by omega) (by omega)
            (by omega) v)
        · rw [r5 k hk, getD_set_item, if_neg (fun hh2 => by omega)]
      · rw [if_neg hcmp]
        obtain ⟨r1, r2, r3, r4, r5⟩ := ih (c.set hole (c.getD (2 * (hole + 1)) default))
          (2 * (hole + 1)) (by omega) (by rw [List.length_set]; exact hl)
        refine ⟨by rw [r1, List.length_set], r2, r3, ?_, fun k hk => ?_⟩
        · exact r4.trans (perm_set_swap c hole (2 * (hole + 1)) (by omega) (by omega)
            (by omega) v)
        · rw [r5 k hk, getD_set_item, if_neg (fun hh2 => by omega)]
    · rw [if_neg hc]
      exact ⟨rfl, rfl, hh, List.Perm.refl _, fun k _ => rfl⟩

theorem std_adjust_heap_spec (c : List Item) (len : Nat) (value : Item) (h1 : 1 ≤ len)
    (hl : len ≤ c.length) :
    (std_adjust_heap c 0 len value).length = c.length
      ∧ (std_adjust_heap c 0 len value).Perm (c.set 0 value)
      ∧ ∀ k, len ≤ k → (std_adjust_heap c 0 len value).getD k default = c.getD k default := by
  obtain ⟨r1, r2, r3, r4, r5⟩ := heapSiftDown_spec len value len c 0 (by omega) hl
  unfold std_adjust_heap
  dsimp only
  generalize heapSiftDown len len c 0 0 = st at r1 r2 r3 r4 r5 ⊢
  by_cases hc : len % 2 = 0 ∧ st.2.2 = (len - 2) / 2
  · rw [if_pos hc]
    dsimp only
    have hidx : 2 * (st.2.2 + 1) - 1 < len := by omega
    have hne : st.2.1 ≠ 2 * (st.2.2 + 1) - 1 := by omega
    obtain ⟨p1, p2, p3⟩ := std_push_heap_spec
      (st.1.set st.2.1 (st.1.getD (2 * (st.2.2 + 1) - 1) default)) (2 * (st.2.2 + 1) - 1) 0 value
      (by rw [List.length_set]; omega)
    refine ⟨by rw [p1, List.length_set, r1], ?_, fun k hk => ?_⟩
    · exact (p2.trans (perm_set_swap st.1 st.2.1 (2 * (st.2.2 + 1) - 1) (by omega) (by omega)
        hne value)).trans r4
    · rw [p3 k (by omega), getD_set_item, if_neg (fun hh2 => by omega), r5 k hk]
  · rw [if_neg hc]
    dsimp only
    obtain ⟨p1, p2, p3⟩ := std_push_heap_spec st.1 st.2.1 0 value (by omega)
    refine ⟨by rw [p1, r1], p2.trans r4, fun k hk => ?_⟩
    rw [p3 k (by omega), r5 k hk]

theorem pq_pop_perm (c : List Item) (hc : c ≠ []) : (pq_top c :: pq_pop c).Perm c := by
  have hlen : 0 < c.length := List.length_pos.mpr hc
  unfold pq_top pq_pop
  by_cases h1 : c.length > 1
  · rw [if_pos h1]
    dsimp only
    obtain ⟨a1, a2, a3⟩ := std_adjust_heap_spec (c.set (c.length - 1) (c.getD 0 default))
      (c.length - 1) (c.getD (c.length - 1) default) (by omega)
      (by rw [List.length_set]; omega)
    generalize std_adjust_heap (c.set (c.length - 1) (c.getD 0 default)) 0 (c.length - 1)
      (c.getD (c.length - 1) default) = r at a1 a2 a3 ⊢
    rw [List.length_set] at a1
    have hr : r ≠ [] := by
      intro h
      rw [h] at a1
      simp at a1
      omega
    have hlast : r.getLast hr = c.getD 0 default := by
      have e := a3 (c.length - 1) (le_refl _)
      rw [getD_set_item, if_pos ⟨rfl, by omega⟩] at e
      rw [← e, List.getLast_eq_getElem, List.getD_eq_getElem _ _ (by omega)]
      congr 1
      omega
    have hsplit := List.dropLast_append_getLast hr
    rw [hlast] at hsplit
    have hperm : (c.getD 0 default :: r.dropLast).Perm r := by
      have := List.perm_append_singleton (c.getD 0 default) r.dropLast
      rw [hsplit] at this
      exact this.symm
    have hswap := perm_set_swap c (c.length - 1) 0 (by omega) (by omega) (by omega)
      (c.getD (c.length - 1) default)
    rw [set_getD_self] at hswap
    exact (hperm.trans a2).trans hswap
  · rw [if_neg h1]
    have h1' : c.length = 1 := by omega
    match c, h1' with
    | [x], _ => exact List.Perm.refl _

theorem pq_push_top (c : List Item) (x : Item) (h : ∀ it ∈ c, it.f > x.f) :
    pq_top (pq_push c x) = x := by
  have key : ∀ (fuel : Nat) (l : List Item) (hole : Nat), hole < fuel →
      (∀ k, k < hole → (l.getD k default).f > x.f) →
      (heapSiftUp x 0 fuel l hole).2 = 0 := by
    intro fuel
    induction fuel with
    | zero => intro l hole hf _; omega
    | succ fuel ih =>
      intro l hole hf hall
      unfold heapSiftUp
      dsimp only
      by_cases h0 : hole = 0
      · rw [if_neg (by omega), h0]
      · rw [if_pos ⟨by omega, hall _ (by omega)⟩]
        apply ih _ _ (by omega)
        intro k hk
        rw [getD_set_item, if_neg (fun hh => by omega)]
        exact hall k (by omega)
  unfold pq_top pq_push std_push_heap
  dsimp only
  have hz := key (c.length + 1) (c ++ [x]) c.length (by omega) (by
    intro k hk
    rw [List.getD_append _ _ _ _ hk, List.getD_eq_getElem _ _ hk]
    exact h _ (List.getElem_mem _))
  rw [hz, getD_set_item]
  have hl := (heapSiftUp_spec x 0 (c.length + 1) (c ++ [x]) c.length
    (by rw [List.length_append, List.length_singleton]; omega)).1
  rw [if_pos ⟨rfl, by rw [hl, List.length_append, List.length_singleton]; omega⟩]

/-! ## The Huffman tree -/

theorem dfs_eq_apply (tn : List T) (trees : List HTree) (hF : Forest tn trees) (fuel : Nat) :
    ∀ (k d : Nat) (cl : List Nat), k < tn.length → k < fuel →
      Huffman.dfs tn fuel (k : Int) d cl = (trees.getD k (.leaf 0)).apply d cl := by
  induction fuel with
  | zero => intro k d cl _ hf; omega
  | succ fuel ih =>
    intro k d cl hk hf
    unfold Huffman.dfs
    dsimp only
    rw [Int.toNat_ofNat]
    rcases hF.2 k hk with ⟨s, h1, h2⟩ | ⟨h1, l, r, hl, hr, h3, h4, h5⟩
    · rw [if_pos (by rw [h1]; omega), h1, h2, Int.toNat_ofNat]
      rfl
    · rw [if_neg (by rw [h1]; decide), h3, h4, h5, HTree.apply,
        ih l (d + 1) cl (by omega) (by omega), ih r (d + 1) _ (by omega) (by omega)]

theorem forest_snoc_leaf (tn : List T) (trees : List HTree) (hF : Forest tn trees) (f s : Nat) :
    Forest (tn ++ [({ f := f, id := tn.length, l := -1, r := -1, sym := (s : Int) } : T)])
      (trees ++ [.leaf s]) := by
  obtain ⟨h1, h2⟩ := hF
  refine ⟨by rw [List.length_append, List.length_append, h1]; rfl, fun k hk => ?_⟩
  rw [List.length_append, List.length_singleton] at hk
  by_cases hkl : k < tn.length
  · rw [List.getD_append _ _ _ _ hkl, List.getD_append _ _ _ _ (by omega)]
    rcases h2 k hkl with h | ⟨a1, l, r, hl, hr, a2, a3, a4⟩
    · exact Or.inl h
    · refine Or.inr ⟨a1, l, r, hl, hr, a2, a3, ?_⟩
      rw [List.getD_append _ _ _ _ (by omega), List.getD_append _ _ _ _ (by omega)]
      exact a4
  · have hke : k = tn.length := by omega
    left
    refine ⟨s, ?_, ?_⟩
    · rw [List.getD_append_right _ _ _ _ (by omega), hke, Nat.sub_self]
      rfl
    · rw [List.getD_append_right _ _ _ _ (by omega), hke, h1, Nat.sub_self]
      rfl

theorem forest_snoc_node (tn : List T) (trees : List HTree) (hF : Forest tn trees)
    (f a b : Nat) (ha : a < tn.length) (hb : b < tn.length) :
    Forest (tn ++ [({ f := f, id := tn.length, l := (a : Int), r := (b : Int), sym := -1 } : T)])
      (trees ++ [.node (trees.getD a (.leaf 0)) (trees.getD b (.leaf 0))]) := by
  obtain ⟨h1, h2⟩ := hF
  refine ⟨by rw [List.length_append, List.length_append, h1]; rfl, fun k hk => ?_⟩
  rw [List.length_append, List.length_singleton] at hk
  by_cases hkl : k < tn.length
  · rw [List.getD_append _ _ _ _ hkl, List.getD_append _ _ _ _ (by omega)]
    rcases h2 k hkl with h | ⟨a1, l, r, hl, hr, a2, a3, a4⟩
    · exact Or.inl h
    · refine Or.inr ⟨a1, l, r, hl, hr, a2, a3, ?_⟩
      rw [List.getD_append _ _ _ _ (by omega), List.getD_append _ _ _ _ (by omega)]
      exact a4
  · have hke : k = tn.length := by omega
    right
    refine ⟨?_, a, b, by omega, by omega, ?_, ?_, ?_⟩
    · rw [List.getD_append_right _ _ _ _ (by omega), hke, Nat.sub_self]
      rfl
    · rw [List.getD_append_right _ _ _ _ (by omega), hke, Nat.sub_self]
      rfl
    · rw [List.getD_append_right _ _ _ _ (by omega), hke, Nat.sub_self]
      rfl
    · rw [List.getD_append_right _ _ _ _ (by omega), hke, h1, Nat.sub_self,
        List.getD_append _ _ _ _ (by omega), List.getD_append _ _ _ _ (by omega)]
      rfl

theorem flatMap_leaves_snoc (trees : List HTree) (t : HTree) (pq : List Item)
    (h : ∀ it ∈ pq, it.id < trees.length) :
    pq.flatMap (fun it => ((trees ++ [t]).getD it.id (.leaf 0)).leaves)
      = pq.flatMap (fun it => (trees.getD it.id (.leaf 0)).leaves) := by
  induction pq with
  | nil => rfl
  | cons x rest ih =>
    rw [List.flatMap_cons, List.flatMap_cons,
      ih (fun it hit => h it (List.mem_cons_of_mem _ hit)),
      List.getD_append _ _ _ _ (h x (List.mem_cons_self _ _))]

theorem queueInv_push_leaf (tn : List T) (pq : List Item) (L : List Nat)
    (h : QueueInv tn pq L) (f s : Nat) :
    QueueInv (tn ++ [({ f := f, id := tn.length, l := -1, r := -1, sym := (s : Int) } : T)])
      (pq_push pq { f := f, id := tn.length }) (L ++ [s]) := by
  obtain ⟨trees, hF, hid, hperm⟩ := h
  have hp := pq_push_perm pq { f := f, id := tn.length }
  refine ⟨trees ++ [.leaf s], forest_snoc_leaf tn trees hF f s, fun it hit => ?_, ?_⟩
  · rw [List.length_append, List.length_singleton]
    rcases List.mem_cons.mp (hp.subset hit) with h1 | h1
    · rw [h1]; exact Nat.lt_succ_self _
    · exact Nat.lt_succ_of_lt (hid it h1)
  · refine (hp.flatMap_right _).trans ?_
    rw [List.flatMap_cons, flatMap_leaves_snoc trees _ pq (by rw [hF.1]; exact hid)]
    dsimp only
    rw [List.getD_append_right _ _ _ _ (by rw [hF.1]), hF.1, Nat.sub_self]
    exact ((List.perm_append_comm).trans (hperm.append_right _))

theorem init_queueInv (freq : List Nat) (syms : List Nat) :
    QueueInv
        (syms.foldl
          (fun (st : List T × List Item) s =>
            (st.1 ++ [({ f := freq.getD s 0, id := st.1.length, l := -1, r := -1,
                         sym := (s : Int) } : T)],
              pq_push st.2 { f := freq.getD s 0, id := st.1.length }))
          (([] : List T), ([] : List Item))).1
        (syms.foldl
          (fun (st : List T × List Item) s =>
            (st.1 ++ [({ f := freq.getD s 0, id := st.1.length, l := -1, r := -1,
                         sym := (s : Int) } : T)],
              pq_push st.2 { f := freq.getD s 0, id := st.1.length }))
          (([] : List T), ([] : List Item))).2 syms
      ∧ (syms.foldl
          (fun (st : List T × List Item) s =>
            (st.1 ++ [({ f := freq.getD s 0, id := st.1.length, l := -1, r := -1,
                         sym := (s : Int) } : T)],
              pq_push st.2 { f := freq.getD s 0, id := st.1.length }))
          (([] : List T), ([] : List Item))).2.length = syms.length := by
  induction syms using List.reverseRecOn with
  | nil =>
    refine ⟨⟨[], ⟨rfl, fun k hk => absurd hk (Nat.not_lt_zero _)⟩,
      fun it hit => absurd hit (List.not_mem_nil it), List.Perm.refl _⟩, rfl⟩
  | append_singleton l s ih =>
    rw [List.foldl_append, List.foldl_cons, List.foldl_nil]
    obtain ⟨h1, h2⟩ := ih
    generalize l.foldl
          (fun (st : List T × List Item) s =>
            (st.1 ++ [({ f := freq.getD s 0, id := st.1.length, l := -1, r := -1,
                         sym := (s : Int) } : T)],
              pq_push st.2 { f := freq.getD s 0, id := st.1.length }))
          (([] : List T), ([] : List Item)) = st at h1 h2 ⊢
    refine ⟨queueInv_push_leaf st.1 st.2 l h1 (freq.getD s 0) s, ?_⟩
    dsimp only
    rw [(pq_push_perm st.2 _).length_eq, List.length_cons, h2, List.length_append,
      List.length_singleton]

theorem queueInv_merge (tn : List T) (pq : List Item) (L : List Nat) (a b : Item)
    (pq2 : List Item) (h : QueueInv tn pq L) (hp : (a :: b :: pq2).Perm pq) :
    QueueInv (tn ++ [(⟨(a.f + b.f) % 2 ^ 64, tn.length, (a.id : Int), (b.id : Int), -1⟩ : T)])
      (pq_push pq2 ⟨(a.f + b.f) % 2 ^ 64, tn.length⟩) L := by
  obtain ⟨trees, hF, hid, hperm⟩ := h
  have ha : a.id < tn.length := hid _ (hp.subset (List.mem_cons_self _ _))
  have hb : b.id < tn.length :=
    hid _ (hp.subset (List.mem_cons_of_mem _ (List.mem_cons_self _ _)))
  have hid2 : ∀ it ∈ pq2, it.id < tn.length := fun it hit =>
    hid _ (hp.subset (List.mem_cons_of_mem _ (List.mem_cons_of_mem _ hit)))
  have p3 := pq_push_perm pq2 ⟨(a.f + b.f) % 2 ^ 64, tn.length⟩
  refine ⟨trees ++ [.node (trees.getD a.id (.leaf 0)) (trees.getD b.id (.leaf 0))],
    forest_snoc_node tn trees hF _ _ _ ha hb, fun it hit => ?_, ?_⟩
  · rw [List.length_append, List.length_singleton]
    rcases List.mem_cons.mp (p3.subset hit) with h | h
    · rw [h]; exact Nat.lt_succ_self _
    · exact Nat.lt_succ_of_lt (hid2 it h)
  · refine (p3.flatMap_right _).trans ?_
    rw [List.flatMap_cons, flatMap_leaves_snoc trees _ _ (by rw [hF.1]; exact hid2)]
    dsimp only
    rw [List.getD_append_right _ _ _ _ (by rw [hF.1]), hF.1, Nat.sub_self]
    have e2 := (hp.flatMap_right (fun it => (trees.getD it.id (.leaf 0)).leaves)).trans hperm
    rw [List.flatMap_cons, List.flatMap_cons, ← List.append_assoc] at e2
    exact e2

theorem mergeLoop_spec (L : List Nat) (fuel : Nat) :
    ∀ (tn : List T) (pq : List Item) (root : Int), QueueInv tn pq L → 1 ≤ pq.length →
      pq.length ≤ fuel + 1 → (2 ≤ pq.length ∨ root = ((pq_top pq).id : Int)) →
      ∃ (trees : List HTree) (k : Nat), Forest (Huffman.mergeLoop fuel tn pq root).1 trees
        ∧ (Huffman.mergeLoop fuel tn pq root).2.2 = (k : Int)
        ∧ k < (Huffman.mergeLoop fuel tn pq root).1.length
        ∧ ((trees.getD k (.leaf 0)).leaves).Perm L := by
  have hexit : ∀ (tn : List T) (pq : List Item) (root : Int), QueueInv tn pq L →
      pq.length = 1 → root = ((pq_top pq).id : Int) →
      ∃ (trees : List HTree) (k : Nat), Forest tn trees ∧ root = (k : Int) ∧ k < tn.length
        ∧ ((trees.getD k (.leaf 0)).leaves).Perm L := by
    intro tn pq root hq h1 hr
    obtain ⟨trees, hF, hid, hperm⟩ := hq
    match pq, h1 with
    | [x], _ =>
      refine ⟨trees, x.id, hF, hr, hid x (List.mem_singleton_self x), ?_⟩
      rw [List.flatMap_cons, List.flatMap_nil, List.append_nil] at hperm
      exact hperm
  induction fuel with
  | zero =>
    intro tn pq root hq h1 hf hr
    unfold Huffman.mergeLoop
    exact hexit tn pq root hq (by omega) (by rcases hr with h | h; omega; exact h)
  | succ fuel ih =>
    intro tn pq root hq h1 hf hr
    unfold Huffman.mergeLoop
    by_cases h2 : pq.length ≥ 2
    · rw [if_pos h2]
      dsimp only
      have hne : pq ≠ [] := by intro h; rw [h] at h2; simp at h2
      have p1 := pq_pop_perm pq hne
      have hl1 : (pq_pop pq).length + 1 = pq.length := by
        rw [← p1.length_eq, List.length_cons]
      have hne1 : pq_pop pq ≠ [] := by intro h; rw [h] at hl1; simp at hl1; omega
      have p2 := pq_pop_perm (pq_pop pq) hne1
      have hl2 : (pq_pop (pq_pop pq)).length + 1 = (pq_pop pq).length := by
        rw [← p2.length_eq, List.length_cons]
      have hgetf : ∀ x : T, (tn ++ [x]).getD tn.length default = x := by
        intro x
        rw [List.getD_append_right _ _ _ _ (le_refl _), Nat.sub_self]
        rfl
      rw [hgetf]
      dsimp only
      have p3 := pq_push_perm (pq_pop (pq_pop pq))
        ⟨((pq_top pq).f + (pq_top (pq_pop pq)).f) % 2 ^ 64, tn.length⟩
      have hq3 := queueInv_merge tn pq L (pq_top pq) (pq_top (pq_pop pq)) (pq_pop (pq_pop pq)) hq
        ((List.Perm.cons _ p2).trans p1)
      have hlen3 := p3.length_eq
      rw [List.length_cons] at hlen3
      apply ih _ _ _ hq3 (by omega) (by omega)
      by_cases h3 : 2 ≤ (pq_push (pq_pop (pq_pop pq))
          ⟨((pq_top pq).f + (pq_top (pq_pop pq)).f) % 2 ^ 64, tn.length⟩).length
      · exact Or.inl h3
      · right
        have hnil : pq_pop (pq_pop pq) = [] := List.length_eq_zero.mp (by omega)
        rw [hnil] at p3 ⊢
        rw [List.perm_singleton.mp p3]
        rfl
    · rw [if_neg h2]
      exact hexit tn pq root hq (by omega) (by rcases hr with h | h; omega; exact h)

theorem buildFromFreq_codeLen_general (freq : List Nat) (h2 : 2 ≤ (nonzeroSyms freq).length) :
    (Huffman.buildFromFreq freq).codeLen
      = Huffman.dfs (huffMerged freq).1 ((huffMerged freq).1.length + 1)
          (if (huffMerged freq).2.2 = -1 then ((pq_top (huffMerged freq).2.1).id : Int)
            else (huffMerged freq).2.2)
          0 (List.replicate freq.length 0) := by
  have hs1 : ¬ ((List.range freq.length).filter (fun i => freq.getD i 0 > 0) = []) := by
    intro h
    unfold nonzeroSyms at h2
    rw [h] at h2
    exact absurd h2 (by decide)
  have hs2 : ¬ (((List.range freq.length).filter (fun i => freq.getD i 0 > 0)).length = 1) := by
    unfold nonzeroSyms at h2
    omega
  unfold Huffman.buildFromFreq
  dsimp only
  rw [if_neg hs1, if_neg hs2, buildDecTree_codeLen]
  rfl

theorem huffInit_spec (freq : List Nat) :
    QueueInv (huffInit freq).1 (huffInit freq).2 (nonzeroSyms freq)
      ∧ (huffInit freq).2.length = (nonzeroSyms freq).length :=
  init_queueInv freq (nonzeroSyms freq)

theorem huffMerged_spec (freq : List Nat) (h2 : 2 ≤ (nonzeroSyms freq).length) :
    ∃ (trees : List HTree) (k : Nat), Forest (huffMerged freq).1 trees
      ∧ (huffMerged freq).2.2 = (k : Int) ∧ k < (huffMerged freq).1.length
      ∧ ((trees.getD k (.leaf 0)).leaves).Perm (nonzeroSyms freq) := by
  obtain ⟨hq, hl⟩ := huffInit_spec freq
  exact mergeLoop_spec _ (huffInit freq).2.length (huffInit freq).1 (huffInit freq).2 (-1) hq
    (by omega) (by omega) (Or.inl (by omega))

theorem buildFromFreq_tree (freq : List Nat) (h2 : 2 ≤ (nonzeroSyms freq).length) :
    ∃ (trees : List HTree) (k : Nat), Forest (huffMerged freq).1 trees
      ∧ (huffMerged freq).2.2 = (k : Int)
      ∧ ((trees.getD k (.leaf 0)).leaves).Perm (nonzeroSyms freq)
      ∧ (Huffman.buildFromFreq freq).codeLen
          = (trees.getD k (.leaf 0)).apply 0 (List.replicate freq.length 0) := by
  obtain ⟨trees, k, hF, hk1, hk2, hperm⟩ := huffMerged_spec freq h2
  refine ⟨trees, k, hF, hk1, hperm, ?_⟩
  rw [buildFromFreq_codeLen_general freq h2, if_neg (by rw [hk1]; omega), hk1,
    dfs_eq_apply (huffMerged freq).1 trees hF _ k 0 _ hk2 (by omega)]

theorem leavesD_fst (t : HTree) : ∀ d, (t.leavesD d).map Prod.fst = t.leaves := by
  induction t with
  | leaf s => intro d; rfl
  | node a b iha ihb =>
    intro d
    rw [HTree.leavesD, HTree.leaves, List.map_append, iha, ihb]

theorem leaves_length_pos (t : HTree) : 1 ≤ t.leaves.length := by
  induction t with
  | leaf s => exact le_refl _
  | node a b iha _ =>
    rw [HTree.leaves, List.length_append]
    omega

theorem leavesD_depth (t : HTree) :
    ∀ d, ∀ p ∈ t.leavesD d, d ≤ p.2 ∧ p.2 + 1 ≤ d + t.leaves.length := by
  induction t with
  | leaf s =>
    intro d p hp
    rw [HTree.leavesD, List.mem_singleton] at hp
    rw [hp]
    exact ⟨le_refl _, le_refl _⟩
  | node a b iha ihb =>
    intro d p hp
    rw [HTree.leavesD, List.mem_append] at hp
    rw [HTree.leaves, List.length_append]
    have ha := leaves_length_pos a
    have hb := leaves_length_pos b
    rcases hp with hp | hp
    · have := iha (d + 1) p hp
      omega
    · have := ihb (d + 1) p hp
      omega

theorem leavesD_node_depth (a b : HTree) (d : Nat) :
    ∀ p ∈ (HTree.node a b).leavesD d, d + 1 ≤ p.2 := by
  intro p hp
  rw [HTree.leavesD, List.mem_append] at hp
  rcases hp with hp | hp
  · exact (leavesD_depth a (d + 1) p hp).1
  · exact (leavesD_depth b (d + 1) p hp).1

theorem apply_spec (t : HTree) :
    ∀ (d : Nat) (cl : List Nat), t.leaves.Nodup → (∀ s ∈ t.leaves, s < cl.length) →
      (t.apply d cl).length = cl.length
        ∧ (∀ p ∈ t.leavesD d, (t.apply d cl).getD p.1 0 = (if p.2 = 0 then 1 else p.2) % 256)
        ∧ (∀ s, s ∉ t.leaves → (t.apply d cl).getD s 0 = cl.getD s 0) := by
  induction t with
  | leaf s =>
    intro d cl _ hlt
    have hs := hlt s (List.mem_singleton_self s)
    refine ⟨by rw [HTree.apply, List.length_set], fun p hp => ?_, fun x hx => ?_⟩
    · rw [HTree.leavesD, List.mem_singleton] at hp
      rw [hp, HTree.apply, getD_set, if_pos ⟨rfl, hs⟩]
    · rw [HTree.leaves, List.mem_singleton] at hx
      rw [HTree.apply, getD_set, if_neg (fun hh => hx hh.1.symm)]
  | node a b iha ihb =>
    intro d cl hnd hlt
    rw [HTree.leaves] at hnd hlt
    have hnda := (List.nodup_append.mp hnd).1
    have hndb := (List.nodup_append.mp hnd).2.1
    have hdis := (List.nodup_append.mp hnd).2.2
    obtain ⟨a1, a2, a3⟩ := iha (d + 1) cl hnda
      (fun s hs => hlt s (List.mem_append_left _ hs))
    obtain ⟨b1, b2, b3⟩ := ihb (d + 1) (a.apply (d + 1) cl) hndb
      (fun s hs => by rw [a1]; exact hlt s (List.mem_append_right _ hs))
    refine ⟨by rw [HTree.apply, b1, a1], fun p hp => ?_, fun x hx => ?_⟩
    · rw [HTree.leavesD, List.mem_append] at hp
      rw [HTree.apply]
      rcases hp with hp | hp
      · have hpa : p.1 ∈ a.leaves := by
          rw [← leavesD_fst a (d + 1)]
          exact List.mem_map_of_mem _ hp
        rw [b3 p.1 (fun hpb => hdis hpa hpb), a2 p hp]
      · exact b2 p hp
    · rw [HTree.leaves, List.mem_append, not_or] at hx
      rw [HTree.apply, b3 x hx.2, a3 x hx.1]

theorem kraft_sum (t : HTree) :
    ∀ d, ((t.leavesD d).map (fun p => (1 / 2 : ℚ) ^ p.2)).sum = (1 / 2 : ℚ) ^ d := by
  induction t with
  | leaf s => intro d; simp [HTree.leavesD]
  | node a b iha ihb =>
    intro d
    rw [HTree.leavesD, List.map_append, List.sum_append, iha, ihb, pow_succ]
    ring

theorem shallow_leaf (t : HTree) :
    ∀ d, ∃ p ∈ t.leavesD d, d ≤ p.2 ∧ 2 ^ (p.2 - d) ≤ t.leaves.length := by
  induction t with
  | leaf s =>
    intro d
    exact ⟨(s, d), List.mem_singleton_self _, le_refl _, by simp [HTree.leaves]⟩
  | node a b iha ihb =>
    intro d
    by_cases hab : a.leaves.length ≤ b.leaves.length
    · obtain ⟨p, hp, h1, h2⟩ := iha (d + 1)
      refine ⟨p, ?_, by omega, ?_⟩
      · rw [HTree.leavesD]; exact List.mem_append_left _ hp
      · rw [HTree.leaves, List.length_append, show p.2 - d = (p.2 - (d + 1)) + 1 from by omega,
          pow_succ]
        omega
    · obtain ⟨p, hp, h1, h2⟩ := ihb (d + 1)
      refine ⟨p, ?_, by omega, ?_⟩
      · rw [HTree.leavesD]; exact List.mem_append_right _ hp
      · rw [HTree.leaves, List.length_append, show p.2 - d = (p.2 - (d + 1)) + 1 from by omega,
          pow_succ]
        omega

theorem nonzeroSyms_mem (freq : List Nat) (s : Nat) :
    s ∈ nonzeroSyms freq ↔ s < freq.length ∧ freq.getD s 0 > 0 := by
  unfold nonzeroSyms
  rw [List.mem_filter, List.mem_range, decide_eq_true_eq]

theorem nonzeroSyms_nodup (freq : List Nat) : (nonzeroSyms freq).Nodup :=
  (List.nodup_range freq.length).filter _

theorem nonzeroSyms_length_le (freq : List Nat) : (nonzeroSyms freq).length ≤ freq.length := by
  unfold nonzeroSyms
  have := List.length_filter_le (fun i => decide (freq.getD i 0 > 0)) (List.range freq.length)
  rw [List.length_range] at this
  exact this

theorem freq_zero_of_not_mem (freq : List Nat) (s : Nat) (h : s ∉ nonzeroSyms freq) :
    freq.getD s 0 = 0 := by
  rw [nonzeroSyms_mem] at h
  by_cases hs : s < freq.length
  · have : ¬ freq.getD s 0 > 0 := fun hh => h ⟨hs, hh⟩
    omega
  · exact List.getD_eq_default _ _ (by omega)

/-- The code lengths of the general case of `buildFromFreq`: the depths modulo
256 of the leaves of a tree whose leaves are the symbols of non-zero frequency. -/
theorem buildFromFreq_depths (freq : List Nat) (h2 : 2 ≤ (nonzeroSyms freq).length) :
    ∃ a b : HTree, ((HTree.node a b).leaves).Perm (nonzeroSyms freq)
      ∧ (∀ p ∈ (HTree.node a b).leavesD 0,
          (Huffman.buildFromFreq freq).codeLen.getD p.1 0 = p.2 % 256)
      ∧ (∀ s, s ∉ nonzeroSyms freq → (Huffman.buildFromFreq freq).codeLen.getD s 0 = 0) := by
  obtain ⟨trees, k, _, _, hperm, hcl⟩ := buildFromFreq_tree freq h2
  generalize trees.getD k (.leaf 0) = t at hperm hcl
  have hnd : t.leaves.Nodup := hperm.nodup_iff.mpr (nonzeroSyms_nodup freq)
  have hlt : ∀ s ∈ t.leaves, s < (List.replicate freq.length 0).length := by
    intro s hs
    rw [List.length_replicate]
    exact ((nonzeroSyms_mem freq s).mp (hperm.subset hs)).1
  obtain ⟨_, a2, a3⟩ := apply_spec t 0 (List.replicate freq.length 0) hnd hlt
  cases t with
  | leaf s =>
    have := hperm.length_eq
    rw [HTree.leaves, List.length_singleton] at this
    omega
  | node a b =>
    refine ⟨a, b, hperm, fun p hp => ?_, fun s hs => ?_⟩
    · rw [hcl, a2 p hp, if_neg]
      have := leavesD_node_depth a b 0 p hp
      omega
    · rw [hcl, a3 s (fun hh => hs (hperm.subset hh))]
      exact getD_zero_of_all_zero _ (fun x hx => List.eq_of_mem_replicate hx) s

/-- C17, amended: for every frequency vector (of fewer than `2^31` symbols) with
at most 256 non-zero entries: if at least two entries are non-zero, the code
lengths of `buildFromFreq` are non-zero exactly on the symbols of non-zero
frequency and the sum of `2^(-codeLen[s])` over these symbols is 1; if exactly
one entry is non-zero, its symbol has length 1 and every other length is 0. -/
theorem kraft_equality (freq : List Nat) (_hlen : freq.length < 2 ^ 31)
    (h256 : (nonzeroSyms freq).length ≤ 256) :
    (2 ≤ (nonzeroSyms freq).length →
        (∀ s, (Huffman.buildFromFreq freq).codeLen.getD s 0 ≠ 0 ↔ freq.getD s 0 ≠ 0)
          ∧ ((nonzeroSyms freq).map
              (fun s => (1 / 2 : ℚ) ^ (Huffman.buildFromFreq freq).codeLen.getD s 0)).sum = 1)
      ∧ (∀ s0, nonzeroSyms freq = [s0] →
          (Huffman.buildFromFreq freq).codeLen = (List.replicate freq.length 0).set s0 1) := by
  constructor
  · intro h2
    obtain ⟨a, b, hperm, hd, hz⟩ := buildFromFreq_depths freq h2
    have hsmall : ∀ p ∈ (HTree.node a b).leavesD 0, 1 ≤ p.2 ∧ p.2 % 256 = p.2 := by
      intro p hp
      have h1 := leavesD_node_depth a b 0 p hp
      have h3 := (leavesD_depth (HTree.node a b) 0 p hp).2
      rw [hperm.length_eq] at h3
      exact ⟨h1, Nat.mod_eq_of_lt (by omega)⟩
    constructor
    · intro s
      by_cases hs : s ∈ nonzeroSyms freq
      · have hf := ((nonzeroSyms_mem freq s).mp hs).2
        have hs2 : s ∈ (HTree.node a b).leaves := hperm.symm.subset hs
        rw [← leavesD_fst (HTree.node a b) 0, List.mem_map] at hs2
        obtain ⟨p, hp, hps⟩ := hs2
        have := hd p hp
        rw [hps, (hsmall p hp).2] at this
        have h1 := (hsmall p hp).1
        constructor
        · intro _; omega
        · intro _; omega
      · rw [hz s hs, freq_zero_of_not_mem freq s hs]
    · have e1 : ((nonzeroSyms freq).map
          (fun s => (1 / 2 : ℚ) ^ (Huffman.buildFromFreq freq).codeLen.getD s 0)).sum
          = (((HTree.node a b).leaves).map
          (fun s => (1 / 2 : ℚ) ^ (Huffman.buildFromFreq freq).codeLen.getD s 0)).sum :=
        ((hperm.map _).sum_eq).symm
      have hk := kraft_sum (HTree.node a b) 0
      rw [pow_zero] at hk
      rw [e1, ← leavesD_fst (HTree.node a b) 0, List.map_map]
      refine Eq.trans ?_ hk
      congr 1
      apply List.map_congr_left
      intro p hp
      show (1 / 2 : ℚ) ^ (Huffman.buildFromFreq freq).codeLen.getD p.1 0 = (1 / 2 : ℚ) ^ p.2
      rw [hd p hp, (hsmall p hp).2]
  · intro s0 hs
    unfold nonzeroSyms at hs
    unfold Huffman.buildFromFreq
    dsimp only
    rw [hs, if_neg (List.cons_ne_nil _ _), if_pos (show [s0].length = 1 from rfl),
      buildDecTree_codeLen]
    rfl

/-- Witness for the amended C17: the frequencies 1, 1, 2 give the code lengths
2, 2, 1. -/
theorem kraft_equality_witness :
    ([1, 1, 2] : List Nat).length < 2 ^ 31 ∧ (nonzeroSyms [1, 1, 2]).length ≤ 256
      ∧ (2 ≤ (nonzeroSyms [1, 1, 2]).length →
          (∀ s, (Huffman.buildFromFreq [1, 1, 2]).codeLen.getD s 0 ≠ 0
              ↔ ([1, 1, 2] : List Nat).getD s 0 ≠ 0)
            ∧ ((nonzeroSyms [1, 1, 2]).map
                (fun s => (1 / 2 : ℚ) ^ (Huffman.buildFromFreq [1, 1, 2]).codeLen.getD s 0)).sum
              = 1)
      ∧ (∀ s0, nonzeroSyms [1, 1, 2] = [s0] →
          (Huffman.buildFromFreq [1, 1, 2]).codeLen
            = (List.replicate ([1, 1, 2] : List Nat).length 0).set s0 1) :=
  ⟨by decide, by decide, kraft_equality [1, 1, 2] (by decide) (by decide)⟩

/-! ## A tree of depth 256 -/

theorem pq_push_ge (c : List Item) (x : Item) (h : ∀ it ∈ c, ¬ it.f > x.f) :
    pq_push c x = c ++ [x] := by
  unfold pq_push std_push_heap
  dsimp only
  unfold heapSiftUp
  dsimp only
  have hno : ¬ (c.length > 0 ∧ ((c ++ [x]).getD ((c.length - 1) / 2) default).f > x.f) := by
    intro hh
    have hp : (c.length - 1) / 2 < c.length := by omega
    rw [List.getD_append _ _ _ _ hp, List.getD_eq_getElem _ _ hp] at hh
    exact h _ (List.getElem_mem _) hh.2
  rw [if_neg hno]
  dsimp only
  have := set_getD_self (c ++ [x]) c.length
  rw [List.getD_append_right _ _ _ _ (le_refl _), Nat.sub_self] at this
  exact this

theorem forest_unique (tn : List T) (t1 t2 : List HTree) (h1 : Forest tn t1)
    (h2 : Forest tn t2) : ∀ k, k < tn.length → t1.getD k (.leaf 0) = t2.getD k (.leaf 0) := by
  intro k
  induction k using Nat.strong_induction_on with
  | _ k ih =>
    intro hk
    rcases h1.2 k hk with ⟨s, a1, a2⟩ | ⟨a1, l, r, hl, hr, a3, a4, a5⟩
    · rcases h2.2 k hk with ⟨s2, b1, b2⟩ | ⟨b1, _⟩
      · rw [a2, b2]
        rw [a1] at b1
        have : s = s2 := by omega
        rw [this]
      · rw [a1] at b1
        omega
    · rcases h2.2 k hk with ⟨s2, b1, _⟩ | ⟨_, l2, r2, _, _, b3, b4, b5⟩
      · rw [a1] at b1
        omega
      · rw [a3] at b3
        rw [a4] at b4
        have e1 : l = l2 := by omega
        have e2 : r = r2 := by omega
        rw [a5, b5, ← e1, ← e2, ih l hl (by omega), ih r hr (by omega)]

theorem leavesD_shift (t : HTree) :
    ∀ d (p : Nat × Nat), p ∈ t.leavesD d → (p.1, p.2 + 1) ∈ t.leavesD (d + 1) := by
  induction t with
  | leaf s =>
    intro d p hp
    rw [HTree.leavesD, List.mem_singleton] at hp
    rw [hp]
    exact List.mem_singleton_self _
  | node a b iha ihb =>
    intro d p hp
    rw [HTree.leavesD, List.mem_append] at hp
    rw [HTree.leavesD, List.mem_append]
    rcases hp with hp | hp
    · exact Or.inl (iha _ p hp)
    · exact Or.inr (ihb _ p hp)

theorem top_cons_tail (pq : List Item) (h : pq ≠ []) : pq = pq_top pq :: pq.tail := by
  cases pq with
  | nil => exact absurd rfl h
  | cons x rest => rfl

theorem chain_push_leaf (freq : List Nat) (tn : List T) (pq : List Item) (trees : List HTree)
    (h : ChainInv tn pq trees 0) (s : Nat) (hs : freq.getD s 0 = 2 ^ 64 - 1) :
    ChainInv (tn ++ [(⟨freq.getD s 0, tn.length, -1, -1, (s : Int)⟩ : T)])
      (pq_push pq ⟨freq.getD s 0, tn.length⟩) (trees ++ [.leaf s]) 0 := by
  obtain ⟨hF, hne, hf, htail, hid, hmem⟩ := h
  have hcons := top_cons_tail pq hne
  have hle : ∀ it ∈ pq, ¬ it.f > (⟨freq.getD s 0, tn.length⟩ : Item).f := by
    intro it hit
    rw [hcons] at hit
    show ¬ it.f > freq.getD s 0
    rw [hs]
    rcases List.mem_cons.mp hit with h1 | h1
    · rw [h1]; omega
    · rw [htail it h1]; omega
  rw [pq_push_ge pq _ hle]
  have htop : pq_top (pq ++ [(⟨freq.getD s 0, tn.length⟩ : Item)]) = pq_top pq := by
    unfold pq_top
    exact List.getD_append _ _ _ _ (List.length_pos.mpr hne)
  refine ⟨forest_snoc_leaf tn trees hF _ s, by simp, ?_, ?_, ?_, ?_⟩
  · rw [htop]; exact hf
  · intro it hit
    rw [List.tail_append_of_ne_nil hne, List.mem_append, List.mem_singleton] at hit
    rcases hit with h1 | h1
    · exact htail it h1
    · rw [h1]; exact hs
  · intro it hit
    rw [List.length_append, List.length_singleton]
    rw [List.mem_append, List.mem_singleton] at hit
    rcases hit with h1 | h1
    · exact Nat.lt_succ_of_lt (hid it h1)
    · rw [h1]; exact Nat.lt_succ_self _
  · rw [htop, List.getD_append _ _ _ _ (by
      rw [hF.1]
      exact hid _ (by rw [hcons]; exact List.mem_cons_self _ _))]
    exact hmem

theorem chain_fold (freq : List Nat) (rest : List Nat)
    (hrest : ∀ s ∈ rest, freq.getD s 0 = 2 ^ 64 - 1) :
    ∀ st : List T × List Item, (∃ trees, ChainInv st.1 st.2 trees 0) →
      ∃ trees, ChainInv
        (rest.foldl
          (fun (st : List T × List Item) s =>
            (st.1 ++ [(⟨freq.getD s 0, st.1.length, -1, -1, (s : Int)⟩ : T)],
              pq_push st.2 ⟨freq.getD s 0, st.1.length⟩)) st).1
        (rest.foldl
          (fun (st : List T × List Item) s =>
            (st.1 ++ [(⟨freq.getD s 0, st.1.length, -1, -1, (s : Int)⟩ : T)],
              pq_push st.2 ⟨freq.getD s 0, st.1.length⟩)) st).2 trees 0 := by
  induction rest with
  | nil => intro st h; exact h
  | cons s more ih =>
    intro st h
    rw [List.foldl_cons]
    apply ih (fun x hx => hrest x (List.mem_cons_of_mem _ hx))
    obtain ⟨trees, hc⟩ := h
    exact ⟨_, chain_push_leaf freq st.1 st.2 trees hc s (hrest s (List.mem_cons_self _ _))⟩

theorem chain_init (freq : List Nat) (rest : List Nat) (h0 : freq.getD 0 0 = 300)
    (hrest : ∀ s ∈ rest, freq.getD s 0 = 2 ^ 64 - 1) :
    ∃ trees, ChainInv
      ((0 :: rest).foldl
        (fun (st : List T × List Item) s =>
          (st.1 ++ [(⟨freq.getD s 0, st.1.length, -1, -1, (s : Int)⟩ : T)],
            pq_push st.2 ⟨freq.getD s 0, st.1.length⟩))
        (([] : List T), ([] : List Item))).1
      ((0 :: rest).foldl
        (fun (st : List T × List Item) s =>
          (st.1 ++ [(⟨freq.getD s 0, st.1.length, -1, -1, (s : Int)⟩ : T)],
            pq_push st.2 ⟨freq.getD s 0, st.1.length⟩))
        (([] : List T), ([] : List Item))).2 trees 0 := by
  rw [List.foldl_cons]
  apply chain_fold freq rest hrest
  dsimp only
  rw [pq_push_ge [] _ (fun it hit => absurd hit (List.not_mem_nil it))]
  refine ⟨[.leaf 0], forest_snoc_leaf [] [] ⟨rfl, fun k hk => absurd hk (Nat.not_lt_zero _)⟩
    (freq.getD 0 0) 0, by simp, ?_, ?_, ?_, ?_⟩
  · show freq.getD 0 0 + 0 = 300
    rw [h0]
  · intro it hit
    exact absurd hit (List.not_mem_nil it)
  · intro it hit
    rw [List.nil_append, List.mem_singleton] at hit
    rw [hit]
    exact Nat.zero_lt_one
  · exact List.mem_singleton_self _

theorem chain_step (tn : List T) (pq : List Item) (trees : List HTree) (k : Nat)
    (h : ChainInv tn pq trees k) (h2 : 2 ≤ pq.length) (hk : k < 300) :
    ChainInv
      (tn ++ [(⟨((pq_top pq).f + (pq_top (pq_pop pq)).f) % 2 ^ 64, tn.length,
        ((pq_top pq).id : Int), ((pq_top (pq_pop pq)).id : Int), -1⟩ : T)])
      (pq_push (pq_pop (pq_pop pq))
        ⟨((pq_top pq).f + (pq_top (pq_pop pq)).f) % 2 ^ 64, tn.length⟩)
      (trees ++ [.node (trees.getD (pq_top pq).id (.leaf 0))
        (trees.getD (pq_top (pq_pop pq)).id (.leaf 0))]) (k + 1)
      ∧ (pq_push (pq_pop (pq_pop pq))
        ⟨((pq_top pq).f + (pq_top (pq_pop pq)).f) % 2 ^ 64, tn.length⟩).length + 1
          = pq.length := by
  obtain ⟨hF, hne, hf, htail, hid, hmem⟩ := h
  have hcons := top_cons_tail pq hne
  have p1 := pq_pop_perm pq hne
  have p1t : (pq_pop pq).Perm pq.tail :=
    List.Perm.cons_inv (p1.trans (List.Perm.of_eq hcons))
  have hl1 : (pq_pop pq).length + 1 = pq.length := by
    rw [← p1.length_eq, List.length_cons]
  have hne1 : pq_pop pq ≠ [] := by intro h; rw [h] at hl1; simp at hl1; omega
  have p2 := pq_pop_perm (pq_pop pq) hne1
  have hl2 : (pq_pop (pq_pop pq)).length + 1 = (pq_pop pq).length := by
    rw [← p2.length_eq, List.length_cons]
  have hM1 : ∀ it ∈ pq_pop pq, it.f = 2 ^ 64 - 1 := fun it hit => htail it (p1t.subset hit)
  have hbf : (pq_top (pq_pop pq)).f = 2 ^ 64 - 1 := hM1 _ (p2.subset (List.mem_cons_self _ _))
  have hM2 : ∀ it ∈ pq_pop (pq_pop pq), it.f = 2 ^ 64 - 1 := fun it hit =>
    hM1 it (p2.subset (List.mem_cons_of_mem _ hit))
  have ha : (pq_top pq).id < tn.length := hid _ (p1.subset (List.mem_cons_self _ _))
  have hb : (pq_top (pq_pop pq)).id < tn.length :=
    hid _ (p1.subset (List.mem_cons_of_mem _ (p2.subset (List.mem_cons_self _ _))))
  have hid2 : ∀ it ∈ pq_pop (pq_pop pq), it.id < tn.length := fun it hit =>
    hid _ (p1.subset (List.mem_cons_of_mem _ (p2.subset (List.mem_cons_of_mem _ hit))))
  have hnf : ((pq_top pq).f + (pq_top (pq_pop pq)).f) % 2 ^ 64 + (k + 1) = 300 := by
    rw [hbf]
    norm_num
    omega
  generalize ((pq_top pq).f + (pq_top (pq_pop pq)).f) % 2 ^ 64 = nf at hnf ⊢
  have p3 := pq_push_perm (pq_pop (pq_pop pq)) ⟨nf, tn.length⟩
  have htop : pq_top (pq_push (pq_pop (pq_pop pq)) ⟨nf, tn.length⟩) = ⟨nf, tn.length⟩ := by
    apply pq_push_top
    intro it hit
    rw [hM2 it hit]
    show 2 ^ 64 - 1 > nf
    norm_num
    omega
  have hne3 : pq_push (pq_pop (pq_pop pq)) ⟨nf, tn.length⟩ ≠ [] := by
    intro h
    rw [h] at p3
    exact List.cons_ne_nil _ _ (List.Perm.nil_eq p3).symm
  have hcons3 := top_cons_tail _ hne3
  rw [htop] at hcons3
  have p3t : (pq_push (pq_pop (pq_pop pq)) ⟨nf, tn.length⟩).tail.Perm (pq_pop (pq_pop pq)) :=
    List.Perm.cons_inv ((List.Perm.of_eq hcons3.symm).trans p3)
  refine ⟨⟨forest_snoc_node tn trees hF _ _ _ ha hb, hne3, ?_, ?_, ?_, ?_⟩, ?_⟩
  · rw [htop]; exact hnf
  · intro it hit
    exact hM2 it (p3t.subset hit)
  · intro it hit
    rw [List.length_append, List.length_singleton]
    rcases List.mem_cons.mp (p3.subset hit) with h | h
    · rw [h]; exact Nat.lt_succ_self _
    · exact Nat.lt_succ_of_lt (hid2 it h)
  · rw [htop]
    show (0, k + 1) ∈ ((trees ++ [HTree.node (trees.getD (pq_top pq).id (.leaf 0))
      (trees.getD (pq_top (pq_pop pq)).id (.leaf 0))]).getD tn.length (.leaf 0)).leavesD 0
    rw [List.getD_append_right _ _ _ _ (by rw [hF.1]), hF.1, Nat.sub_self]
    show (0, k + 1) ∈ (HTree.node (trees.getD (pq_top pq).id (.leaf 0))
      (trees.getD (pq_top (pq_pop pq)).id (.leaf 0))).leavesD 0
    rw [HTree.leavesD, List.mem_append]
    exact Or.inl (leavesD_shift _ 0 (0, k) hmem)
  · rw [p3.length_eq, List.length_cons]
    omega

theorem chain_loop (fuel : Nat) :
    ∀ (tn : List T) (pq : List Item) (root : Int) (trees : List HTree) (k : Nat),
      ChainInv tn pq trees k → k + pq.length ≤ 301 → pq.length ≤ fuel + 1 →
      (2 ≤ pq.length ∨ root = ((pq_top pq).id : Int)) →
      ∃ (trees2 : List HTree) (r : Nat), Forest (Huffman.mergeLoop fuel tn pq root).1 trees2
        ∧ (Huffman.mergeLoop fuel tn pq root).2.2 = (r : Int)
        ∧ r < (Huffman.mergeLoop fuel tn pq root).1.length
        ∧ (0, k + pq.length - 1) ∈ (trees2.getD r (.leaf 0)).leavesD 0 := by
  have hexit : ∀ (tn : List T) (pq : List Item) (root : Int) (trees : List HTree) (k : Nat),
      ChainInv tn pq trees k → pq.length ≤ 1 → (2 ≤ pq.length ∨ root = ((pq_top pq).id : Int)) →
      ∃ (trees2 : List HTree) (r : Nat), Forest tn trees2 ∧ root = (r : Int) ∧ r < tn.length
        ∧ (0, k + pq.length - 1) ∈ (trees2.getD r (.leaf 0)).leavesD 0 := by
    intro tn pq root trees k hc h1 hr
    obtain ⟨hF, hne, _, _, hid, hmem⟩ := hc
    have hlen : pq.length = 1 := by
      have := List.length_pos.mpr hne
      omega
    have hroot : root = ((pq_top pq).id : Int) := by
      rcases hr with h | h
      · omega
      · exact h
    refine ⟨trees, (pq_top pq).id, hF, hroot, ?_, ?_⟩
    · apply hid
      rw [top_cons_tail pq hne]
      exact List.mem_cons_self _ _
    · rw [hlen]
      exact hmem
  induction fuel with
  | zero =>
    intro tn pq root trees k hc _ hf hr
    unfold Huffman.mergeLoop
    exact hexit tn pq root trees k hc (by omega) hr
  | succ fuel ih =>
    intro tn pq root trees k hc hk hf hr
    unfold Huffman.mergeLoop
    by_cases h2 : pq.length ≥ 2
    · rw [if_pos h2]
      dsimp only
      have hgetf : ∀ x : T, (tn ++ [x]).getD tn.length default = x := by
        intro x
        rw [List.getD_append_right _ _ _ _ (le_refl _), Nat.sub_self]
        rfl
      rw [hgetf]
      dsimp only
      obtain ⟨hc3, hl3⟩ := chain_step tn pq trees k hc h2 (by omega)
      have hres := ih _ _ ((tn.length : Nat) : Int) _ (k + 1) hc3 (by omega) (by omega)
        (by
          by_cases h3 : 2 ≤ (pq_push (pq_pop (pq_pop pq))
              ⟨((pq_top pq).f + (pq_top (pq_pop pq)).f) % 2 ^ 64, tn.length⟩).length
          · exact Or.inl h3
          · right
            have hp3 := pq_push_perm (pq_pop (pq_pop pq))
              ⟨((pq_top pq).f + (pq_top (pq_pop pq)).f) % 2 ^ 64, tn.length⟩
            have hnil : pq_pop (pq_pop pq) = [] := by
              apply List.length_eq_zero.mp
              have := hp3.length_eq
              rw [List.length_cons] at this
              omega
            rw [hnil] at hp3 ⊢
            rw [List.perm_singleton.mp hp3]
            rfl)
      have e : k + 1 + (pq_push (pq_pop (pq_pop pq))
          ⟨((pq_top pq).f + (pq_top (pq_pop pq)).f) % 2 ^ 64, tn.length⟩).length - 1
          = k + pq.length - 1 := by omega
      rw [e] at hres
      exact hres
    · rw [if_neg h2]
      exact hexit tn pq root trees k hc (by omega) hr

theorem wrapFreq_syms : nonzeroSyms wrapFreq = 0 :: List.range' 1 256 := by
  decide!

theorem wrapFreq_rest : ∀ s ∈ List.range' 1 256, wrapFreq.getD s 0 = 2 ^ 64 - 1 := by
  decide!

/-- C17, counterexample: the vector `wrapFreq` has 257 non-zero frequencies, one
of them that of symbol 0, but `buildFromFreq` gives symbol 0 the code length 0:
the sums of frequencies wrap around in `uint64_t`, the tree is a chain with
symbol 0 at depth 256, and the depth is stored in a `uint8_t`. -/
theorem kraft_fails_at_depth_256 :
    2 ≤ (nonzeroSyms wrapFreq).length ∧ wrapFreq.getD 0 0 = 300
      ∧ (Huffman.buildFromFreq wrapFreq).codeLen.getD 0 0 = 0 := by
  have h2 : 2 ≤ (nonzeroSyms wrapFreq).length := by
    rw [wrapFreq_syms, List.length_cons, List.length_range']
    omega
  refine ⟨h2, rfl, ?_⟩
  obtain ⟨trees, k, hF, hk1, hperm, hcl⟩ := buildFromFreq_tree wrapFreq h2
  obtain ⟨trees0, hc0⟩ := chain_init wrapFreq (List.range' 1 256) rfl wrapFreq_rest
  have hinit : huffInit wrapFreq = (0 :: List.range' 1 256).foldl
      (fun (st : List T × List Item) s =>
        (st.1 ++ [(⟨wrapFreq.getD s 0, st.1.length, -1, -1, (s : Int)⟩ : T)],
          pq_push st.2 ⟨wrapFreq.getD s 0, st.1.length⟩))
      (([] : List T), ([] : List Item)) := by
    unfold huffInit
    rw [wrapFreq_syms]
  rw [← hinit] at hc0
  have hlen : (huffInit wrapFreq).2.length = 257 := by
    rw [(huffInit_spec wrapFreq).2, wrapFreq_syms, List.length_cons, List.length_range']
  obtain ⟨trees2, r, hF2, hr1, hr2, hmem⟩ := chain_loop (huffInit wrapFreq).2.length
    (huffInit wrapFreq).1 (huffInit wrapFreq).2 (-1) trees0 0 hc0 (by omega) (by omega)
    (Or.inl (by omega))
  have hm : Huffman.mergeLoop (huffInit wrapFreq).2.length (huffInit wrapFreq).1
      (huffInit wrapFreq).2 (-1) = huffMerged wrapFreq := by
    unfold huffMerged
    exact Eq.refl _
  rw [hm] at hF2 hr1 hr2
  have hF2b : Forest (huffMerged wrapFreq).1 trees2 := hF2
  have hr1b : (huffMerged wrapFreq).2.2 = (r : Int) := hr1
  have hr2b : r < (huffMerged wrapFreq).1.length := hr2
  have hkr : k = r := by
    rw [hk1] at hr1b
    omega
  rw [hlen] at hmem
  rw [← forest_unique _ trees trees2 hF hF2b r hr2b, ← hkr] at hmem
  generalize trees.getD k (.leaf 0) = t at hperm hcl hmem
  have hnd : t.leaves.Nodup := hperm.nodup_iff.mpr (nonzeroSyms_nodup wrapFreq)
  have hlt : ∀ s ∈ t.leaves, s < (List.replicate wrapFreq.length 0).length := by
    intro s hs
    rw [List.length_replicate]
    exact ((nonzeroSyms_mem wrapFreq s).mp (hperm.subset hs)).1
  obtain ⟨_, a2, _⟩ := apply_spec t 0 (List.replicate wrapFreq.length 0) hnd hlt
  rw [hcl]
  exact a2 (0, 0 + 257 - 1) hmem

/-! ## The decoder rebuilds the encoder's table -/

theorem foldl_getD_range (g : List Nat → Nat → List Nat) (l : List Nat) :
    ∀ (l2 : List Nat) (init : List Nat),
      (List.range l.length).foldl (fun acc i => g acc ((l ++ l2).getD i 0)) init
        = l.foldl g init := by
  induction l using List.reverseRecOn with
  | nil => intro l2 init; rfl
  | append_singleton l a ih =>
    intro l2 init
    rw [List.length_append, List.length_singleton, List.range_succ, List.foldl_append,
      List.foldl_append, List.append_assoc, ih ([a] ++ l2) init, List.foldl_cons, List.foldl_nil,
      List.foldl_cons, List.foldl_nil, List.getD_append_right _ _ _ _ (le_refl _), Nat.sub_self]
    rfl

theorem ext_getD (l1 l2 : List Nat) (hl : l1.length = l2.length)
    (h : ∀ i, i < l1.length → l1.getD i 0 = l2.getD i 0) : l1 = l2 := by
  apply List.ext_getElem hl
  intro i h1 h2
  have := h i h1
  rw [List.getD_eq_getElem _ _ h1, List.getD_eq_getElem _ _ h2] at this
  exact this

theorem buildFromCL_eq (cl : List Nat) (hmax : cl.foldl (fun m L => max m L) 0 ≠ 0) :
    buildFromCL cl
      = Huffman.buildDecTree
          ⟨cl, (Huffman.assignCodes cl.length cl (List.replicate cl.length 0)
                (List.replicate cl.length 0)).1,
            (Huffman.assignCodes cl.length cl (List.replicate cl.length 0)
                (List.replicate cl.length 0)).2, cl.length, []⟩ := by
  have hne : ¬ cl.length = 0 := by
    intro h
    rw [List.length_eq_zero.mp h] at hmax
    exact hmax rfl
  have hbl := foldl_getD_range
    (fun bl L => if L ≠ 0 then bl.set L (bl.getD L 0 + 1) else bl) cl []
    (List.replicate (cl.foldl (fun m L => max m L) 0 + 1) 0)
  rw [List.append_nil] at hbl
  unfold buildFromCL Huffman.assignCodes
  dsimp only
  rw [if_neg hne, if_neg hmax, if_neg hmax, ← hbl]

theorem assign_fold_zero (cl nc0 code0 rev0 : List Nat)
    (body : List Nat × List Nat × List Nat → Nat → List Nat × List Nat × List Nat)
    (hbody : ∀ st i, body st i =
      if cl.getD i 0 = 0 then st
      else (st.1.set (cl.getD i 0) ((st.1.getD (cl.getD i 0) 0 + 1) % 2 ^ 32),
        st.2.1.set i (st.1.getD (cl.getD i 0) 0),
        st.2.2.set i (Huffman.reverseBits (st.1.getD (cl.getD i 0) 0) (cl.getD i 0))))
    (k : Nat) :
    ((List.range k).foldl body (nc0, code0, rev0)).2.1.length = code0.length
      ∧ ((List.range k).foldl body (nc0, code0, rev0)).2.2.length = rev0.length
      ∧ ∀ i, cl.getD i 0 = 0 →
          ((List.range k).foldl body (nc0, code0, rev0)).2.1.getD i 0 = code0.getD i 0
          ∧ ((List.range k).foldl body (nc0, code0, rev0)).2.2.getD i 0 = rev0.getD i 0 := by
  induction k with
  | zero =>
    rw [List.range_zero, List.foldl_nil]
    exact ⟨rfl, rfl, fun i _ => ⟨rfl, rfl⟩⟩
  | succ k ih =>
    rw [List.range_succ, List.foldl_append, List.foldl_cons, List.foldl_nil]
    obtain ⟨h1, h2, h3⟩ := ih
    generalize (List.range k).foldl body (nc0, code0, rev0) = st at h1 h2 h3 ⊢
    rw [hbody]
    by_cases hz : cl.getD k 0 = 0
    · rw [if_pos hz]
      exact ⟨h1, h2, h3⟩
    · rw [if_neg hz]
      dsimp only
      refine ⟨by rw [List.length_set]; exact h1, by rw [List.length_set]; exact h2,
        fun i hi => ?_⟩
      have hik : ¬ k = i := by
        intro h
        rw [h] at hz
        exact hz hi
      rw [getD_set, getD_set, if_neg (fun hh => hik hh.1), if_neg (fun hh => hik hh.1)]
      exact h3 i hi

theorem assignCodes_zero (cl : List Nat) (n : Nat) :
    (Huffman.assignCodes n cl (List.replicate n 0) (List.replicate n 0)).1.length = n
      ∧ (Huffman.assignCodes n cl (List.replicate n 0) (List.replicate n 0)).2.length = n
      ∧ ∀ i, cl.getD i 0 = 0 →
          (Huffman.assignCodes n cl (List.replicate n 0) (List.replicate n 0)).1.getD i 0 = 0
          ∧ (Huffman.assignCodes n cl (List.replicate n 0) (List.replicate n 0)).2.getD i 0 = 0 := by
  obtain ⟨a1, a2, a3⟩ := assign_fold_zero cl
    ((List.range (cl.foldl (fun m L => max m L) 0)).foldl
        (fun (st : List Nat × Nat) j =>
          let bits := j + 1
          let c := ((st.2 + ((List.range n).foldl
            (fun bl i =>
              if cl.getD i 0 ≠ 0 then bl.set (cl.getD i 0) (bl.getD (cl.getD i 0) 0 + 1)
              else bl)
            (List.replicate (cl.foldl (fun m L => max m L) 0 + 1) 0)).getD (bits - 1) 0) <<< 1)
              % 2 ^ 32
          (st.1.set bits c, c))
        (List.replicate (cl.foldl (fun m L => max m L) 0 + 1) 0, 0)).1
    (List.replicate n 0) (List.replicate n 0)
    (fun (st : List Nat × List Nat × List Nat) i =>
      let len := cl.getD i 0
      if len = 0 then st
      else
        let cv := st.1.getD len 0
        (st.1.set len ((cv + 1) % 2 ^ 32), st.2.1.set i cv,
          st.2.2.set i (Huffman.reverseBits cv len)))
    (fun st i => rfl) n
  rw [List.length_replicate] at a1 a2
  refine ⟨a1, a2, fun i hi => ?_⟩
  have hz : (List.replicate n 0).getD i 0 = 0 :=
    getD_zero_of_all_zero _ (fun x hx => List.eq_of_mem_replicate hx) i
  obtain ⟨b1, b2⟩ := a3 i hi
  rw [hz] at b1 b2
  exact ⟨b1, b2⟩

theorem replicate_set_zero (n s : Nat) : (List.replicate n 0).set s 0 = List.replicate n 0 := by
  apply ext_getD
  · rw [List.length_set]
  · intro i _
    rw [getD_set]
    by_cases h : s = i ∧ s < (List.replicate n 0).length
    · rw [if_pos h]
      exact (getD_zero_of_all_zero _ (fun x hx => List.eq_of_mem_replicate hx) i).symm
    · rw [if_neg h]

/-- The table that the decoder builds from a code-length vector whose only
non-zero entry is a 1 at symbol `s`: codes and reversed codes are all 0. -/
theorem buildFromCL_single (n s : Nat) (hs : s < n) :
    buildFromCL ((List.replicate n 0).set s 1)
      = Huffman.buildDecTree
          ⟨(List.replicate n 0).set s 1, List.replicate n 0, List.replicate n 0, n, []⟩ := by
  have hlen : ((List.replicate n 0).set s 1).length = n := by
    rw [List.length_set, List.length_replicate]
  have hcl : ∀ i, ((List.replicate n 0).set s 1).getD i 0 = if s = i then 1 else 0 := by
    intro i
    rw [getD_set, List.length_replicate,
      getD_zero_of_all_zero _ (fun x hx => List.eq_of_mem_replicate hx) i]
    by_cases h : s = i
    · rw [if_pos ⟨h, hs⟩, if_pos h]
    · rw [if_neg (fun hh => h hh.1), if_neg h]
  have hmax : ((List.replicate n 0).set s 1).foldl (fun m L => max m L) 0 ≠ 0 := by
    have := getD_le_foldl_max ((List.replicate n 0).set s 1) s
    rw [hcl s, if_pos rfl] at this
    omega
  rw [buildFromCL_eq _ hmax, hlen]
  obtain ⟨z1, z2, z3⟩ := assignCodes_zero ((List.replicate n 0).set s 1) n
  have hrank : rankBelow ((List.replicate n 0).set s 1) 1 s = 0 := by
    have key : ∀ k, k ≤ s → rankBelow ((List.replicate n 0).set s 1) 1 k = 0 := by
      intro k
      induction k with
      | zero => intro _; rfl
      | succ k ih =>
        intro hk
        have hsk : ¬ s = k := by omega
        rw [rankBelow_succ, ih (by omega), hcl k, if_neg hsk,
          if_neg (show ¬ (0 : Nat) = 1 by decide)]
    exact key s (le_refl _)
  have hs1 := assignCodes_spec ((List.replicate n 0).set s 1) n hlen s hs
    (by rw [hcl s, if_pos rfl]; decide)
  have hn1 : nextCode ((List.replicate n 0).set s 1) 1 = 0 := by
    simp [nextCode]
  have hrb : Huffman.reverseBits 0 1 = 0 := by decide
  rw [hcl s, if_pos rfl, hrank, hn1, Nat.add_zero, Nat.zero_mod, hrb] at hs1
  have hcode : (Huffman.assignCodes n ((List.replicate n 0).set s 1) (List.replicate n 0)
      (List.replicate n 0)).1 = List.replicate n 0 := by
    apply ext_getD _ _ (by rw [z1, List.length_replicate])
    intro i _
    rw [getD_zero_of_all_zero (List.replicate n 0) (fun x hx => List.eq_of_mem_replicate hx) i]
    by_cases h : s = i
    · rw [← h, hs1.1]
    · exact (z3 i (by rw [hcl i, if_neg h])).1
  have hrev : (Huffman.assignCodes n ((List.replicate n 0).set s 1) (List.replicate n 0)
      (List.replicate n 0)).2 = List.replicate n 0 := by
    apply ext_getD _ _ (by rw [z2, List.length_replicate])
    intro i _
    rw [getD_zero_of_all_zero (List.replicate n 0) (fun x hx => List.eq_of_mem_replicate hx) i]
    by_cases h : s = i
    · rw [← h, hs1.2]
    · exact (z3 i (by rw [hcl i, if_neg h])).2
  rw [hcode, hrev]

theorem buildFromFreq_eq_general (freq : List Nat) (h2 : 2 ≤ (nonzeroSyms freq).length) :
    Huffman.buildFromFreq freq
      = Huffman.buildDecTree
          ⟨(Huffman.buildFromFreq freq).codeLen,
            (Huffman.assignCodes freq.length (Huffman.buildFromFreq freq).codeLen
              (List.replicate freq.length 0) (List.replicate freq.length 0)).1,
            (Huffman.assignCodes freq.length (Huffman.buildFromFreq freq).codeLen
              (List.replicate freq.length 0) (List.replicate freq.length 0)).2,
            freq.length, []⟩ := by
  have hs1 : ¬ ((List.range freq.length).filter (fun i => freq.getD i 0 > 0) = []) := by
    intro h
    unfold nonzeroSyms at h2
    rw [h] at h2
    exact absurd h2 (by decide)
  have hs2 : ¬ (((List.range freq.length).filter (fun i => freq.getD i 0 > 0)).length = 1) := by
    unfold nonzeroSyms at h2
    omega
  unfold Huffman.buildFromFreq
  dsimp only
  rw [if_neg hs1, if_neg hs2]
  rfl

/-- C16: for every frequency vector with a non-empty alphabet (of fewer than
`2^31` symbols, the alphabet size being an `int`), the table that the decoder's
`buildFromCL` builds from the code lengths produced by `buildFromFreq` is the
table of `buildFromFreq` itself: the same `codeLen`, `code`, `codeRev`,
alphabet size and decode trie, in the all-zero and the single-symbol cases as
well. -/
theorem decoder_table_agrees (freq : List Nat) (hpos : 0 < freq.length)
    (hlen : freq.length < 2 ^ 31) :
    buildFromCL (Huffman.buildFromFreq freq).codeLen = Huffman.buildFromFreq freq := by
  by_cases h0 : nonzeroSyms freq = []
  · have hb : Huffman.buildFromFreq freq = Huffman.buildDecTree
        ⟨(List.replicate freq.length 0).set 0 1, List.replicate freq.length 0,
          List.replicate freq.length 0, freq.length, []⟩ := by
      unfold nonzeroSyms at h0
      unfold Huffman.buildFromFreq
      dsimp only
      rw [if_pos h0, if_neg (by omega), replicate_set_zero]
    rw [hb, buildDecTree_codeLen]
    exact buildFromCL_single freq.length 0 hpos
  · by_cases h1 : (nonzeroSyms freq).length = 1
    · obtain ⟨s, hs⟩ := List.length_eq_one.mp h1
      have hmem : s < freq.length :=
        ((nonzeroSyms_mem freq s).mp (by rw [hs]; exact List.mem_singleton_self s)).1
      have hb : Huffman.buildFromFreq freq = Huffman.buildDecTree
          ⟨(List.replicate freq.length 0).set s 1, List.replicate freq.length 0,
            List.replicate freq.length 0, freq.length, []⟩ := by
        unfold nonzeroSyms at hs
        unfold Huffman.buildFromFreq
        dsimp only
        rw [hs, if_neg (List.cons_ne_nil _ _), if_pos (show [s].length = 1 from rfl)]
        show Huffman.buildDecTree ⟨(List.replicate freq.length 0).set s 1,
          (List.replicate freq.length 0).set s 0, (List.replicate freq.length 0).set s 0,
          freq.length, []⟩ = _
        rw [replicate_set_zero]
      rw [hb, buildDecTree_codeLen]
      exact buildFromCL_single freq.length s hmem
    · have h2 : 2 ≤ (nonzeroSyms freq).length := by
        have := List.length_pos.mpr h0
        omega
      obtain ⟨a, b, hperm, hd, _⟩ := buildFromFreq_depths freq h2
      obtain ⟨p, hp, _, hp2⟩ := shallow_leaf (HTree.node a b) 0
      have hp1 := leavesD_node_depth a b 0 p hp
      have hll : (HTree.node a b).leaves.length ≤ freq.length := by
        rw [hperm.length_eq]
        exact nonzeroSyms_length_le freq
      have hpl : p.2 < 31 := by
        rw [Nat.sub_zero] at hp2
        have h31 : (2 : Nat) ^ p.2 < 2 ^ 31 := by omega
        exact (Nat.pow_lt_pow_iff_right (by decide)).mp h31
      have hcl := hd p hp
      rw [Nat.mod_eq_of_lt (by omega)] at hcl
      have hmax : (Huffman.buildFromFreq freq).codeLen.foldl (fun m L => max m L) 0 ≠ 0 := by
        have := getD_le_foldl_max (Huffman.buildFromFreq freq).codeLen p.1
        omega
      rw [buildFromCL_eq _ hmax, buildFromFreq_codeLen_length]
      exact (buildFromFreq_eq_general freq h2).symm

/-- Witness for C16: the frequencies 1, 1, 2. -/
theorem decoder_table_agrees_witness :
    0 < ([1, 1, 2] : List Nat).length ∧ ([1, 1, 2] : List Nat).length < 2 ^ 31
      ∧ buildFromCL (Huffman.buildFromFreq [1, 1, 2]).codeLen = Huffman.buildFromFreq [1, 1, 2] :=
  ⟨by decide, by decide, decoder_table_agrees [1, 1, 2] (by decide) (by decide)⟩

/-! ## The parse of a constant run -/

theorem getD_replicate_lt (n c k : Nat) (h : k < n) : (List.replicate n c).getD k 0 = c := by
  rw [List.getD_eq_getElem _ _ (by rw [List.length_replicate]; exact h), List.getElem_replicate]

theorem key3_replicate (n c pos : Nat) (h : pos + 2 < n) :
    LZ77.key3 (List.replicate n c) pos = key3c c := by
  unfold LZ77.key3 key3c
  rw [getD_replicate_lt n c pos (by omega), getD_replicate_lt n c (pos + 1) (by omega),
    getD_replicate_lt n c (pos + 2) h]

theorem push_key_replicate_nil (n c pos : Nat) (hn : n < 2 ^ 31) (h : pos + 2 < n) :
    LZ77.push_key (List.replicate n c) [] pos = [(key3c c, [pos])] := by
  unfold LZ77.push_key
  rw [List.length_replicate, toInt32_of_small n hn, if_neg (by omega), key3_replicate n c pos h]
  rfl

theorem push_key_replicate_one (n c pos : Nat) (v : List Nat) (hn : n < 2 ^ 31)
    (h : pos + 2 < n) (hv : v.length < 256) :
    LZ77.push_key (List.replicate n c) [(key3c c, v)] pos = [(key3c c, v ++ [pos])] := by
  unfold LZ77.push_key
  rw [List.length_replicate, toInt32_of_small n hn, if_neg (by omega), key3_replicate n c pos h]
  dsimp only
  have hf : HashTable.find [(key3c c, v)] (key3c c) = some v := by
    unfold HashTable.find
    rw [if_pos rfl]
  have hl : ¬ (v ++ [pos]).length > LZ77.MAX_CANDS * 4 := by
    rw [List.length_append, List.length_singleton]
    unfold LZ77.MAX_CANDS
    omega
  rw [hf, Option.getD_some, if_neg hl]
  unfold HashTable.store
  rw [if_pos rfl]

theorem extend_replicate (n c : Nat) (rest : Nat) :
    ∀ L, 1 + L + rest ≤ n → LZ77.extend (List.replicate n c) 0 1 rest L = L + rest := by
  induction rest with
  | zero => intro L _; rfl
  | succ rest ih =>
    intro L h
    unfold LZ77.extend
    rw [getD_replicate_lt n c (0 + L) (by omega), getD_replicate_lt n c (1 + L) (by omega),
      if_pos rfl, ih (L + 1) (by omega)]
    omega

theorem findBest_run_zero (n c : Nat) (h4 : 4 ≤ n) :
    LZ77.findBest (List.replicate n c) (n : Int) [(key3c c, [0, 1])] 0 = (0, 0) := by
  unfold LZ77.findBest
  have h1 : ((0 : Nat) : Int) + (LZ77.MIN_MATCH : Int) - 1 < (n : Int) := by
    unfold LZ77.MIN_MATCH
    omega
  have h2 : ((0 : Nat) : Int) + 2 < (n : Int) := by omega
  rw [if_pos h1]
  dsimp only
  rw [if_pos h2, key3_replicate n c 0 (by omega)]
  have hf : HashTable.find [(key3c c, [0, 1])] (key3c c) = some [0, 1] := by
    unfold HashTable.find
    rw [if_pos rfl]
  rw [hf]
  dsimp only
  show LZ77.candLoop (List.replicate n c) (n : Int) 0 [1, 0] 0 (0, 0) = (0, 0)
  unfold LZ77.candLoop
  rw [if_pos (by decide)]
  dsimp only
  rw [if_pos (Or.inl (by decide))]
  unfold LZ77.candLoop
  rw [if_pos (by decide)]
  dsimp only
  rw [if_pos (Or.inl (by decide))]
  rfl

theorem findBest_run_one (n c : Nat) (h4 : 4 ≤ n) :
    LZ77.findBest (List.replicate n c) (n : Int) [(key3c c, [0, 1, 0])] 1
      = (min (n - 1) 32768, 1) := by
  unfold LZ77.findBest
  have h1 : ((1 : Nat) : Int) + (LZ77.MIN_MATCH : Int) - 1 < (n : Int) := by
    unfold LZ77.MIN_MATCH
    omega
  have h2 : ((1 : Nat) : Int) + 2 < (n : Int) := by omega
  rw [if_pos h1]
  dsimp only
  rw [if_pos h2, key3_replicate n c 1 (by omega)]
  have hf : HashTable.find [(key3c c, [0, 1, 0])] (key3c c) = some [0, 1, 0] := by
    unfold HashTable.find
    rw [if_pos rfl]
  rw [hf]
  dsimp only
  show LZ77.candLoop (List.replicate n c) (n : Int) 1 [0, 1, 0] 0 (0, 0) = _
  have hmax : (min ((n : Int) - ((1 : Nat) : Int)) (LZ77.WND : Int)).toNat = min (n - 1) 32768 := by
    unfold LZ77.WND
    omega
  have hext : LZ77.extend (List.replicate n c) 0 1 (min (n - 1) 32768) 0 = min (n - 1) 32768 := by
    rw [extend_replicate n c _ 0 (by omega)]
    omega
  have hd1 : ¬ (((1 : Nat) : Int) - ((0 : Nat) : Int) ≤ 0
      ∨ ((1 : Nat) : Int) - ((0 : Nat) : Int) > (LZ77.WND : Int)) := by
    unfold LZ77.WND
    omega
  have hd0 : ((1 : Nat) : Int) - ((1 : Nat) : Int) ≤ 0
      ∨ ((1 : Nat) : Int) - ((1 : Nat) : Int) > (LZ77.WND : Int) := Or.inl (by omega)
  have hge : min (n - 1) 32768 ≥ LZ77.MIN_MATCH ∧ min (n - 1) 32768 > (0, (0 : Int)).1 := by
    unfold LZ77.MIN_MATCH
    dsimp only
    omega
  have hd : ((1 : Nat) : Int) - ((0 : Nat) : Int) = 1 := by omega
  unfold LZ77.candLoop
  rw [if_pos (by decide)]
  dsimp only
  rw [if_neg hd1, hmax, hext, if_pos hge, hd]
  by_cases h258 : min (n - 1) 32768 ≥ 258
  · rw [if_pos h258]
  · rw [if_neg h258]
    unfold LZ77.candLoop
    rw [if_pos (by decide)]
    dsimp only
    rw [if_pos hd0]
    unfold LZ77.candLoop
    rw [if_pos (by decide)]
    dsimp only
    rw [if_neg hd1, hmax, hext, if_neg (fun h => absurd h.2 (lt_irrefl _))]
    rfl

theorem parseLoop_cmds (inp : List Nat) (n : Int) (fuel : Nat) :
    ∀ st : LZ77.State, ∃ more, (LZ77.parseLoop inp n fuel st).cmds = st.cmds ++ more := by
  induction fuel with
  | zero => intro st; exact ⟨[], (List.append_nil _).symm⟩
  | succ fuel ih =>
    intro st
    unfold LZ77.parseLoop
    by_cases hlt : (st.i : Int) < n
    · rw [if_pos hlt]
      dsimp only
      by_cases hm : (LZ77.findBest inp n st.ht st.i).1 ≥ LZ77.MIN_MATCH
      · rw [if_pos hm]
        obtain ⟨more, h⟩ := ih
          ⟨st.i + (LZ77.findBest inp n st.ht st.i).1, [],
            (List.range (LZ77.findBest inp n st.ht st.i).1).foldl
              (fun ht j => LZ77.push_key inp ht (st.i + j)) st.ht,
            st.cmds ++ [⟨st.litbuf, true, (LZ77.findBest inp n st.ht st.i).1 % 2 ^ 32,
              (LZ77.findBest inp n st.ht st.i).2.toNat % 2 ^ 32⟩]⟩
        exact ⟨[⟨st.litbuf, true, (LZ77.findBest inp n st.ht st.i).1 % 2 ^ 32,
          (LZ77.findBest inp n st.ht st.i).2.toNat % 2 ^ 32⟩] ++ more,
          by rw [h]; exact List.append_assoc _ _ _⟩
      · rw [if_neg hm]
        exact ih _
    · rw [if_neg hlt]
      exact ⟨[], (List.append_nil _).symm⟩

theorem parseLoop_literal (inp : List Nat) (n : Int) (fuel : Nat) (st : LZ77.State)
    (hlt : (st.i : Int) < n) (hm : ¬ (LZ77.findBest inp n st.ht st.i).1 ≥ LZ77.MIN_MATCH) :
    LZ77.parseLoop inp n (fuel + 1) st
      = LZ77.parseLoop inp n fuel
          ⟨st.i + 1, st.litbuf ++ [inp.getD st.i 0], LZ77.push_key inp st.ht st.i, st.cmds⟩ := by
  rw [LZ77.parseLoop, if_pos hlt]
  dsimp only
  rw [if_neg hm]

theorem parseLoop_match (inp : List Nat) (n : Int) (fuel : Nat) (st : LZ77.State)
    (hlt : (st.i : Int) < n) (hm : (LZ77.findBest inp n st.ht st.i).1 ≥ LZ77.MIN_MATCH) :
    LZ77.parseLoop inp n (fuel + 1) st
      = LZ77.parseLoop inp n fuel
          ⟨st.i + (LZ77.findBest inp n st.ht st.i).1, [],
            (List.range (LZ77.findBest inp n st.ht st.i).1).foldl
              (fun ht j => LZ77.push_key inp ht (st.i + j)) st.ht,
            st.cmds ++ [⟨st.litbuf, true, (LZ77.findBest inp n st.ht st.i).1 % 2 ^ 32,
              (LZ77.findBest inp n st.ht st.i).2.toNat % 2 ^ 32⟩]⟩ := by
  rw [LZ77.parseLoop, if_pos hlt]
  dsimp only
  rw [if_pos hm]

theorem parse_run (c n : Nat) (h4 : 4 ≤ n) (hn : n < 2 ^ 31) :
    (LZ77.parse (List.replicate n c)).head?
      = some { literals := [c], hasMatch := true, matchLen := min (n - 1) 32768, distance := 1 } := by
  obtain ⟨m, hm⟩ : ∃ m, n = m + 1 + 1 := ⟨n - 2, by omega⟩
  have hb1 : LZ77.findBest (List.replicate n c) (n : Int)
      (⟨0 + 1, [] ++ [c], [(key3c c, [0, 1] ++ [0])], []⟩ : LZ77.State).ht
      (⟨0 + 1, [] ++ [c], [(key3c c, [0, 1] ++ [0])], []⟩ : LZ77.State).i
      = (min (n - 1) 32768, 1) := findBest_run_one n c h4
  have hfuel : LZ77.parseLoop (List.replicate n c) (n : Int) (m + 1 + 1)
      ⟨0, [], [(key3c c, [0] ++ [1])], []⟩
      = LZ77.parseLoop (List.replicate n c) (n : Int) m
          ⟨0 + 1 + min (n - 1) 32768, [],
            (List.range (min (n - 1) 32768)).foldl
              (fun ht j => LZ77.push_key (List.replicate n c) ht (0 + 1 + j))
              [(key3c c, [0, 1] ++ [0])],
            [] ++ [⟨[] ++ [c], true, min (n - 1) 32768 % 2 ^ 32, (1 : Int).toNat % 2 ^ 32⟩]⟩ := by
    rw [parseLoop_literal _ _ _ _ (by show ((0 : Nat) : Int) < (n : Int); omega)
      (by
        show ¬ (LZ77.findBest (List.replicate n c) (n : Int) [(key3c c, [0, 1])] 0).1
          ≥ LZ77.MIN_MATCH
        rw [findBest_run_zero n c h4]
        decide)]
    dsimp only
    rw [show [0] ++ [1] = [0, 1] from rfl,
      push_key_replicate_one n c 0 [0, 1] hn (by omega) (by decide),
      getD_replicate_lt n c 0 (by omega)]
    rw [parseLoop_match _ _ _ _ (by show ((0 + 1 : Nat) : Int) < (n : Int); omega)
      (by
        rw [hb1]
        show min (n - 1) 32768 ≥ 3
        omega)]
    rw [hb1]
  unfold LZ77.parse
  dsimp only
  rw [push_key_replicate_nil n c 0 hn (by omega),
    push_key_replicate_one n c 1 [0] hn (by omega) (by decide),
    List.length_replicate, toInt32_of_small n hn, Int.toNat_ofNat]
  have hnm : LZ77.parseLoop (List.replicate n c) (n : Int) n
      ⟨0, [], [(key3c c, [0] ++ [1])], []⟩
      = LZ77.parseLoop (List.replicate n c) (n : Int) (m + 1 + 1)
        ⟨0, [], [(key3c c, [0] ++ [1])], []⟩ := by
    rw [← hm]
  rw [hnm, hfuel]
  obtain ⟨more, hmore⟩ := parseLoop_cmds (List.replicate n c) (n : Int) m
    ⟨0 + 1 + min (n - 1) 32768, [],
      (List.range (min (n - 1) 32768)).foldl
        (fun ht j => LZ77.push_key (List.replicate n c) ht (0 + 1 + j))
        [(key3c c, [0, 1] ++ [0])],
      [] ++ [⟨[] ++ [c], true, min (n - 1) 32768 % 2 ^ 32, (1 : Int).toNat % 2 ^ 32⟩]⟩
  rw [hmore]
  have hmod : min (n - 1) 32768 % 2 ^ 32 = min (n - 1) 32768 := Nat.mod_eq_of_lt (by omega)
  rw [hmod]
  by_cases hl : (LZ77.parseLoop (List.replicate n c) (n : Int) m
    ⟨0 + 1 + min (n - 1) 32768, [],
      (List.range (min (n - 1) 32768)).foldl
        (fun ht j => LZ77.push_key (List.replicate n c) ht (0 + 1 + j))
        [(key3c c, [0, 1] ++ [0])],
      [] ++ [⟨[] ++ [c], true, min (n - 1) 32768, (1 : Int).toNat % 2 ^ 32⟩]⟩).litbuf ≠ []
  · rw [if_pos hl]
    rfl
  · rw [if_neg hl]
    rfl

/-- C21, at the failing input and in general: for a run of `2^31` copies of the
byte 0 `LZ77::parse` returns no command at all, so there is no first command.
For every byte `c` and every `n` with `4 <= n < 2^31` the first command of the
parse of `n` copies of `c` is the one literal `c` followed by a match of
distance 1 and length `min(n - 1, 32768)`; for 65 536 bytes of `0x00` this is
one literal and a match of length 32768. -/
theorem constant_run_parse :
    (twoGiB = List.replicate (2 ^ 31) 0 ∧ 4 ≤ 2 ^ 31 ∧ LZ77.parse twoGiB = []
        ∧ (LZ77.parse twoGiB).head? = none)
      ∧ (∀ c n : Nat, c < 256 → 4 ≤ n → n < 2 ^ 31 →
          (LZ77.parse (List.replicate n c)).head?
            = some { literals := [c], hasMatch := true, matchLen := min (n - 1) 32768,
                     distance := 1 })
      ∧ (LZ77.parse (List.replicate 65536 0)).head?
          = some { literals := [0], hasMatch := true, matchLen := 32768, distance := 1 } := by
  have hp : LZ77.parse twoGiB = [] :=
    parse_of_large twoGiB (le_of_eq twoGiB_length.symm) twoGiB_length_lt
  refine ⟨⟨rfl, by norm_num, hp, by rw [hp]; rfl⟩, fun c n _ h4 hn => parse_run c n h4 hn, ?_⟩
  have h := parse_run 0 65536 (by norm_num) (by norm_num)
  have hmin : min (65536 - 1) 32768 = 32768 := by norm_num
  rw [hmin] at h
  exact h

/-! ## The cap on the match length -/

theorem toInt32_le (x : Nat) : toInt32 x ≤ (x : Int) := by
  unfold toInt32
  have h := Nat.mod_le x (2 ^ 32)
  split
  · omega
  · omega

theorem matchCap_append (total : Nat) (cmds : List Command) (cmd : Command) (j : Nat)
    (hj : j < cmds.length) (h : MatchCap total cmds j) : MatchCap total (cmds ++ [cmd]) j := by
  unfold MatchCap at h ⊢
  rw [List.getD_append _ _ _ _ hj, List.take_append_of_le_length (by omega)]
  exact h

theorem parseLoop_capped (inp : List Nat) (n : Int) (total : Nat) (hn : n ≤ (total : Int))
    (fuel : Nat) :
    ∀ st : LZ77.State, LZ77.Capped total st →
      LZ77.Capped total (LZ77.parseLoop inp n fuel st) := by
  induction fuel with
  | zero => intro st h; exact h
  | succ fuel ih =>
    intro st hst
    obtain ⟨⟨out, hrep, hlen⟩, hall⟩ := hst
    unfold LZ77.parseLoop
    by_cases hlt : (st.i : Int) < n
    · rw [if_pos hlt]
      dsimp only
      have hs := findBest_sound inp n st.ht st.i hlt
      by_cases hm : (LZ77.findBest inp n st.ht st.i).1 ≥ LZ77.MIN_MATCH
      · rw [if_pos hm]
        have hm3 : 3 ≤ (LZ77.findBest inp n st.ht st.i).1 := hm
        rcases hs with h0 | ⟨s1, s2, s3, s4, s5, _⟩
        · omega
        · have hW : LZ77.WND = 32768 := rfl
          rw [hW] at s3 s4
          have hd : (LZ77.findBest inp n st.ht st.i).2.toNat % 2 ^ 32
              = (LZ77.findBest inp n st.ht st.i).2.toNat := Nat.mod_eq_of_lt (by omega)
          have hL : (LZ77.findBest inp n st.ht st.i).1 % 2 ^ 32
              = (LZ77.findBest inp n st.ht st.i).1 := Nat.mod_eq_of_lt (by omega)
          apply ih
          refine ⟨?_, ?_⟩
          · dsimp only
            rw [replay_append, hrep, Option.some_bind]
            unfold replayCommand
            dsimp only
            rw [if_pos rfl, hd, hL, List.length_append, if_neg (by omega)]
            refine ⟨_, rfl, ?_⟩
            rw [copyRun_length, List.length_append, List.length_nil]
            omega
          · intro j hj
            dsimp only at hj ⊢
            rw [List.length_append, List.length_singleton] at hj
            by_cases hjl : j < st.cmds.length
            · refine ⟨?_, matchCap_append _ _ _ j hjl (hall j hjl).2⟩
              rw [List.getD_append _ _ _ _ hjl]
              exact (hall j hjl).1
            · have hje : j = st.cmds.length := by omega
              subst hje
              unfold MatchCap
              rw [getD_append_self, List.take_left]
              dsimp only
              rw [hd, hL]
              exact ⟨rfl, hm3, s4, by omega, by omega, out, hrep, by omega⟩
      · rw [if_neg hm]
        apply ih
        refine ⟨⟨out, hrep, ?_⟩, hall⟩
        dsimp only
        rw [List.length_append, List.length_singleton]
        omega
    · rw [if_neg hlt]
      exact ⟨⟨out, hrep, hlen⟩, hall⟩

/-- Every command of `LZ77::parse(B)` that has a match satisfies `MatchCap`. -/
theorem parse_capped (B : List Nat) (j : Nat) (hj : j < (LZ77.parse B).length)
    (hm : ((LZ77.parse B).getD j {}).hasMatch = true) : MatchCap B.length (LZ77.parse B) j := by
  have hinit : LZ77.Capped B.length { ht := LZ77.push_key B (LZ77.push_key B [] 0) 1 } :=
    ⟨⟨[], rfl, rfl⟩, fun j hj => absurd hj (Nat.not_lt_zero _)⟩
  have hsh := parseLoop_capped B (toInt32 B.length) B.length (toInt32_le _)
    (toInt32 B.length).toNat _ hinit
  obtain ⟨_, hall⟩ := hsh
  unfold LZ77.parse at hj hm ⊢
  dsimp only at hj hm ⊢
  generalize LZ77.parseLoop B (toInt32 B.length) (toInt32 B.length).toNat
    { ht := LZ77.push_key B (LZ77.push_key B [] 0) 1 } = st at hj hm hall ⊢
  by_cases hl : st.litbuf ≠ []
  · rw [if_pos hl] at hj hm ⊢
    rw [List.length_append, List.length_singleton] at hj
    by_cases hjl : j < st.cmds.length
    · exact matchCap_append _ st.cmds _ j hjl (hall j hjl).2
    · have hje : j = st.cmds.length := by omega
      subst hje
      rw [getD_append_self] at hm
      cases hm
  · rw [if_neg hl] at hj hm ⊢
    exact (hall j hj).2

theorem encode_sym_le_15 (v : Nat) (h : v < 2 ^ 15) : (BucketCoder.encode v).sym ≤ 15 := by
  by_cases h0 : v = 0
  · subst h0; decide
  · have h1 : 1 ≤ v := by omega
    have h32 : v < 2 ^ 32 := by omega
    rw [encode_of_pos v h1 h32]
    obtain ⟨_, h2, _⟩ := ilog2_u32_spec v h1 h32
    have h3 : 2 ^ BucketCoder.ilog2_u32 v < 2 ^ 15 := lt_of_le_of_lt h2 h
    have h4 := (Nat.pow_lt_pow_iff_right (by decide : 1 < 2)).mp h3
    show BucketCoder.ilog2_u32 v + 1 ≤ 15
    omega

theorem bumpLenBucket_le_16 (F : List Nat) (v : Nat) (hv : v < 2 ^ 15) (hF : F.length ≤ 16) :
    (bumpLenBucket F v).length ≤ 16 := by
  have hs := encode_sym_le_15 v hv
  unfold bumpLenBucket
  simp only [List.length_set]
  split
  · simp only [List.length_append, List.length_replicate]; omega
  · exact hF

theorem tallyCommand_cap (t t2 : Tally) (cmd : Command) (ht : t.Shaped)
    (hcmd : cmd.hasMatch = true → 3 ≤ cmd.matchLen ∧ cmd.matchLen ≤ 32768
      ∧ 1 ≤ cmd.distance ∧ cmd.distance ≤ 32768)
    (hc : t.copFreq.length ≤ 16) (hd : t.distFreq.length ≤ 16)
    (h : tallyCommand t cmd = .ok t2) : t2.copFreq.length ≤ 16 ∧ t2.distFreq.length ≤ 16 := by
  obtain ⟨_, _, hc2, hd2⟩ := tallyLiterals_shaped cmd.literals t ht
  unfold tallyCommand at h
  dsimp only at h
  by_cases hm : cmd.hasMatch = true
  · obtain ⟨m1, m2, d1, d2⟩ := hcmd hm
    have e1 : (cmd.matchLen + (2 ^ 32 - 3)) % 2 ^ 32 = cmd.matchLen - 3 := by omega
    have e2 : (cmd.distance + (2 ^ 32 - 1)) % 2 ^ 32 = cmd.distance - 1 := by omega
    have b1 := bumpLenBucket_le_16 (tallyLiterals t cmd.literals).copFreq (cmd.matchLen - 3)
      (by omega) (by rw [hc2]; exact hc)
    have b2 := bumpLenBucket_le_16 (tallyLiterals t cmd.literals).distFreq (cmd.distance - 1)
      (by omega) (by rw [hd2]; exact hd)
    rw [if_pos hm, e1, e2] at h
    split at h
    · cases h
    · cases h
      exact ⟨b1, b2⟩
  · rw [if_neg hm] at h
    cases h
    exact ⟨by rw [hc2]; exact hc, by rw [hd2]; exact hd⟩

theorem tallyLoop_cap (cmds : List Command) :
    ∀ (t t2 : Tally), t.Shaped →
      (∀ cmd ∈ cmds, cmd.hasMatch = true → 3 ≤ cmd.matchLen ∧ cmd.matchLen ≤ 32768
        ∧ 1 ≤ cmd.distance ∧ cmd.distance ≤ 32768) →
      t.copFreq.length ≤ 16 → t.distFreq.length ≤ 16 → tallyLoop cmds t = .ok t2 →
      t2.copFreq.length ≤ 16 ∧ t2.distFreq.length ≤ 16 := by
  induction cmds with
  | nil => intro t t2 _ _ hc hd h; cases h; exact ⟨hc, hd⟩
  | cons cmd rest ih =>
    intro t t2 ht hall hc hd h
    unfold tallyLoop at h
    cases h1 : tallyCommand t cmd with
    | error e => rw [h1] at h; cases h
    | ok t1 =>
      rw [h1] at h
      obtain ⟨c1, d1⟩ := tallyCommand_cap t t1 cmd ht (hall cmd (List.mem_cons_self _ _)) hc hd h1
      exact ih t1 t2 (tallyCommand_shaped t t1 cmd ht h1)
        (fun x hx => hall x (List.mem_cons_of_mem _ hx)) c1 d1 h

theorem parse_mem_cap (B : List Nat) :
    ∀ cmd ∈ LZ77.parse B, cmd.hasMatch = true → 3 ≤ cmd.matchLen ∧ cmd.matchLen ≤ 32768
      ∧ 1 ≤ cmd.distance ∧ cmd.distance ≤ 32768 := by
  intro cmd hmem hm
  obtain ⟨j, hj, hget⟩ := List.getElem_of_mem hmem
  have hgd : (LZ77.parse B).getD j {} = cmd := by
    rw [List.getD_eq_getElem _ _ hj, hget]
  have hcap := parse_capped B j hj (by rw [hgd]; exact hm)
  unfold MatchCap at hcap
  rw [hgd] at hcap
  exact ⟨hcap.1, hcap.2.1, hcap.2.2.1, hcap.2.2.2.1⟩

theorem build_cap (B : List Nat) (cb : Codebooks)
    (h : Codebooks.build (LZ77.parse B) B = .ok cb) :
    cb.copCodeLen.length ≤ 16 ∧ cb.distCodeLen.length ≤ 16 := by
  unfold Codebooks.build at h
  cases ht : tallyLoop (LZ77.parse B) {} with
  | error e => rw [ht] at h; cases h
  | ok t =>
    rw [ht] at h
    dsimp only at h
    obtain ⟨_, _, _, hcop, hdst⟩ := tallyLoop_shaped (LZ77.parse B) {} t tally_init_shaped ht
    obtain ⟨c1, d1⟩ := tallyLoop_cap (LZ77.parse B) {} t tally_init_shaped (parse_mem_cap B)
      (by decide) (by decide) ht
    split at h
    · cases h
    · cases h
      dsimp only
      rw [lenRow_length _ (by rw [buildFromFreq_codeLen_length]; exact hcop.1),
        lenRow_length _ (by rw [buildFromFreq_codeLen_length]; exact hdst.1),
        buildFromFreq_codeLen_length, buildFromFreq_codeLen_length]
      exact ⟨c1, d1⟩

theorem header_alphabets (out : List Nat) (n : Nat) (cb : Codebooks) (bits : List Nat)
    (h4 : cb.litCodeLen.length = 4) (hrows : ∀ row ∈ cb.litCodeLen, row.length = 256)
    (hins : 1 ≤ cb.insCodeLen.length ∧ cb.insCodeLen.length ≤ 33)
    (hcop : 1 ≤ cb.copCodeLen.length ∧ cb.copCodeLen.length ≤ 33)
    (hdst : 1 ≤ cb.distCodeLen.length ∧ cb.distCodeLen.length ≤ 33)
    (hout : out = headerBytes cb n ++ bits) :
    read_u16_le out 11 = cb.copCodeLen.length ∧ read_u16_le out 13 = cb.distCodeLen.length := by
  have hH := headerBytes_eq cb n h4 hrows hins hcop hdst
  subst hout
  constructor
  · rw [hH]
    simp only [read_u16_le, le32, le16, List.cons_append, List.nil_append, List.getD_cons_succ,
      List.getD_cons_zero]
    exact read_le16 _ (by omega)
  · rw [hH]
    simp only [read_u16_le, le32, le16, List.cons_append, List.nil_append, List.getD_cons_succ,
      List.getD_cons_zero]
    exact read_le16 _ (by omega)

/-- C23: for every input `B`, every command of `LZ77::parse(B)` that has a
match has `matchLen <= 32768` and `matchLen` at most the number of input bytes
from the match position on (the position being the bytes that the commands
before it replay to plus the literals of the command itself), so the bucket
symbols of `matchLen - 3` and `distance - 1` are at most 15; and the fields
`cop_alphabet` and `dst_alphabet` of every container that `compress_sbro`
returns are at most 16. -/
theorem match_length_cap (B : List Nat) :
    (∀ j, j < (LZ77.parse B).length → ((LZ77.parse B).getD j {}).hasMatch = true →
        ((LZ77.parse B).getD j {}).matchLen ≤ 32768
          ∧ (∃ out, replay ((LZ77.parse B).take j) [] = some out
              ∧ ((LZ77.parse B).getD j {}).matchLen
                  ≤ B.length - (out.length + ((LZ77.parse B).getD j {}).literals.length))
          ∧ (BucketCoder.encode (((LZ77.parse B).getD j {}).matchLen - 3)).sym ≤ 15
          ∧ (BucketCoder.encode (((LZ77.parse B).getD j {}).distance - 1)).sym ≤ 15)
      ∧ (∀ out, compress_sbro B = .ok out →
          read_u16_le out 11 ≤ 16 ∧ read_u16_le out 13 ≤ 16) := by
  constructor
  · intro j hj hm
    obtain ⟨m1, m2, d1, d2, out, hrep, hle⟩ := parse_capped B j hj hm
    refine ⟨m2, ⟨out, hrep, by omega⟩, encode_sym_le_15 _ (by omega), encode_sym_le_15 _ (by omega)⟩
  · intro out h
    obtain ⟨cb, bw, hcb, _, hout⟩ := compress_decomp B out h
    obtain ⟨h4, hrows, hins, hcop, hdst⟩ := build_shape _ _ cb hcb
    obtain ⟨r11, r13⟩ :=
      header_alphabets out B.length cb (bw.flushTo []) h4 hrows hins hcop hdst hout
    obtain ⟨c1, d1⟩ := build_cap B cb hcb
    rw [r11, r13]
    exact ⟨c1, d1⟩

/-! ## The priority queue pops a lowest frequency -/

theorem getD_set_eq (l : List Item) (i : Nat) (a : Item) (h : i < l.length) :
    (l.set i a).getD i default = a := by
  rw [getD_set_item, if_pos ⟨rfl, h⟩]

theorem getD_set_ne (l : List Item) (i j : Nat) (a : Item) (h : i ≠ j) :
    (l.set i a).getD j default = l.getD j default := by
  rw [getD_set_item, if_neg (fun hh => h hh.1)]

theorem heap_top_min (c : List Item) (h : IsHeap c) :
    ∀ k, k < c.length → (c.getD 0 default).f ≤ (c.getD k default).f := by
  intro k
  induction k using Nat.strong_induction_on with
  | _ k ih =>
    intro hk
    by_cases h0 : k = 0
    · rw [h0]
    · exact le_trans (ih ((k - 1) / 2) (by omega) (by omega)) (h k (by omega) hk)

theorem pq_top_min (c : List Item) (h : IsHeap c) : ∀ it ∈ c, (pq_top c).f ≤ it.f := by
  intro it hit
  obtain ⟨k, hk, hget⟩ := List.getElem_of_mem hit
  have := heap_top_min c h k hk
  rw [List.getD_eq_getElem _ _ hk, hget] at this
  exact this

theorem heapSiftUp_heap (value : Item) (len : Nat) (fuel : Nat) :
    ∀ (c : List Item) (hole : Nat), hole < len → len ≤ c.length → hole < fuel →
      (∀ k, 1 ≤ k → k < len → k ≠ hole →
        ((c.set hole value).getD ((k - 1) / 2) default).f
          ≤ ((c.set hole value).getD k default).f) →
      (∀ k, 1 ≤ k → k < len → (k - 1) / 2 = hole → 1 ≤ hole →
        (c.getD ((hole - 1) / 2) default).f ≤ (c.getD k default).f) →
      HeapUpTo len ((heapSiftUp value 0 fuel c hole).1.set
        (heapSiftUp value 0 fuel c hole).2 value) := by
  induction fuel with
  | zero => intro c hole _ _ hf; omega
  | succ fuel ih =>
    intro c hole hh hl hf hA hB
    unfold heapSiftUp
    dsimp only
    by_cases hc : hole > 0 ∧ (c.getD ((hole - 1) / 2) default).f > value.f
    · rw [if_pos hc]
      obtain ⟨hpos, hgt⟩ := hc
      have hp : (hole - 1) / 2 < hole := by omega
      apply ih _ _ (by omega) (by rw [List.length_set]; exact hl) (by omega)
      · intro k hk1 hk2 hkp
        by_cases hkh : k = hole
        · rw [hkh, getD_set_eq _ _ _ (by rw [List.length_set]; omega),
            getD_set_ne _ _ _ _ (by omega), getD_set_eq _ _ _ (by omega)]
          omega
        · have hAk := hA k hk1 hk2 hkh
          rw [getD_set_ne _ _ k _ (fun h => hkh h.symm)] at hAk
          rw [getD_set_ne _ _ k _ (fun h => hkp h.symm), getD_set_ne _ _ k _ (fun h => hkh h.symm)]
          by_cases hpk : (k - 1) / 2 = hole
          · rw [hpk, getD_set_ne _ _ hole _ (by omega), getD_set_eq _ _ _ (by omega)]
            exact hB k hk1 hk2 hpk hpos
          · rw [getD_set_ne _ _ ((k - 1) / 2) _ (fun h => hpk h.symm)] at hAk
            by_cases hpp : (k - 1) / 2 = (hole - 1) / 2
            · rw [hpp, getD_set_eq _ _ _ (by rw [List.length_set]; omega)]
              rw [hpp] at hAk
              omega
            · rw [getD_set_ne _ _ ((k - 1) / 2) _ (fun h => hpp h.symm),
                getD_set_ne _ _ ((k - 1) / 2) _ (fun h => hpk h.symm)]
              exact hAk
      · intro k hk1 hk2 hkp hp1
        have hgp : ((hole - 1) / 2 - 1) / 2 < (hole - 1) / 2 := by omega
        rw [getD_set_ne _ _ (((hole - 1) / 2 - 1) / 2) _ (by omega)]
        have hAp := hA ((hole - 1) / 2) hp1 (by omega) (by omega)
        rw [getD_set_ne _ _ (((hole - 1) / 2 - 1) / 2) _ (by omega),
          getD_set_ne _ _ ((hole - 1) / 2) _ (by omega)] at hAp
        by_cases hkh : k = hole
        · rw [hkh, getD_set_eq _ _ _ (by omega)]
          exact hAp
        · rw [getD_set_ne _ _ k _ (fun h => hkh h.symm)]
          have hAk := hA k hk1 hk2 hkh
          rw [hkp, getD_set_ne _ _ ((hole - 1) / 2) _ (by omega),
            getD_set_ne _ _ k _ (fun h => hkh h.symm)] at hAk
          omega
    · rw [if_neg hc]
      dsimp only
      intro k hk1 hk2
      by_cases hkh : k = hole
      · rw [hkh, getD_set_eq _ _ _ (by omega), getD_set_ne _ _ _ _ (by omega)]
        have : ¬ (c.getD ((hole - 1) / 2) default).f > value.f := fun hh => hc ⟨by omega, hh⟩
        omega
      · exact hA k hk1 hk2 hkh

theorem pq_push_heap (c : List Item) (x : Item) (h : IsHeap c) : IsHeap (pq_push c x) := by
  have hlen : (pq_push c x).length = c.length + 1 := by
    rw [(pq_push_perm c x).length_eq, List.length_cons]
  unfold IsHeap
  rw [hlen]
  unfold pq_push std_push_heap
  dsimp only
  have hset : (c ++ [x]).set c.length x = c ++ [x] := by
    have := set_getD_self (c ++ [x]) c.length
    rw [List.getD_append_right _ _ _ _ (le_refl _), Nat.sub_self] at this
    exact this
  apply heapSiftUp_heap x (c.length + 1) (c.length + 1) (c ++ [x]) c.length (by omega)
    (by rw [List.length_append, List.length_singleton]) (by omega)
  · intro k hk1 hk2 hkh
    rw [hset, List.getD_append _ _ _ _ (by omega), List.getD_append _ _ _ _ (by omega)]
    exact h k hk1 (by omega)
  · intro k hk1 hk2 hkp _
    omega

theorem holeHeap_step (len : Nat) (c : List Item) (hole s : Nat) (hl : len ≤ c.length)
    (hh : hole < len) (hs : s < len) (hps : (s - 1) / 2 = hole) (hs1 : 1 ≤ s)
    (hmin : ∀ k, 1 ≤ k → k < len → (k - 1) / 2 = hole →
      (c.getD s default).f ≤ (c.getD k default).f)
    (h : HoleHeap len c hole) : HoleHeap len (c.set hole (c.getD s default)) s := by
  obtain ⟨q1, q2⟩ := h
  have hsh : hole < s := by omega
  constructor
  · intro k hk1 hk2 hks hpks
    by_cases hkh : k = hole
    · rw [hkh, getD_set_eq _ _ _ (by omega), getD_set_ne _ _ _ _ (by omega)]
      exact q2 s hs1 hs hps (by omega)
    · rw [getD_set_ne _ _ k _ (fun h => hkh h.symm)]
      by_cases hpk : (k - 1) / 2 = hole
      · rw [hpk, getD_set_eq _ _ _ (by omega)]
        exact hmin k hk1 hk2 hpk
      · rw [getD_set_ne _ _ _ _ (fun h => hpk h.symm)]
        exact q1 k hk1 hk2 hkh hpk
  · intro k hk1 hk2 hpk _
    rw [hps, getD_set_eq _ _ _ (by omega), getD_set_ne _ _ k _ (by omega)]
    have := q1 k hk1 hk2 (by omega) (by omega)
    rw [hpk] at this
    exact this

theorem heapSiftDown_heap (len : Nat) (fuel : Nat) :
    ∀ (c : List Item) (hole : Nat), hole < len → len ≤ c.length → len ≤ hole + fuel →
      HoleHeap len c hole →
      HoleHeap len (heapSiftDown len fuel c hole hole).1 (heapSiftDown len fuel c hole hole).2.1
        ∧ ¬ (heapSiftDown len fuel c hole hole).2.1 < (len - 1) / 2 := by
  induction fuel with
  | zero => intro c hole hh _ hf _; omega
  | succ fuel ih =>
    intro c hole hh hl hf hq
    unfold heapSiftDown
    dsimp only
    by_cases hc : hole < (len - 1) / 2
    · rw [if_pos hc]
      by_cases hcmp : (c.getD (2 * (hole + 1)) default).f > (c.getD (2 * (hole + 1) - 1) default).f
      · rw [if_pos hcmp]
        apply ih _ _ (by omega) (by rw [List.length_set]; exact hl) (by omega)
        apply holeHeap_step len c hole (2 * (hole + 1) - 1) hl hh (by omega) (by omega) (by omega)
          _ hq
        intro k hk1 hk2 hpk
        have hk : k = 2 * (hole + 1) - 1 ∨ k = 2 * (hole + 1) := by omega
        rcases hk with hk | hk
        · rw [hk]
        · rw [hk]; omega
      · rw [if_neg hcmp]
        apply ih _ _ (by omega) (by rw [List.length_set]; exact hl) (by omega)
        apply holeHeap_step len c hole (2 * (hole + 1)) hl hh (by omega) (by omega) (by omega)
          _ hq
        intro k hk1 hk2 hpk
        have hk : k = 2 * (hole + 1) - 1 ∨ k = 2 * (hole + 1) := by omega
        rcases hk with hk | hk
        · rw [hk]; omega
        · rw [hk]
    · rw [if_neg hc]
      exact ⟨hq, hc⟩

theorem std_adjust_heap_heap (c : List Item) (len : Nat) (value : Item) (h1 : 1 ≤ len)
    (hl : len ≤ c.length) (hq : HoleHeap len c 0) :
    HeapUpTo len (std_adjust_heap c 0 len value) := by
  obtain ⟨r1, r2, r3, _, _⟩ := heapSiftDown_spec len value len c 0 (by omega) hl
  obtain ⟨d1, d2⟩ := heapSiftDown_heap len len c 0 (by omega) hl (by omega) hq
  unfold std_adjust_heap
  dsimp only
  generalize heapSiftDown len len c 0 0 = st at r1 r2 r3 d1 d2 ⊢
  by_cases hc : len % 2 = 0 ∧ st.2.2 = (len - 2) / 2
  · rw [if_pos hc]
    dsimp only
    have hstep := holeHeap_step len st.1 st.2.1 (2 * (st.2.2 + 1) - 1) (by omega) r3 (by omega)
      (by omega) (by omega)
      (by
        intro k hk1 hk2 hpk
        have hk : k = 2 * (st.2.2 + 1) - 1 := by omega
        rw [hk])
      d1
    unfold std_push_heap
    dsimp only
    apply heapSiftUp_heap value len (2 * (st.2.2 + 1) - 1 + 1) _ _ (by omega)
      (by rw [List.length_set]; omega) (by omega)
    · intro k hk1 hk2 hkh
      rw [getD_set_ne _ _ k _ (fun h => hkh h.symm), getD_set_ne _ _ _ _ (by omega)]
      exact hstep.1 k hk1 hk2 hkh (by omega)
    · intro k hk1 hk2 hpk _
      omega
  · rw [if_neg hc]
    dsimp only
    unfold std_push_heap
    dsimp only
    apply heapSiftUp_heap value len (st.2.1 + 1) _ _ r3 (by omega) (by omega)
    · intro k hk1 hk2 hkh
      rw [getD_set_ne _ _ k _ (fun h => hkh h.symm), getD_set_ne _ _ _ _ (by omega)]
      exact d1.1 k hk1 hk2 hkh (by omega)
    · intro k hk1 hk2 hpk _
      omega

theorem getD_dropLast (l : List Item) (k : Nat) (hk : k + 1 < l.length) :
    l.dropLast.getD k default = l.getD k default := by
  rw [List.getD_eq_getElem _ _ (by rw [List.length_dropLast]; omega),
    List.getD_eq_getElem _ _ (by omega), List.getElem_dropLast]

theorem pq_pop_heap (c : List Item) (h : IsHeap c) : IsHeap (pq_pop c) := by
  unfold pq_pop
  by_cases h1 : c.length > 1
  · rw [if_pos h1]
    dsimp only
    have hq : HoleHeap (c.length - 1) (c.set (c.length - 1) (c.getD 0 default)) 0 := by
      constructor
      · intro k hk1 hk2 _ _
        rw [getD_set_ne _ _ k _ (by omega), getD_set_ne _ _ _ _ (by omega)]
        exact h k hk1 (by omega)
      · intro k _ _ _ h0
        omega
    have hlen := (std_adjust_heap_spec (c.set (c.length - 1) (c.getD 0 default))
      (c.length - 1) (c.getD (c.length - 1) default) (by omega)
      (by rw [List.length_set]; omega)).1
    have hheap := std_adjust_heap_heap (c.set (c.length - 1) (c.getD 0 default))
      (c.length - 1) (c.getD (c.length - 1) default) (by omega)
      (by rw [List.length_set]; omega) hq
    generalize std_adjust_heap (c.set (c.length - 1) (c.getD 0 default)) 0 (c.length - 1)
      (c.getD (c.length - 1) default) = r at hlen hheap ⊢
    rw [List.length_set] at hlen
    unfold IsHeap
    rw [List.length_dropLast, hlen]
    intro k hk1 hk2
    rw [getD_dropLast r k (by omega), getD_dropLast r _ (by omega)]
    exact hheap k hk1 hk2
  · rw [if_neg h1]
    unfold IsHeap
    rw [List.length_dropLast]
    intro k hk1 hk2
    omega

theorem huffBuild_perm (q : List (Nat × HTree)) (t : HTree) (h : HuffBuild q t) :
    ∀ q2 : List (Nat × HTree), q2.Perm q → HuffBuild q2 t := by
  induction h with
  | single f t =>
    intro q2 hp
    rw [List.perm_singleton.mp hp]
    exact HuffBuild.single f t
  | merge q rest a b t hperm ha hb _ _ =>
    intro q2 hp
    exact HuffBuild.merge q2 rest a b t (hp.trans hperm) (fun x hx => ha x (hp.subset hx)) hb
      (by assumption)

theorem pqView_snoc (trees : List HTree) (t : HTree) (pq : List Item)
    (h : ∀ it ∈ pq, it.id < trees.length) : pqView (trees ++ [t]) pq = pqView trees pq := by
  unfold pqView
  apply List.map_congr_left
  intro it hit
  rw [List.getD_append _ _ _ _ (h it hit)]

theorem heapInv_push_leaf (tn : List T) (pq : List Item) (L : List (Nat × HTree))
    (h : HeapInv tn pq L) (f s : Nat) :
    HeapInv (tn ++ [(⟨f, tn.length, -1, -1, (s : Int)⟩ : T)])
      (pq_push pq ⟨f, tn.length⟩) (L ++ [(f, .leaf s)]) := by
  obtain ⟨trees, hF, hid, hheap, hperm⟩ := h
  have hp := pq_push_perm pq ⟨f, tn.length⟩
  refine ⟨trees ++ [.leaf s], forest_snoc_leaf tn trees hF f s, fun it hit => ?_,
    pq_push_heap pq _ hheap, ?_⟩
  · rw [List.length_append, List.length_singleton]
    rcases List.mem_cons.mp (hp.subset hit) with h1 | h1
    · rw [h1]; exact Nat.lt_succ_self _
    · exact Nat.lt_succ_of_lt (hid it h1)
  · have e1 : (pqView (trees ++ [.leaf s]) (pq_push pq ⟨f, tn.length⟩)).Perm
        (pqView (trees ++ [.leaf s]) (⟨f, tn.length⟩ :: pq)) := hp.map _
    refine e1.trans ?_
    unfold pqView
    rw [List.map_cons]
    have e2 := pqView_snoc trees (.leaf s) pq (by rw [hF.1]; exact hid)
    unfold pqView at e2
    rw [e2]
    dsimp only
    rw [List.getD_append_right _ _ _ _ (by rw [hF.1]), hF.1, Nat.sub_self]
    have e3 : ((f, HTree.leaf s) :: pqView trees pq).Perm (L ++ [(f, HTree.leaf s)]) :=
      (@List.perm_append_comm _ [(f, HTree.leaf s)] (pqView trees pq)).trans
        (hperm.append_right _)
    exact e3

theorem huffInit_heap (freq : List Nat) :
    HeapInv (huffInit freq).1 (huffInit freq).2
      ((nonzeroSyms freq).map (fun s => (freq.getD s 0, HTree.leaf s))) := by
  unfold huffInit
  generalize nonzeroSyms freq = syms
  induction syms using List.reverseRecOn with
  | nil =>
    exact ⟨[], ⟨rfl, fun k hk => absurd hk (Nat.not_lt_zero _)⟩,
      fun it hit => absurd hit (List.not_mem_nil it),
      fun k _ hk => absurd hk (Nat.not_lt_zero _), List.Perm.refl _⟩
  | append_singleton l s ih =>
    rw [List.foldl_append, List.foldl_cons, List.foldl_nil, List.map_append, List.map_cons,
      List.map_nil]
    exact heapInv_push_leaf _ _ _ ih (freq.getD s 0) s

theorem heapInv_merge (tn : List T) (pq : List Item) (trees : List HTree)
    (hF : Forest tn trees) (hid : ∀ it ∈ pq, it.id < tn.length) (hheap : IsHeap pq)
    (h2 : 2 ≤ pq.length) :
    Forest
        (tn ++ [(⟨((pq_top pq).f + (pq_top (pq_pop pq)).f) % 2 ^ 64, tn.length,
          ((pq_top pq).id : Int), ((pq_top (pq_pop pq)).id : Int), -1⟩ : T)])
        (trees ++ [.node (trees.getD (pq_top pq).id (.leaf 0))
          (trees.getD (pq_top (pq_pop pq)).id (.leaf 0))])
      ∧ (∀ it ∈ pq_push (pq_pop (pq_pop pq))
            ⟨((pq_top pq).f + (pq_top (pq_pop pq)).f) % 2 ^ 64, tn.length⟩,
          it.id < tn.length + 1)
      ∧ IsHeap (pq_push (pq_pop (pq_pop pq))
          ⟨((pq_top pq).f + (pq_top (pq_pop pq)).f) % 2 ^ 64, tn.length⟩)
      ∧ (pq_push (pq_pop (pq_pop pq))
          ⟨((pq_top pq).f + (pq_top (pq_pop pq)).f) % 2 ^ 64, tn.length⟩).length + 1 = pq.length
      ∧ ∀ t, HuffBuild
          (pqView (trees ++ [.node (trees.getD (pq_top pq).id (.leaf 0))
              (trees.getD (pq_top (pq_pop pq)).id (.leaf 0))])
            (pq_push (pq_pop (pq_pop pq))
              ⟨((pq_top pq).f + (pq_top (pq_pop pq)).f) % 2 ^ 64, tn.length⟩)) t →
          HuffBuild (pqView trees pq) t := by
  have hne : pq ≠ [] := by intro h; rw [h] at h2; simp at h2
  have p1 := pq_pop_perm pq hne
  have hl1 : (pq_pop pq).length + 1 = pq.length := by
    rw [← p1.length_eq, List.length_cons]
  have hne1 : pq_pop pq ≠ [] := by intro h; rw [h] at hl1; simp at hl1; omega
  have p2 := pq_pop_perm (pq_pop pq) hne1
  have hl2 : (pq_pop (pq_pop pq)).length + 1 = (pq_pop pq).length := by
    rw [← p2.length_eq, List.length_cons]
  have hh1 := pq_pop_heap pq hheap
  have hh2 := pq_pop_heap (pq_pop pq) hh1
  have ha : (pq_top pq).id < tn.length := hid _ (p1.subset (List.mem_cons_self _ _))
  have hb : (pq_top (pq_pop pq)).id < tn.length :=
    hid _ (p1.subset (List.mem_cons_of_mem _ (p2.subset (List.mem_cons_self _ _))))
  have hid2 : ∀ it ∈ pq_pop (pq_pop pq), it.id < tn.length := fun it hit =>
    hid _ (p1.subset (List.mem_cons_of_mem _ (p2.subset (List.mem_cons_of_mem _ hit))))
  have p3 := pq_push_perm (pq_pop (pq_pop pq))
    ⟨((pq_top pq).f + (pq_top (pq_pop pq)).f) % 2 ^ 64, tn.length⟩
  refine ⟨forest_snoc_node tn trees hF _ _ _ ha hb, fun it hit => ?_,
    pq_push_heap _ _ hh2, by rw [p3.length_eq, List.length_cons]; omega, fun t ht => ?_⟩
  · rcases List.mem_cons.mp (p3.subset hit) with h | h
    · rw [h]; exact Nat.lt_succ_self _
    · exact Nat.lt_succ_of_lt (hid2 it h)
  · have e1 : (pq_top pq :: pq_top (pq_pop pq) :: pq_pop (pq_pop pq)).Perm pq :=
      (List.Perm.cons _ p2).trans p1
    have e2 : (pqView trees pq).Perm
        (((pq_top pq).f, trees.getD (pq_top pq).id (.leaf 0))
          :: ((pq_top (pq_pop pq)).f, trees.getD (pq_top (pq_pop pq)).id (.leaf 0))
          :: pqView trees (pq_pop (pq_pop pq))) := (e1.map _).symm
    apply HuffBuild.merge (pqView trees pq) (pqView trees (pq_pop (pq_pop pq)))
      ((pq_top pq).f, trees.getD (pq_top pq).id (.leaf 0))
      ((pq_top (pq_pop pq)).f, trees.getD (pq_top (pq_pop pq)).id (.leaf 0)) t e2
    · intro x hx
      unfold pqView at hx
      rw [List.mem_map] at hx
      obtain ⟨it, hit, hxe⟩ := hx
      rw [← hxe]
      exact pq_top_min pq hheap it hit
    · intro x hx
      have hx2 : x ∈ pqView trees (pq_top (pq_pop pq) :: pq_pop (pq_pop pq)) := hx
      unfold pqView at hx2
      rw [List.mem_map] at hx2
      obtain ⟨it, hit, hxe⟩ := hx2
      rw [← hxe]
      exact pq_top_min (pq_pop pq) hh1 it (p2.subset hit)
    · apply huffBuild_perm _ t ht
      have e3 : (pqView (trees ++ [.node (trees.getD (pq_top pq).id (.leaf 0))
            (trees.getD (pq_top (pq_pop pq)).id (.leaf 0))])
          (pq_push (pq_pop (pq_pop pq))
            ⟨((pq_top pq).f + (pq_top (pq_pop pq)).f) % 2 ^ 64, tn.length⟩)).Perm
          (pqView (trees ++ [.node (trees.getD (pq_top pq).id (.leaf 0))
            (trees.getD (pq_top (pq_pop pq)).id (.leaf 0))])
          (⟨((pq_top pq).f + (pq_top (pq_pop pq)).f) % 2 ^ 64, tn.length⟩
            :: pq_pop (pq_pop pq))) := p3.map _
      refine List.Perm.trans ?_ e3.symm
      have e4 := pqView_snoc trees (.node (trees.getD (pq_top pq).id (.leaf 0))
        (trees.getD (pq_top (pq_pop pq)).id (.leaf 0))) (pq_pop (pq_pop pq))
        (by rw [hF.1]; exact hid2)
      have e5 : pqView (trees ++ [.node (trees.getD (pq_top pq).id (.leaf 0))
            (trees.getD (pq_top (pq_pop pq)).id (.leaf 0))])
          (⟨((pq_top pq).f + (pq_top (pq_pop pq)).f) % 2 ^ 64, tn.length⟩
            :: pq_pop (pq_pop pq))
          = (((pq_top pq).f + (pq_top (pq_pop pq)).f) % 2 ^ 64,
              HTree.node (trees.getD (pq_top pq).id (.leaf 0))
                (trees.getD (pq_top (pq_pop pq)).id (.leaf 0)))
            :: pqView trees (pq_pop (pq_pop pq)) := by
        rw [← e4]
        unfold pqView
        rw [List.map_cons]
        dsimp only
        rw [List.getD_append_right _ _ _ _ (by rw [hF.1]), hF.1, Nat.sub_self]
        rfl
      rw [e5]

theorem heapLoop_spec (fuel : Nat) :
    ∀ (tn : List T) (pq : List Item) (root : Int) (trees : List HTree),
      Forest tn trees → (∀ it ∈ pq, it.id < tn.length) → IsHeap pq → 1 ≤ pq.length →
      pq.length ≤ fuel + 1 → (2 ≤ pq.length ∨ root = ((pq_top pq).id : Int)) →
      ∃ (trees2 : List HTree) (k : Nat), Forest (Huffman.mergeLoop fuel tn pq root).1 trees2
        ∧ (Huffman.mergeLoop fuel tn pq root).2.2 = (k : Int)
        ∧ k < (Huffman.mergeLoop fuel tn pq root).1.length
        ∧ HuffBuild (pqView trees pq) (trees2.getD k (.leaf 0)) := by
  have hexit : ∀ (tn : List T) (pq : List Item) (root : Int) (trees : List HTree),
      Forest tn trees → (∀ it ∈ pq, it.id < tn.length) → pq.length = 1 →
      root = ((pq_top pq).id : Int) →
      ∃ (trees2 : List HTree) (k : Nat), Forest tn trees2 ∧ root = (k : Int) ∧ k < tn.length
        ∧ HuffBuild (pqView trees pq) (trees2.getD k (.leaf 0)) := by
    intro tn pq root trees hF hid h1 hr
    match pq, h1 with
    | [x], _ =>
      exact ⟨trees, x.id, hF, hr, hid x (List.mem_singleton_self x), HuffBuild.single _ _⟩
  induction fuel with
  | zero =>
    intro tn pq root trees hF hid _ h1 hf hr
    unfold Huffman.mergeLoop
    exact hexit tn pq root trees hF hid (by omega) (by rcases hr with h | h; omega; exact h)
  | succ fuel ih =>
    intro tn pq root trees hF hid hheap h1 hf hr
    unfold Huffman.mergeLoop
    by_cases h2 : pq.length ≥ 2
    · rw [if_pos h2]
      dsimp only
      have hgetf : ∀ x : T, (tn ++ [x]).getD tn.length default = x := by
        intro x
        rw [List.getD_append_right _ _ _ _ (le_refl _), Nat.sub_self]
        rfl
      rw [hgetf]
      dsimp only
      obtain ⟨m1, m2, m3, m4, m5⟩ := heapInv_merge tn pq trees hF hid hheap h2
      have p3 := pq_push_perm (pq_pop (pq_pop pq))
        ⟨((pq_top pq).f + (pq_top (pq_pop pq)).f) % 2 ^ 64, tn.length⟩
      obtain ⟨trees2, k, r1, r2, r3, r4⟩ := ih _ _ ((tn.length : Nat) : Int) _ m1
        (by
          intro it hit
          rw [List.length_append, List.length_singleton]
          exact m2 it hit)
        m3 (by omega) (by omega)
        (by
          by_cases h3 : 2 ≤ (pq_push (pq_pop (pq_pop pq))
              ⟨((pq_top pq).f + (pq_top (pq_pop pq)).f) % 2 ^ 64, tn.length⟩).length
          · exact Or.inl h3
          · right
            have hnil : pq_pop (pq_pop pq) = [] := by
              apply List.length_eq_zero.mp
              have := p3.length_eq
              rw [List.length_cons] at this
              omega
            rw [hnil] at p3 ⊢
            rw [List.perm_singleton.mp p3]
            rfl)
      exact ⟨trees2, k, r1, r2, r3, m5 _ r4⟩
    · rw [if_neg h2]
      exact hexit tn pq root trees hF hid (by omega) (by rcases hr with h | h; omega; exact h)

theorem huffMerged_heap (freq : List Nat) (h2 : 2 ≤ (nonzeroSyms freq).length) :
    ∃ (trees : List HTree) (k : Nat), Forest (huffMerged freq).1 trees
      ∧ (huffMerged freq).2.2 = (k : Int) ∧ k < (huffMerged freq).1.length
      ∧ HuffBuild ((nonzeroSyms freq).map (fun s => (freq.getD s 0, HTree.leaf s)))
          (trees.getD k (.leaf 0)) := by
  obtain ⟨_, hl⟩ := huffInit_spec freq
  obtain ⟨trees, hF, hid, hheap, hperm⟩ := huffInit_heap freq
  obtain ⟨trees2, k, r1, r2, r3, r4⟩ := heapLoop_spec (huffInit freq).2.length (huffInit freq).1
    (huffInit freq).2 (-1) trees hF hid hheap (by omega) (by omega) (Or.inl (by omega))
  exact ⟨trees2, k, r1, r2, r3, huffBuild_perm _ _ r4 _ hperm.symm⟩

/-- C22, counterexample: for the frequencies 2, 2, 1 `buildFromFreq` gives the
code lengths 1, 2, 2, while combining the two nodes of lowest frequency with
ties broken by insertion order gives the leaf depths 2, 1, 2 (symbol 2 is
combined with symbol 0, which was inserted before symbol 1). -/
theorem huffman_ties_not_insertion_order :
    2 ≤ (nonzeroSyms [2, 2, 1]).length
      ∧ (Huffman.buildFromFreq [2, 2, 1]).codeLen = [1, 2, 2]
      ∧ specCodeLen [2, 2, 1] = [2, 1, 2]
      ∧ (Huffman.buildFromFreq [2, 2, 1]).codeLen ≠ specCodeLen [2, 2, 1] := by
  refine ⟨by decide, by decide, by decide, by decide⟩

/-- C22, amended: for every frequency vector (of fewer than `2^31` symbols) with
at least two and at most 256 non-zero entries, the code lengths of
`buildFromFreq` are the leaf depths of a tree obtained by repeatedly combining
a node of lowest frequency with a node of lowest frequency among the others,
the frequency of the parent being the sum modulo `2^64`; which of several nodes
of equal frequency is taken is fixed by the heap order of the priority queue,
not by insertion order. Symbols of frequency zero have length 0. -/
theorem huffman_lowest_two (freq : List Nat) (_hlen : freq.length < 2 ^ 31)
    (h2 : 2 ≤ (nonzeroSyms freq).length) (h256 : (nonzeroSyms freq).length ≤ 256) :
    ∃ t : HTree,
      HuffBuild ((nonzeroSyms freq).map (fun s => (freq.getD s 0, HTree.leaf s))) t
        ∧ (t.leaves).Perm (nonzeroSyms freq)
        ∧ (∀ p ∈ t.leavesD 0, (Huffman.buildFromFreq freq).codeLen.getD p.1 0 = p.2)
        ∧ (∀ s, s ∉ nonzeroSyms freq → (Huffman.buildFromFreq freq).codeLen.getD s 0 = 0) := by
  obtain ⟨trees, k, hF, hk1, hperm, hcl⟩ := buildFromFreq_tree freq h2
  obtain ⟨trees2, k2, hF2, hk2, hk3, hb⟩ := huffMerged_heap freq h2
  have hkk : k2 = k := by rw [hk1] at hk2; omega
  rw [hkk] at hk3 hb
  rw [← forest_unique _ trees trees2 hF hF2 k hk3] at hb
  generalize trees.getD k (.leaf 0) = t at hperm hcl hb
  have hnd : t.leaves.Nodup := hperm.nodup_iff.mpr (nonzeroSyms_nodup freq)
  have hlt : ∀ s ∈ t.leaves, s < (List.replicate freq.length 0).length := by
    intro s hs
    rw [List.length_replicate]
    exact ((nonzeroSyms_mem freq s).mp (hperm.subset hs)).1
  obtain ⟨_, a2, a3⟩ := apply_spec t 0 (List.replicate freq.length 0) hnd hlt
  cases t with
  | leaf s =>
    have := hperm.length_eq
    rw [HTree.leaves, List.length_singleton] at this
    omega
  | node a b =>
    refine ⟨.node a b, hb, hperm, fun p hp => ?_, fun s hs => ?_⟩
    · have h1 := leavesD_node_depth a b 0 p hp
      have h3 := (leavesD_depth (HTree.node a b) 0 p hp).2
      rw [hperm.length_eq] at h3
      rw [hcl, a2 p hp, if_neg (by omega)]
      exact Nat.mod_eq_of_lt (by omega)
    · rw [hcl, a3 s (fun hh => hs (hperm.subset hh))]
      exact getD_zero_of_all_zero _ (fun x hx => List.eq_of_mem_replicate hx) s

/-- Witness for the amended C22: the frequencies 2, 2, 1. -/
theorem huffman_lowest_two_witness :
    ([2, 2, 1] : List Nat).length < 2 ^ 31 ∧ 2 ≤ (nonzeroSyms [2, 2, 1]).length
      ∧ (nonzeroSyms [2, 2, 1]).length ≤ 256
      ∧ ∃ t : HTree,
        HuffBuild ((nonzeroSyms [2, 2, 1]).map
            (fun s => (([2, 2, 1] : List Nat).getD s 0, HTree.leaf s))) t
          ∧ (t.leaves).Perm (nonzeroSyms [2, 2, 1])
          ∧ (∀ p ∈ t.leavesD 0, (Huffman.buildFromFreq [2, 2, 1]).codeLen.getD p.1 0 = p.2)
          ∧ (∀ s, s ∉ nonzeroSyms [2, 2, 1] →
              (Huffman.buildFromFreq [2, 2, 1]).codeLen.getD s 0 = 0) :=
  ⟨by decide, by decide, by decide,
    huffman_lowest_two [2, 2, 1] (by decide) (by decide) (by decide)⟩

end edu
